import Mathlib

/-!
# Sithon: lexer, runtime object model and AST evaluator

A shallow embedding of `lexer.cpp`, `object.cpp`, `object_holder.cpp`,
`comparators.cpp` and `statement.cpp`.

* C++ exceptions are an explicit `Outcome`: a `std::runtime_error` in flight is
  `raised`, the `ObjectHolder` thrown by `Return::Execute` is `returned`.
* `ClassInstance` objects are mutable and shared through handles, so they live
  in a heap indexed by address; `Number`, `String`, `Bool` and `Class` objects
  are immutable and are carried by value.
* `int` is a 32-bit two's complement integer (`wrap32`).
* Recursion through method calls is bounded by a fuel argument; `timeout` is the
  answer of an exhausted budget, never a behaviour of the program.
* What the C++ standard leaves to the implementation is a field of `Host`, but for
  `char`, which is signed, as on x86.
* A source text is a list of bytes, each a `Char` below 256.
-/

namespace Sithon

/-- Reduce an integer to the range of a 32-bit two's complement `int`. -/
def wrap32 (x : Int) : Int := (x + 2147483648) % 4294967296 - 2147483648

/-! ## lexer.h / lexer.cpp -/

namespace Parse

/-- The `Token` variant of `lexer.h`. -/
inductive Token where
  | Number (value : Int)
  | Id (value : String)
  | Char (value : Char)
  | String (value : String)
  | Class | Return | If | Else | Def | Newline | Print | Indent | Dedent
  | And | Or | Not | Eq | NotEq | LessOrEq | GreaterOrEq | None | True | False | Eof
  deriving DecidableEq, Repr

/-- What a lexer call can end with instead of a token: a thrown `LexerError`, or a
loop that never ends (the string loop when `Get` keeps answering `Eof`). -/
inductive LexFailure where
  | LexerError (msg : String)
  | nonterminating
  deriving DecidableEq, Repr

/-- The C locale's `isspace`. -/
def isspace (c : Char) : Bool :=
  c == ' ' || c == '\t' || c == '\n' || c == '\x0b' || c == '\x0c' || c == '\r'

/-- The C locale's `isdigit`. -/
def isdigit (c : Char) : Bool := '0' ≤ c && c ≤ '9'

/-- The C locale's `isalpha`. -/
def isalpha (c : Char) : Bool := ('a' ≤ c && c ≤ 'z') || ('A' ≤ c && c ≤ 'Z')

/-- The C locale's `isalnum`. -/
def isalnum (c : Char) : Bool := isalpha c || isdigit c

/-- The lines `std::getline` hands out for a text, `line` being the characters of the
line under way: a line feed closes a line, and what follows the last line feed is a
line when it is not empty. -/
def getlinesFrom : List Char → List Char → List (List Char)
  | line, [] => if line.isEmpty then [] else [line]
  | line, c :: cs => if c = '\n' then line :: getlinesFrom [] cs else getlinesFrom (line ++ [c]) cs

/-- The lines of a text. -/
def getlines (text : List Char) : List (List Char) := getlinesFrom [] text

/-- The state of `IndentedReader`. `input` holds the lines the underlying stream has
not handed out yet and `input_ok` is the stream's `operator bool`: it turns false
when a `getline` fails. -/
structure IndentedReader where
  input : List (List Char)
  input_ok : Bool
  line_number : Nat
  current_line_input : List Char
  current_indent : Nat
  deriving DecidableEq, Repr

namespace IndentedReader

/-- The loop of `IndentedReader::NextLine`, over the lines still to be read. -/
def NextLineLoop (r : IndentedReader) : List (List Char) → Nat → Except LexFailure IndentedReader
  | [], line_number =>
    .ok { r with input := [], input_ok := false, line_number := line_number, current_indent := 0 }
  | line :: rest, line_number =>
    let leading_spaces := (line.takeWhile isspace).length
    if leading_spaces < line.length then
      if leading_spaces % 2 == 1 then
        .error (.LexerError ("Odd number of spaces at the beginning of line " ++ String.mk line))
      else
        .ok { r with input := rest, line_number := line_number + 1,
                     current_indent := leading_spaces / 2,
                     current_line_input := line.drop leading_spaces }
    else NextLineLoop r rest (line_number + 1)

/-- `IndentedReader::NextLine`. -/
def NextLine (r : IndentedReader) : Except LexFailure IndentedReader :=
  NextLineLoop r r.input r.line_number

/-- `IndentedReader::IndentedReader`. -/
def new (text : List Char) : Except LexFailure IndentedReader :=
  NextLine { input := getlines text, input_ok := true, line_number := 0,
             current_line_input := [], current_indent := 0 }

/-- `IndentedReader::Get`; `none` is `IndentedReader::Eof`. -/
def Get (r : IndentedReader) : Option Char × IndentedReader :=
  if !r.input_ok then (none, r)
  else
    match r.current_line_input with
    | c :: rest => (some c, { r with current_line_input := rest })
    | [] => (some '\n', r)

/-- `IndentedReader::Next`: the formatted extraction `>> c` skips white space. `c` is a
`char`, which is signed on x86, and `return c;` converts it to `int`: the byte 0xFF is
-1, which is `IndentedReader::Eof`. A byte from 0x80 to 0xFE comes back as a negative
`int` other than -1, and what reads the look-ahead treats it as it treats the byte. -/
def Next (r : IndentedReader) : Option Char × IndentedReader :=
  if !r.input_ok then (none, r)
  else
    match r.current_line_input.dropWhile isspace with
    | c :: rest => (if c = '\xff' then none else some c, { r with current_line_input := rest })
    | [] => (some '\n', { r with current_line_input := [] })

/-- `IndentedReader::CurrentIndent`. -/
def CurrentIndent (r : IndentedReader) : Nat := r.current_indent

end IndentedReader

/-- The state of `Lexer`; `cur_char = none` is `IndentedReader::Eof`. -/
structure Lexer where
  char_reader : IndentedReader
  cur_char : Option Char
  indent : Nat
  current : Token
  deriving DecidableEq, Repr

namespace Lexer

/-- The table `keywords` of `NextTokenImpl`. -/
def keywords (value : String) : Option Token :=
  if value = "class" then some .Class
  else if value = "return" then some .Return
  else if value = "if" then some .If
  else if value = "else" then some .Else
  else if value = "def" then some .Def
  else if value = "print" then some .Print
  else if value = "and" then some .And
  else if value = "or" then some .Or
  else if value = "not" then some .Not
  else if value = "None" then some .None
  else if value = "True" then some .True
  else if value = "False" then some .False
  else none

/-- The digit loop: `while (isdigit(cur_char)) { value = value * 10 + (cur_char - '0');
cur_char = char_reader.Get(); }`, started at a digit `c`. Answers the value, the new
look-ahead and the rest of the line. -/
def readNumber (input_ok : Bool) : Int → Char → List Char → Int × Option Char × List Char
  | value, c, line =>
    let value := wrap32 (value * 10 + ((c.toNat : Int) - 48))
    if !input_ok then (value, none, line)
    else
      match line with
      | [] => (value, some '\n', [])
      | d :: rest => if isdigit d then readNumber input_ok value d rest else (value, some d, rest)

/-- The string loop, with the stream in a good state:
`while (((cur_char = Get()) != opener || previous_backslash) && cur_char != '\n')`. -/
def readString (opener : Char) : Bool → List Char → List Char → List Char × Char × List Char
  | _, value, [] => (value, '\n', [])
  | previous_backslash, value, c :: rest =>
    if (c != opener || previous_backslash) && c != '\n' then
      readString opener (c == '\\') (value ++ [c]) rest
    else (value, c, rest)

/-- The identifier loop: `do { value += cur_char; cur_char = Get(); }
while (isalnum(cur_char) || cur_char == '_');`. -/
def readId (input_ok : Bool) : List Char → Char → List Char → List Char × Option Char × List Char
  | value, c, line =>
    let value := value ++ [c]
    if !input_ok then (value, none, line)
    else
      match line with
      | [] => (value, some '\n', [])
      | d :: rest =>
        if isalnum d || d == '_' then readId input_ok value d rest else (value, some d, rest)

/-- The branches `=`, `!`, `<`, `>`: a following `=` makes the two-character token. -/
def twoCharOp (l : Lexer) (first : Char) (tok : Token) : Token × Lexer :=
  let g := l.char_reader.Get
  if g.1 = some '=' then
    let n := g.2.Next
    (tok, { l with char_reader := n.2, cur_char := n.1 })
  else (.Char first, { l with char_reader := g.2, cur_char := g.1 })

/-- The part of `NextTokenImpl` after the white space skip. -/
def scan (l : Lexer) : Except LexFailure (Token × Lexer) :=
  match l.cur_char with
  | none => .ok (.Eof, l)
  | some c =>
    if isdigit c then
      let r := readNumber l.char_reader.input_ok 0 c l.char_reader.current_line_input
      .ok (.Number r.1,
        { l with char_reader := { l.char_reader with current_line_input := r.2.2 }, cur_char := r.2.1 })
    else if c == '"' || c == '\'' then
      if !l.char_reader.input_ok then .error .nonterminating
      else
        let r := readString c false [] l.char_reader.current_line_input
        if r.2.1 != c then
          .error (.LexerError ("String " ++ String.mk r.1 ++ " has unbalanced quotes"))
        else
          let n := ({ l.char_reader with current_line_input := r.2.2 } : IndentedReader).Next
          .ok (.String (String.mk r.1), { l with char_reader := n.2, cur_char := n.1 })
    else if isalpha c || c == '_' then
      let r := readId l.char_reader.input_ok [] c l.char_reader.current_line_input
      let l1 : Lexer :=
        { l with char_reader := { l.char_reader with current_line_input := r.2.2 }, cur_char := r.2.1 }
      match keywords (String.mk r.1) with
      | some tok => .ok (tok, l1)
      | none => .ok (.Id (String.mk r.1), l1)
    else if c == '=' then .ok (twoCharOp l '=' .Eq)
    else if c == '!' then .ok (twoCharOp l '!' .NotEq)
    else if c == '<' then .ok (twoCharOp l '<' .LessOrEq)
    else if c == '>' then .ok (twoCharOp l '>' .GreaterOrEq)
    else
      let n := l.char_reader.Next
      .ok (.Char c, { l with char_reader := n.2, cur_char := n.1 })

/-- `Lexer::NextTokenImpl`. -/
def NextTokenImpl (l : Lexer) : Except LexFailure (Token × Lexer) :=
  if l.indent > l.char_reader.CurrentIndent then
    .ok (.Dedent, { l with indent := l.indent - 1 })
  else if l.indent < l.char_reader.CurrentIndent then
    .ok (.Indent, { l with indent := l.indent + 1 })
  else if l.cur_char = some '\n' then
    match l.char_reader.NextLine with
    | .error e => .error e
    | .ok r =>
      let g := r.Get
      .ok (.Newline, { l with char_reader := g.2, cur_char := g.1 })
  else
    match l.cur_char with
    | some c =>
      if isspace c then
        let n := l.char_reader.Next
        scan { l with char_reader := n.2, cur_char := n.1 }
      else scan l
    | none => scan l

/-- `Lexer::NextToken`. -/
def NextToken (l : Lexer) : Except LexFailure (Token × Lexer) :=
  match l.NextTokenImpl with
  | .error e => .error e
  | .ok (tok, l1) => .ok (tok, { l1 with current := tok })

/-- The member initialisers of `Lexer::Lexer` that come before `current`: the reader is
built, the look-ahead is read with `Get`, `indent` is 0. The value of `current` here
is never read. -/
def init (text : List Char) : Except LexFailure Lexer :=
  match IndentedReader.new text with
  | .error e => .error e
  | .ok r =>
    let g := r.Get
    .ok { char_reader := g.2, cur_char := g.1, indent := 0, current := .Eof }

/-- `Lexer::Lexer`: the last initialiser is `current(NextTokenImpl())`. -/
def new (text : List Char) : Except LexFailure Lexer :=
  match init text with
  | .error e => .error e
  | .ok l =>
    match l.NextToken with
    | .error e => .error e
    | .ok (_, l1) => .ok l1

/-- A token together with `char_reader.CurrentLineNumber()` and
`char_reader.CurrentIndent()` as they stood when the call of `NextTokenImpl` that
produced the token began: the line the reader was at and its indentation level. -/
structure Emitted where
  tok : Token
  line_number : Nat
  line_indent : Nat
  deriving DecidableEq, Repr

/-- The tokens of the next `n` calls of `NextTokenImpl`. -/
def pull : Nat → Lexer → Except LexFailure (List Emitted)
  | 0, _ => .ok []
  | n + 1, l =>
    match l.NextToken with
    | .error e => .error e
    | .ok (tok, l1) =>
      match pull n l1 with
      | .error e => .error e
      | .ok rest => .ok (⟨tok, l.char_reader.line_number, l.char_reader.CurrentIndent⟩ :: rest)

/-- The first `n` tokens of the stream of a text: `CurrentToken()` after construction,
then what successive `NextToken()` calls return. -/
def stream (text : List Char) (n : Nat) : Except LexFailure (List Emitted) :=
  match init text with
  | .error e => .error e
  | .ok l => pull n l

/-- The indentation level of line `k` of a text, the lines counted from 1 as
`line_number` does: the number of white space characters the line begins with, halved. -/
def lineLevel (text : List Char) (k : Nat) : Nat :=
  (((getlines text).getD (k - 1) []).takeWhile isspace).length / 2

/-- How many `Indent` tokens a piece of the stream holds. -/
def indents (ems : List Emitted) : Nat := (ems.filter fun e => e.tok = .Indent).length

/-- How many `Dedent` tokens a piece of the stream holds. -/
def dedents (ems : List Emitted) : Nat := (ems.filter fun e => e.tok = .Dedent).length

end Lexer

/-- What of a reader only `NextLine` changes: the lines still to be read, the state of
the stream, the line number and the indentation level. -/
def IndentedReader.position (r : IndentedReader) : List (List Char) × Bool × Nat × Nat :=
  (r.input, r.input_ok, r.line_number, r.current_indent)

/-- A reader over a text is consistent when, as long as no `getline` has failed, it is
at a line of the text, the lines after it are still to be read and its indentation
level is that of the line, and, once a `getline` has failed, nothing is left to be read
and its indentation level is 0. -/
def IndentedReader.Consistent (text : List Char) (r : IndentedReader) : Prop :=
  (r.input_ok = true →
    r.input = (getlines text).drop r.line_number ∧ 1 ≤ r.line_number ∧
      r.current_indent = Lexer.lineLevel text r.line_number) ∧
  (r.input_ok = false → r.input = [] ∧ r.current_indent = 0)

/-- A lexer over a text is consistent when its reader is and its look-ahead is `Eof`
exactly when a `getline` has failed. -/
def Lexer.Consistent (text : List Char) (l : Lexer) : Prop :=
  l.char_reader.Consistent text ∧ (l.cur_char = none ↔ l.char_reader.input_ok = false)

/-- Neither the rest of the current line nor a line still to be read holds the
character `bad`. -/
def IndentedReader.Without (bad : Char) (r : IndentedReader) : Prop :=
  bad ∉ r.current_line_input ∧ ∀ line ∈ r.input, bad ∉ line

/-- A reader that is further in the same line than another: the rest of its line is an
end of the rest of the other's line, and the rest is as in the other. -/
def IndentedReader.Within (r r1 : IndentedReader) : Prop :=
  r1.current_line_input <:+ r.current_line_input ∧ r1.position = r.position

end Parse

/-! ## object.h / object.cpp / object_holder.cpp -/

/-- The comparators of `comparators.cpp` a `Comparison` node can hold. -/
inductive Comparator where
  | Equal
  | Less
  deriving DecidableEq, Repr

mutual

/-- The AST nodes of `statement.cpp`. The four literal nodes and the node types are
declared in `statement.h`; a literal produces a fresh handle owning its value. -/
inductive Statement where
  | NumericConst (value : Int)
  | StringConst (value : String)
  | BoolConst (value : Bool)
  | None
  | Assignment (var_name : String) (right_value : Statement)
  | VariableValue (dotted_ids : List String)
  | Print (args : List Statement)
  | MethodCall (object : Statement) (method : String) (args : List Statement)
  | Stringify (argument : Statement)
  | Add (lhs rhs : Statement)
  | Sub (lhs rhs : Statement)
  | Mult (lhs rhs : Statement)
  | Div (lhs rhs : Statement)
  | Compound (statements : List Statement)
  | Return (statement : Statement)
  | ClassDefinition (cls : Class)
  | FieldAssignment (object : List String) (field_name : String) (right_value : Statement)
  | IfElse (condition if_body : Statement) (else_body : Option Statement)
  | Or (lhs rhs : Statement)
  | And (lhs rhs : Statement)
  | Not (argument : Statement)
  | Comparison (comparator : Comparator) (left right : Statement)
  | NewInstance (class_ : Class) (args : List Statement)

/-- `Runtime::Class`: its name, the method table `vmt` and the parent pointer, which
is null (`none`) for a class without a base. A class is immutable once built. -/
inductive Class where
  | mk (class_name : String) (vmt : List (String × Method)) (parent : Option Class)

/-- `Runtime::Method`. -/
inductive Method where
  | mk (name : String) (formal_params : List String) (body : Statement)

end

/-- The name of a method. -/
def Method.name : Method → String
  | .mk name _ _ => name

/-- The formal parameters of a method. -/
def Method.formal_params : Method → List String
  | .mk _ formal_params _ => formal_params

/-- The body of a method. -/
def Method.body : Method → Statement
  | .mk _ _ body => body

/-- `Class::GetName`. -/
def Class.GetName : Class → String
  | .mk class_name _ _ => class_name

/-- The method table of a class. -/
def Class.vmt : Class → List (String × Method)
  | .mk _ vmt _ => vmt

/-- The parent pointer of a class. -/
def Class.parent : Class → Option Class
  | .mk _ _ parent => parent

/-- The two kinds of failure of the evaluator: a `std::runtime_error` and undefined
behaviour (a null handle or a past-the-end iterator dereferenced, an object used after
its lifetime). -/
inductive Err where
  | runtime (what : String)
  | undefined (what : String)
  deriving DecidableEq, Repr

/-- The loop of the constructor `Class::Class` over `methods`: a name already in `vmt`
is an error. -/
def Class.fill (class_name : String) :
    List (String × Method) → List Method → Except Err (List (String × Method))
  | vmt, [] => .ok vmt
  | vmt, m :: rest =>
    match vmt.lookup m.name with
    | some _ =>
      .error (.runtime ("Class " ++ class_name ++ " has duplicate methods with name " ++ m.name))
    | none => Class.fill class_name (vmt ++ [(m.name, m)]) rest

/-- `Class::Class`. -/
def Class.new (name : String) (methods : List Method) (parent : Option Class) : Except Err Class :=
  match Class.fill name [] methods with
  | .error e => .error e
  | .ok vmt => .ok (.mk name vmt parent)

/-- `Class::GetMethod`. -/
def Class.GetMethod : Class → String → Option Method
  | .mk _ vmt parent, name =>
    match vmt.lookup name with
    | some m => some m
    | none =>
      match parent with
      | some p => p.GetMethod name
      | none => none

/-- `ObjectHolder`: the empty handle, or a handle to a value. A handle to a
`ClassInstance` is the address of the instance. -/
inductive ObjectHolder where
  | none
  | number (value : Int)
  | string (value : String)
  | bool (value : Bool)
  | class_ (cls : Class)
  | classInstance (addr : Nat)

/-- `Runtime::Closure`, a map from names to handles; a name occurs at most once. -/
abbrev Closure := List (String × ObjectHolder)

/-- `closure.find(name)`, as the handle found. -/
def Closure.find (closure : Closure) (name : String) : Option ObjectHolder :=
  List.lookup name closure

/-- `closure[name] = value`. -/
def Closure.assign : Closure → String → ObjectHolder → Closure
  | [], name, value => [(name, value)]
  | (k, v) :: rest, name, value =>
    if k = name then (k, value) :: rest else (k, v) :: Closure.assign rest name value

/-- `Runtime::ClassInstance`: the class it refers to and its fields. -/
structure ClassInstance where
  class_ : Class
  fields : Closure

/-- `ClassInstance::HasMethod`. -/
def ClassInstance.HasMethod (self : ClassInstance) (method : String) (argument_count : Nat) : Bool :=
  match self.class_.GetMethod method with
  | some m => m.formal_params.length == argument_count
  | none => false

/-- The store the evaluator works on: the `ClassInstance` objects by address (`none`
for an object whose lifetime has ended) and what has been written to `Print::output`. -/
structure Store where
  heap : List (Option ClassInstance)
  output : String

/-- The object a `ClassInstance` handle points to, if it is alive. -/
def Store.deref (st : Store) (addr : Nat) : Option ClassInstance :=
  match st.heap[addr]? with
  | some (some inst) => some inst
  | _ => Option.none

/-- `(*output) << text`. -/
def Store.write (st : Store) (text : String) : Store :=
  { st with output := st.output ++ text }

/-- `p->Fields()[field_name] = value` for the instance at `addr`. -/
def Store.assignField (st : Store) (addr : Nat) (field_name : String) (value : ObjectHolder) : Store :=
  match st.deref addr with
  | some inst =>
    { st with heap := st.heap.set addr (some { inst with fields := Closure.assign inst.fields field_name value }) }
  | Option.none => st

/-- `IsTrue` of `object_holder.cpp`. -/
def IsTrue (object : ObjectHolder) : Bool :=
  match object with
  | .none => false
  | .number value => value != 0
  | .string value => !value.isEmpty
  | .bool value => value
  | _ => false

/-- What the implementation decides: whether the past-the-end iterators of two
different `Closure` objects compare equal, how `os << this` renders the address of an
instance, and whether the two operands in the call `comparator(left->Execute(closure),
right->Execute(closure))` are evaluated right to left. The past-the-end iterators of
the `std::unordered_map` of libstdc++ and of libc++ all compare equal. -/
structure Host where
  end_shared : Bool
  pointer : Nat → String
  right_to_left : Bool

/-- The state an `Execute` call works on: the closure it was handed and the store. -/
structure Frame where
  closure : Closure
  store : Store

/-- How a call ends: normally with a result, with the `ObjectHolder` thrown by a
`Return` in flight, with an error in flight, or with the budget exhausted. -/
inductive Outcome (α σ : Type) where
  | normal (a : α) (s : σ)
  | returned (value : ObjectHolder) (s : σ)
  | raised (e : Err) (s : σ)
  | timeout

/-- Sequencing: what is in flight passes through the rest of the function. -/
def Outcome.bind {α β σ : Type} (r : Outcome α σ) (k : α → σ → Outcome β σ) : Outcome β σ :=
  match r with
  | .normal a s => k a s
  | .returned value s => .returned value s
  | .raised e s => .raised e s
  | .timeout => .timeout

/-- The outcome of a callee that has no access to `closure`, seen from a function that
holds `closure`. -/
def Outcome.inFrame {α : Type} (closure : Closure) (r : Outcome α Store) : Outcome α Frame :=
  match r with
  | .normal a s => .normal a ⟨closure, s⟩
  | .returned value s => .returned value ⟨closure, s⟩
  | .raised e s => .raised e ⟨closure, s⟩
  | .timeout => .timeout

/-- The type of `Statement::Execute`. -/
abbrev Executor := Statement → Closure → Store → Outcome ObjectHolder Frame

/-- The loop of `ClassInstance::Call` that binds the formal parameters:
`closure[m->formal_params[i]] = actual_args[i]`. -/
def bindParams : Closure → List String → List ObjectHolder → Closure
  | closure, p :: ps, a :: as => bindParams (Closure.assign closure p a) ps as
  | closure, _, _ => closure

/-- `ClassInstance::Call` on the instance at address `self`; `execute` is
`Statement::Execute`. -/
def ClassInstance.Call (execute : Executor) (self : Nat) (method : String)
    (actual_args : List ObjectHolder) (st : Store) : Outcome ObjectHolder Store :=
  match st.deref self with
  | Option.none => .raised (.undefined "call on a dead instance") st
  | some inst =>
    match inst.class_.GetMethod method with
    | Option.none =>
      .raised (.runtime ("Class " ++ inst.class_.GetName ++ " doesn't have method " ++ method)) st
    | some m =>
      if m.formal_params.length != actual_args.length then
        .raised (.runtime ("Method " ++ inst.class_.GetName ++ "::" ++ method ++ " expects "
          ++ toString m.formal_params.length ++ " arguments, but "
          ++ toString actual_args.length ++ " given")) st
      else
        let closure := bindParams [("self", .classInstance self)] m.formal_params actual_args
        match execute m.body closure st with
        | .normal value f => .normal value f.store
        | .returned returned_value f => .normal returned_value f.store
        | .raised e f => .raised e f.store
        | .timeout => .timeout

/-- The type of `ClassInstance::Call`, with the instance given by its address. -/
abbrev Caller := Nat → String → List ObjectHolder → Store → Outcome ObjectHolder Store

/-! ## comparators.cpp -/

/-- `TryCompare<Runtime::Number>`. -/
def TryCompareNumber (lhs rhs : ObjectHolder) (cmp : Int → Int → Bool) : Option Bool :=
  match lhs, rhs with
  | .number l, .number r => some (cmp l r)
  | _, _ => Option.none

/-- `TryCompare<Runtime::String>`. -/
def TryCompareString (lhs rhs : ObjectHolder) (cmp : String → String → Bool) : Option Bool :=
  match lhs, rhs with
  | .string l, .string r => some (cmp l r)
  | _, _ => Option.none

/-- `TryCompare<Runtime::Bool>`. -/
def TryCompareBool (lhs rhs : ObjectHolder) (cmp : Bool → Bool → Bool) : Option Bool :=
  match lhs, rhs with
  | .bool l, .bool r => some (cmp l r)
  | _, _ => Option.none

/-- The three `TryCompare` attempts of `Equal` and `Less`, in their order. -/
def TryCompare (lhs rhs : ObjectHolder) (cmpNumber : Int → Int → Bool)
    (cmpString : String → String → Bool) (cmpBool : Bool → Bool → Bool) : Option Bool :=
  match TryCompareNumber lhs rhs cmpNumber with
  | some result => some result
  | Option.none =>
    match TryCompareString lhs rhs cmpString with
    | some result => some result
    | Option.none => TryCompareBool lhs rhs cmpBool

/-- The step `if (auto p = lhs.TryAs<ClassInstance>(); p && p->HasMethod(method, 1))
return IsTrue(p->Call(method, {rhs}));` shared by `Equal` and `Less`; `otherwise` is
the rest of the function. -/
def compareByMethod (call : Caller) (method : String) (lhs rhs : ObjectHolder) (st : Store)
    (otherwise : Outcome Bool Store) : Outcome Bool Store :=
  match lhs with
  | .classInstance p =>
    match st.deref p with
    | Option.none => .raised (.undefined "dead instance used") st
    | some inst =>
      if inst.HasMethod method 1 then
        (call p method [rhs] st).bind fun value s => .normal (IsTrue value) s
      else otherwise
  | _ => otherwise

/-- `Runtime::Equal`. -/
def Equal (call : Caller) (lhs rhs : ObjectHolder) (st : Store) : Outcome Bool Store :=
  match TryCompare lhs rhs (fun l r => l == r) (fun l r => l == r) (fun l r => l == r) with
  | some result => .normal result st
  | Option.none =>
    compareByMethod call "__eq__" lhs rhs st
      (match lhs, rhs with
       | .none, .none => .normal true st
       | _, _ => .raised (.runtime "Cannot compare objects for equality") st)

/-- `Runtime::Less`. -/
def Less (call : Caller) (lhs rhs : ObjectHolder) (st : Store) : Outcome Bool Store :=
  match TryCompare lhs rhs (fun l r => decide (l < r)) (fun l r => decide (l < r))
      (fun l r => !l && r) with
  | some result => .normal result st
  | Option.none =>
    compareByMethod call "__lt__" lhs rhs st
      (.raised (.runtime "Cannot compare objects for less") st)

/-! ## statement.cpp -/

/-- Which `Closure` object a pointer such as `cur_closure` points to: the closure
handed to `Execute`, or the fields of the instance at an address. -/
inductive ClosureRef where
  | frame
  | fields (addr : Nat)
  deriving DecidableEq, Repr

/-- An iterator into a `Closure`: the container it belongs to and the handle
`it->second` of the element it points to, `none` for the past-the-end iterator. -/
structure Iterator where
  owner : ClosureRef
  second : Option ObjectHolder

/-- `it == c.end()`. An iterator to an element is never an end iterator; the end
iterator of the same container is; the end iterator of another container is when the
implementation shares one end iterator among all containers. -/
def Iterator.isEnd (h : Host) (it : Iterator) (c : ClosureRef) : Bool :=
  match it.second with
  | some _ => false
  | Option.none => it.owner == c || h.end_shared

/-- The `for` loop of `VariableValue::Execute` over all names but the last, started
with `cur_closure` pointing to the closure `cur`; answers where `cur_closure` points to
at the end, and that closure. -/
def VariableValue.walk (st : Store) :
    ClosureRef → Closure → List String → Except Err (ClosureRef × Closure)
  | cur_closure, cur, [] => .ok (cur_closure, cur)
  | _, cur, id :: rest =>
    match Closure.find cur id with
    | Option.none => .error (.runtime ("Name " ++ id ++ " not found in the scope"))
    | some (.classInstance p) =>
      match st.deref p with
      | some inst => VariableValue.walk st (.fields p) inst.fields rest
      | Option.none => .error (.undefined "dead instance used")
    | some _ => .error (.runtime (id ++ " is not an object, can't access its fields"))

/-- `VariableValue::Execute`; neither the closure nor the store is changed. The last
test compares the iterator into `*cur_closure` with `closure.end()`. -/
def VariableValue.Execute (h : Host) (dotted_ids : List String) (closure : Closure) (st : Store) :
    Except Err ObjectHolder :=
  match dotted_ids.getLast? with
  | Option.none => .error (.undefined "back() of an empty vector")
  | some back =>
    match VariableValue.walk st .frame closure dotted_ids.dropLast with
    | .error e => .error e
    | .ok (cur_closure, cur) =>
      let it : Iterator := ⟨cur_closure, Closure.find cur back⟩
      if !it.isEnd h .frame then
        match it.second with
        | some value => .ok value
        | Option.none => .error (.undefined "past-the-end iterator dereferenced")
      else .error (.runtime ("Variable " ++ back ++ " not found in closure"))

/-- The loop `for (auto &stmt : args) actual_args.push_back(stmt->Execute(closure));`
of `MethodCall::Execute` and `NewInstance::Execute`. -/
def evalArgs (execute : Executor) : List Statement → Closure → Store → Outcome (List ObjectHolder) Frame
  | [], closure, st => .normal [] ⟨closure, st⟩
  | stmt :: rest, closure, st =>
    (execute stmt closure st).bind fun value f =>
      (evalArgs execute rest f.closure f.store).bind fun values f1 => .normal (value :: values) f1

/-- The loop of `Print::Execute` and its end; `print` is `Object::Print`, which answers
the text it sends to the stream. -/
def Print.loop (execute : Executor) (print : ObjectHolder → Store → Outcome String Store) :
    List Statement → Bool → Closure → Store → Outcome ObjectHolder Frame
  | [], _, closure, st => .normal .none ⟨closure, st.write "\n"⟩
  | statement :: rest, first, closure, st =>
    (execute statement closure (if first then st else st.write " ")).bind fun result f =>
      match result with
      | .none => Print.loop execute print rest false f.closure (f.store.write "None")
      | _ =>
        ((print result f.store).inFrame f.closure).bind fun text f1 =>
          Print.loop execute print rest false f1.closure (f1.store.write text)

/-- `TryAddValues<Number>`, `TryAddValues<String>` and `TryAddInstances`, in the order
of `Add::Execute`, and its `throw` when none succeeds. -/
def Add.values (call : Caller) (left right : ObjectHolder) (st : Store) : Outcome ObjectHolder Store :=
  match left, right with
  | .number l, .number r => .normal (.number (wrap32 (l + r))) st
  | .string l, .string r => .normal (.string (l ++ r)) st
  | .classInstance l, _ =>
    match st.deref l with
    | Option.none => .raised (.undefined "dead instance used") st
    | some inst =>
      if inst.HasMethod "__add__" 1 then call l "__add__" [right] st
      else .raised (.runtime "Addition isn't supported for these operands") st
  | _, _ => .raised (.runtime "Addition isn't supported for these operands") st

/-- The part of `Sub::Execute` after the operands are evaluated. -/
def Sub.values (left right : ObjectHolder) : Except Err ObjectHolder :=
  match left, right with
  | .number l, .number r => .ok (.number (wrap32 (l - r)))
  | _, _ => .error (.runtime "Subtraction is supported only for integers")

/-- The part of `Mult::Execute` after the operands are evaluated. -/
def Mult.values (left right : ObjectHolder) : Except Err ObjectHolder :=
  match left, right with
  | .number l, .number r => .ok (.number (wrap32 (l * r)))
  | _, _ => .error (.runtime "Multiplication is supported only for integers")

/-- The part of `Div::Execute` after the operands are evaluated. The `/` of two `int`
truncates toward zero; a quotient that is not representable in `int`, which for
operands in the range of `int` is `-2147483648 / -1` only, is undefined behaviour. -/
def Div.values (left right : ObjectHolder) : Except Err ObjectHolder :=
  match left, right with
  | .number l, .number r =>
    if r = 0 then .error (.runtime "Division by zero")
    else if -2147483648 ≤ Int.tdiv l r ∧ Int.tdiv l r < 2147483648 then
      .ok (.number (Int.tdiv l r))
    else .error (.undefined "quotient not representable in int")
  | _, _ => .error (.runtime "Multiplication is supported only for integers")

/-- An `Except` result of a function that changes nothing, as an outcome. -/
def Outcome.ofExcept {α σ : Type} (r : Except Err α) (s : σ) : Outcome α σ :=
  match r with
  | .ok a => .normal a s
  | .error e => .raised e s

/-- The loop of `Compound::Execute` and its `return ObjectHolder::None()`. -/
def Compound.loop (execute : Executor) : List Statement → Closure → Store → Outcome ObjectHolder Frame
  | [], closure, st => .normal .none ⟨closure, st⟩
  | stmt :: rest, closure, st =>
    (execute stmt closure st).bind fun _ f => Compound.loop execute rest f.closure f.store

/-- `Runtime::ClassInstance result(class_)`: a new instance without fields, at the next
free address. -/
def Store.construct (st : Store) (class_ : Class) : Nat × Store :=
  (st.heap.length, { st with heap := st.heap ++ [some ⟨class_, []⟩] })

/-- `ObjectHolder::Own(std::move(result))`: the instance is moved into a new object and
the lifetime of the local object ends. -/
def Store.own (st : Store) (result : Nat) : Outcome ObjectHolder Store :=
  match st.deref result with
  | Option.none => .raised (.undefined "dead instance used") st
  | some inst =>
    .normal (.classInstance st.heap.length)
      { st with heap := st.heap.set result Option.none ++ [some inst] }

mutual

/-- `Statement::Execute`, for every node of `statement.cpp`. -/
def Execute (h : Host) : Nat → Executor
  | 0, _, _, _ => .timeout
  | n + 1, stmt, closure, st =>
    match stmt with
    | .NumericConst value => .normal (.number value) ⟨closure, st⟩
    | .StringConst value => .normal (.string value) ⟨closure, st⟩
    | .BoolConst value => .normal (.bool value) ⟨closure, st⟩
    | .None => .normal .none ⟨closure, st⟩
    | .Assignment var_name right_value =>
      (Execute h n right_value closure st).bind fun value f =>
        .normal value ⟨Closure.assign f.closure var_name value, f.store⟩
    | .VariableValue dotted_ids =>
      Outcome.ofExcept (VariableValue.Execute h dotted_ids closure st) ⟨closure, st⟩
    | .Print args => Print.loop (Execute h n) (PrintObject h n) args true closure st
    | .MethodCall object method args =>
      (evalArgs (Execute h n) args closure st).bind fun actual_args f =>
        (Execute h n object f.closure f.store).bind fun callee f1 =>
          match callee with
          | .classInstance p =>
            (ClassInstance.Call (Execute h n) p method actual_args f1.store).inFrame f1.closure
          | _ =>
            .raised (.runtime ("Trying to call method " ++ method
              ++ " on object whicj is not a class instance")) f1
    | .Stringify argument =>
      (Execute h n argument closure st).bind fun arg_value f =>
        ((PrintObject h n arg_value f.store).inFrame f.closure).bind fun text f1 =>
          .normal (.string text) f1
    | .Add lhs rhs =>
      (Execute h n lhs closure st).bind fun left f =>
        (Execute h n rhs f.closure f.store).bind fun right f1 =>
          (Add.values (ClassInstance.Call (Execute h n)) left right f1.store).inFrame f1.closure
    | .Sub lhs rhs =>
      (Execute h n lhs closure st).bind fun left f =>
        (Execute h n rhs f.closure f.store).bind fun right f1 =>
          Outcome.ofExcept (Sub.values left right) f1
    | .Mult lhs rhs =>
      (Execute h n lhs closure st).bind fun left f =>
        (Execute h n rhs f.closure f.store).bind fun right f1 =>
          Outcome.ofExcept (Mult.values left right) f1
    | .Div lhs rhs =>
      (Execute h n lhs closure st).bind fun left f =>
        (Execute h n rhs f.closure f.store).bind fun right f1 =>
          Outcome.ofExcept (Div.values left right) f1
    | .Compound statements => Compound.loop (Execute h n) statements closure st
    | .Return statement =>
      (Execute h n statement closure st).bind fun value f => .returned value f
    | .ClassDefinition cls =>
      .normal .none ⟨Closure.assign closure cls.GetName (.class_ cls), st⟩
    | .FieldAssignment object field_name right_value =>
      match VariableValue.Execute h object closure st with
      | .error e => .raised e ⟨closure, st⟩
      | .ok (.classInstance p) =>
        (Execute h n right_value closure st).bind fun value f =>
          match f.store.deref p with
          | some _ => .normal value ⟨f.closure, f.store.assignField p field_name value⟩
          | Option.none => .raised (.undefined "dead instance used") f
      | .ok _ =>
        .raised (.runtime ("Cannot assign to the field " ++ field_name ++ " of not an object"))
          ⟨closure, st⟩
    | .IfElse condition if_body else_body =>
      (Execute h n condition closure st).bind fun value f =>
        if IsTrue value then
          (Execute h n if_body f.closure f.store).bind fun _ f1 => .normal .none f1
        else
          match else_body with
          | some else_body =>
            (Execute h n else_body f.closure f.store).bind fun _ f1 => .normal .none f1
          | Option.none => .normal .none f
    | .Or lhs rhs =>
      (Execute h n lhs closure st).bind fun left f =>
        if IsTrue left then .normal (.bool true) f
        else
          (Execute h n rhs f.closure f.store).bind fun right f1 =>
            .normal (.bool (IsTrue right)) f1
    | .And lhs rhs =>
      (Execute h n lhs closure st).bind fun left f =>
        if IsTrue left then
          (Execute h n rhs f.closure f.store).bind fun right f1 =>
            .normal (.bool (IsTrue right)) f1
        else .normal (.bool false) f
    | .Not argument =>
      (Execute h n argument closure st).bind fun value f => .normal (.bool (!IsTrue value)) f
    | .Comparison comparator left right =>
      let compare : ObjectHolder → ObjectHolder → Frame → Outcome ObjectHolder Frame :=
        fun lhs rhs f =>
          ((match comparator with
            | .Equal => Equal (ClassInstance.Call (Execute h n)) lhs rhs f.store
            | .Less => Less (ClassInstance.Call (Execute h n)) lhs rhs f.store).inFrame
              f.closure).bind fun result f1 => .normal (.bool result) f1
      if h.right_to_left then
        (Execute h n right closure st).bind fun rhs f =>
          (Execute h n left f.closure f.store).bind fun lhs f1 => compare lhs rhs f1
      else
        (Execute h n left closure st).bind fun lhs f =>
          (Execute h n right f.closure f.store).bind fun rhs f1 => compare lhs rhs f1
    | .NewInstance class_ args =>
      let result := st.construct class_
      match class_.GetMethod "__init__" with
      | some _ =>
        (evalArgs (Execute h n) args closure result.2).bind fun actual_args f =>
          ((ClassInstance.Call (Execute h n) result.1 "__init__" actual_args f.store).inFrame
            f.closure).bind fun _ f1 => (f1.store.own result.1).inFrame f1.closure
      | Option.none => (result.2.own result.1).inFrame closure

/-- `Object::Print(os)`, answering the text sent to `os`: `Number` and `String` print
their value, `Bool::Print`, `Class::Print` and `ClassInstance::Print` are in
`object.cpp`. A null handle has no object to print. -/
def PrintObject (h : Host) : Nat → ObjectHolder → Store → Outcome String Store
  | 0, _, _ => .timeout
  | n + 1, object, st =>
    match object with
    | .none => .raised (.undefined "null handle dereferenced") st
    | .number value => .normal (toString value) st
    | .string value => .normal value st
    | .bool value => .normal (if value then "True" else "False") st
    | .class_ cls => .normal ("Class " ++ cls.GetName) st
    | .classInstance self =>
      match st.deref self with
      | Option.none => .raised (.undefined "dead instance used") st
      | some inst =>
        if inst.HasMethod "__str__" 0 then
          (ClassInstance.Call (Execute h n) self "__str__" [] st).bind fun value s =>
            PrintObject h n value s
        else .normal (h.pointer self) st

end

/-! ## Notions the properties are stated with -/

/-- The parent chain of a class: the class itself, then its parent, its grandparent,
and so on up to the class without a base. -/
def Class.chain : Class → List Class
  | .mk class_name vmt Option.none => [.mk class_name vmt Option.none]
  | .mk class_name vmt (some p) => .mk class_name vmt (some p) :: p.chain

/-- The closure `ClassInstance::Call` hands to the method body. -/
def callScope (self : Nat) (formal_params : List String) (actual_args : List ObjectHolder) : Closure :=
  bindParams [("self", .classInstance self)] formal_params actual_args

/-- The scope a chain of names leads to from a closure: the closure itself for no name,
otherwise the first name has to be bound to a live `ClassInstance`, and the remaining
names lead on from the field scope of that instance. -/
def fieldScope (st : Store) : Closure → List String → Option Closure
  | closure, [] => some closure
  | closure, name :: rest =>
    match Closure.find closure name with
    | some (.classInstance p) =>
      match st.deref p with
      | some inst => fieldScope st inst.fields rest
      | Option.none => Option.none
    | _ => Option.none

/-- A `Return` is executed in a statement run with budget `n` from a closure and a
store, its expression has the given value and leaves the given frame: the statement is
the `Return` itself, or a `Compound` in which the statements before one of its
statements complete normally and the `Return` is executed in that one, or an `IfElse`
whose condition selects a branch in which the `Return` is executed. -/
inductive ReturnFires (h : Host) :
    Nat → Statement → Closure → Store → ObjectHolder → Frame → Prop where
  | here {n : Nat} {statement : Statement} {closure : Closure} {st : Store}
      {value : ObjectHolder} {f : Frame} :
      Execute h n statement closure st = .normal value f →
      ReturnFires h (n + 1) (.Return statement) closure st value f
  | compound {n : Nat} {before after : List Statement} {stmt : Statement} {closure : Closure}
      {st : Store} {f f1 : Frame} {value : ObjectHolder} :
      Compound.loop (Execute h n) before closure st = .normal .none f →
      ReturnFires h n stmt f.closure f.store value f1 →
      ReturnFires h (n + 1) (.Compound (before ++ stmt :: after)) closure st value f1
  | ifBody {n : Nat} {condition if_body : Statement} {else_body : Option Statement}
      {closure : Closure} {st : Store} {c : ObjectHolder} {f f1 : Frame} {value : ObjectHolder} :
      Execute h n condition closure st = .normal c f → IsTrue c = true →
      ReturnFires h n if_body f.closure f.store value f1 →
      ReturnFires h (n + 1) (.IfElse condition if_body else_body) closure st value f1
  | elseBody {n : Nat} {condition if_body else_body : Statement}
      {closure : Closure} {st : Store} {c : ObjectHolder} {f f1 : Frame} {value : ObjectHolder} :
      Execute h n condition closure st = .normal c f → IsTrue c = false →
      ReturnFires h n else_body f.closure f.store value f1 →
      ReturnFires h (n + 1) (.IfElse condition if_body (some else_body)) closure st value f1

/-- Evaluating a statement from a closure and a heap completes normally with a value,
a closure and a heap, and sends `written` to the output, whatever was written before. -/
def EvaluatesWriting (execute : Executor) (stmt : Statement) (closure : Closure)
    (heap : List (Option ClassInstance)) (value : ObjectHolder) (written : String)
    (closure1 : Closure) (heap1 : List (Option ClassInstance)) : Prop :=
  ∀ output, execute stmt closure ⟨heap, output⟩ =
    .normal value ⟨closure1, ⟨heap1, output ++ written⟩⟩

/-- Printing a value completes normally with the text `text` for the stream and sends
`written` to the output on the way (what a `__str__` method prints), whatever was
written before. -/
def RendersWriting (print : ObjectHolder → Store → Outcome String Store) (value : ObjectHolder)
    (heap : List (Option ClassInstance)) (written text : String)
    (heap1 : List (Option ClassInstance)) : Prop :=
  ∀ output, print value ⟨heap, output⟩ = .normal text ⟨heap1, output ++ written⟩

/-- The arguments of a `Print` node evaluate one after the other, each from the closure
and the heap the one before left, and each value is printed; `pieces` holds for each
argument what its evaluation and its printing wrote themselves, followed by its
rendering, which is `None` for the empty handle. -/
inductive PrintRun (execute : Executor) (print : ObjectHolder → Store → Outcome String Store) :
    List Statement → Closure → List (Option ClassInstance) → List String → Closure →
      List (Option ClassInstance) → Prop where
  | done {closure : Closure} {heap : List (Option ClassInstance)} :
      PrintRun execute print [] closure heap [] closure heap
  | none {stmt : Statement} {rest : List Statement} {closure closure1 closure2 : Closure}
      {heap heap1 heap2 : List (Option ClassInstance)} {written : String}
      {pieces : List String} :
      EvaluatesWriting execute stmt closure heap .none written closure1 heap1 →
      PrintRun execute print rest closure1 heap1 pieces closure2 heap2 →
      PrintRun execute print (stmt :: rest) closure heap ((written ++ "None") :: pieces)
        closure2 heap2
  | object {stmt : Statement} {rest : List Statement} {closure closure1 closure2 : Closure}
      {heap heap1 heap2 heap3 : List (Option ClassInstance)} {value : ObjectHolder}
      {written written1 text : String} {pieces : List String} :
      value ≠ .none →
      EvaluatesWriting execute stmt closure heap value written closure1 heap1 →
      RendersWriting print value heap1 written1 text heap2 →
      PrintRun execute print rest closure1 heap2 pieces closure2 heap3 →
      PrintRun execute print (stmt :: rest) closure heap
        ((written ++ written1 ++ text) :: pieces) closure2 heap3

/-- What follows a piece of a printed line: a space and the next piece, and so on, and
the line feed at the end. -/
def restOfLine : List String → String
  | [] => "\n"
  | piece :: pieces => " " ++ piece ++ restOfLine pieces

/-- A printed line: the pieces separated by single spaces, and a line feed. -/
def lineOf : List String → String
  | [] => "\n"
  | piece :: pieces => piece ++ restOfLine pieces

/-- The part of a printed line that is written when the evaluation of an argument
begins: each piece of the arguments before it, followed by a space. -/
def lineBefore : List String → String
  | [] => ""
  | piece :: pieces => piece ++ " " ++ lineBefore pieces

/-- A store keeps the instances of another: every instance alive in `st` is alive in
`st1`, at the same address and with the same class. -/
def Store.Keeps (st st1 : Store) : Prop :=
  ∀ addr inst, st.deref addr = some inst →
    ∃ inst1, st1.deref addr = some inst1 ∧ inst1.class_ = inst.class_

/-- A property of the state an outcome carries; an exhausted budget carries none. -/
def Outcome.All {α σ : Type} (P : σ → Prop) : Outcome α σ → Prop
  | .normal _ s => P s
  | .returned _ s => P s
  | .raised _ s => P s
  | .timeout => True

/-- An `Execute` keeps the instances of the store it starts from, however it ends. -/
def KeepingExecutor (execute : Executor) : Prop :=
  ∀ stmt closure st, (execute stmt closure st).All fun f => st.Keeps f.store

/-- A `Call` keeps the instances of the store it starts from, however it ends. -/
def KeepingCaller (call : Caller) : Prop :=
  ∀ self method actual_args st, (call self method actual_args st).All fun s => st.Keeps s

/-- A `Print` keeps the instances of the store it starts from, however it ends. -/
def KeepingPrinter (print : ObjectHolder → Store → Outcome String Store) : Prop :=
  ∀ object st, (print object st).All fun s => st.Keeps s

/-- No binding of a closure is a handle to the instance at address `a`. -/
def Closure.Avoids (a : Nat) (closure : Closure) : Prop :=
  ∀ kv ∈ closure, kv.2 ≠ ObjectHolder.classInstance a

/-- A store isolates the address `a`: the heap holds `cell` there, and no field of a
living instance is a handle to the instance at `a`. -/
def Store.Isolates (st : Store) (a : Nat) (cell : Option ClassInstance) : Prop :=
  st.heap[a]? = some cell ∧ ∀ addr inst, st.deref addr = some inst → Closure.Avoids a inst.fields

/-- A frame isolates the address `a`: its closure has no handle to the instance at `a`
and its store isolates `a`. -/
def Frame.Isolates (f : Frame) (a : Nat) (cell : Option ClassInstance) : Prop :=
  Closure.Avoids a f.closure ∧ f.store.Isolates a cell

/-- A property of the result, of a thrown value and of the state an outcome carries. -/
def Outcome.AllWith {α σ : Type} (V : α → Prop) (R : ObjectHolder → Prop) (P : σ → Prop) :
    Outcome α σ → Prop
  | .normal value s => V value ∧ P s
  | .returned value s => R value ∧ P s
  | .raised _ s => P s
  | .timeout => True

/-- An `Execute` that, run where nothing refers to the instance at `a`, answers no
handle to it and leaves a frame that isolates `a`. -/
def IsolatingExecutor (a : Nat) (cell : Option ClassInstance) (execute : Executor) : Prop :=
  ∀ stmt closure st, Closure.Avoids a closure → st.Isolates a cell →
    (execute stmt closure st).AllWith (fun value => value ≠ .classInstance a)
      (fun value => value ≠ .classInstance a) (fun f => f.Isolates a cell)

/-- A `Call` that, made on another instance with arguments that are no handles to the
instance at `a`, answers no handle to it and leaves a store that isolates `a`. -/
def IsolatingCaller (a : Nat) (cell : Option ClassInstance) (call : Caller) : Prop :=
  ∀ self method actual_args st, self ≠ a →
    (∀ value ∈ actual_args, value ≠ ObjectHolder.classInstance a) → st.Isolates a cell →
    (call self method actual_args st).AllWith (fun value => value ≠ .classInstance a)
      (fun value => value ≠ .classInstance a) (fun s => s.Isolates a cell)

/-- A `Print` that, given no handle to the instance at `a`, leaves a store that isolates
`a`. -/
def IsolatingPrinter (a : Nat) (cell : Option ClassInstance)
    (print : ObjectHolder → Store → Outcome String Store) : Prop :=
  ∀ object st, object ≠ .classInstance a → st.Isolates a cell →
    (print object st).AllWith (fun _ => True) (fun value => value ≠ .classInstance a)
      (fun s => s.Isolates a cell)

/-- A host whose `Closure` is a hash map with one shared past-the-end iterator. -/
def Host.hashed : Host :=
  { end_shared := true, pointer := fun addr => "0x" ++ toString addr, right_to_left := false }

/-- A host whose `Closure` has a past-the-end iterator of its own in every object. -/
def Host.sentinel : Host :=
  { end_shared := false, pointer := fun addr => "0x" ++ toString addr, right_to_left := false }

/-- A class `A` without a base: `m(x)` returns `x`. -/
def Sample.A : Class :=
  .mk "A" [("m", .mk "m" ["x"] (.Compound [.Return (.VariableValue ["x"])]))] Option.none

/-- A class `B(A)` that overrides `m` with a method without parameters. -/
def Sample.B : Class :=
  .mk "B" [("m", .mk "m" [] (.Compound [.Return (.NumericConst 2)]))] (some Sample.A)

/-- A class `C` whose method `f` has the single statement `x = 1` as its body, not
wrapped in a `Compound`, and which has no field. -/
def Sample.C : Class :=
  .mk "C" [("f", .mk "f" [] (.Assignment "x" (.NumericConst 1)))] Option.none

/-- A store that holds one instance of a class, without fields, at address 0. -/
def Sample.store (cls : Class) : Store := ⟨[some ⟨cls, []⟩], ""⟩

/-- A store with an instance of `C` at address 0 whose only field is `v = 1`. -/
def Sample.storeV : Store := ⟨[some ⟨Sample.C, [("v", .number 1)]⟩], ""⟩

/-- A closure that binds `p` to the instance at address 0 and `v` to the number 2. -/
def Sample.closureP : Closure := [("p", .classInstance 0), ("v", .number 2)]

/-- A class `D` whose method `g` returns 1 from inside an `if` inside its body, with
statements after the `Return` at both levels, and whose method `k` calls `g` on `self`
and goes on to return 3. -/
def Sample.D : Class :=
  .mk "D"
    [("g", .mk "g" []
      (.Compound [
        .IfElse (.BoolConst true)
          (.Compound [.Return (.NumericConst 1), .Print [.StringConst "after"]])
          Option.none,
        .Print [.StringConst "after"],
        .Return (.NumericConst 2)])),
     ("k", .mk "k" []
      (.Compound [
        .MethodCall (.VariableValue ["self"]) "g" [],
        .Return (.NumericConst 3)]))]
    Option.none

/-- A text of two lines, the second indented by one level. -/
def Sample.text : List Char := "a\n  b".toList

/-- The tokens of `Sample.text` before `Eof`, each with the line and the indentation
level the reader was at. -/
def Sample.tokens : List Parse.Lexer.Emitted :=
  [⟨.Id "a", 1, 0⟩, ⟨.Newline, 1, 0⟩, ⟨.Indent, 2, 1⟩, ⟨.Id "b", 2, 1⟩, ⟨.Newline, 2, 1⟩,
   ⟨.Dedent, 2, 0⟩]

/-- A class `E` whose method `f` prints `x` and returns 2. -/
def Sample.E : Class :=
  .mk "E" [("f", .mk "f" [] (.Compound [.Print [.StringConst "x"], .Return (.NumericConst 2)]))]
    Option.none

/-- A class `Point` whose `__init__(x, y)` writes the fields `x` and `y` through `self`. -/
def Sample.Point : Class :=
  .mk "Point"
    [("__init__", .mk "__init__" ["x", "y"]
      (.Compound [
        .FieldAssignment ["self"] "x" (.VariableValue ["x"]),
        .FieldAssignment ["self"] "y" (.VariableValue ["y"])]))]
    Option.none

/-- C2, as the code has it: the empty handle is false, a `Number` is true iff it is not
0, a `String` iff it is not empty, a `Bool` iff its payload is, and every handle to a
`ClassInstance` or to a `Class` is false. -/
theorem IsTrue_table :
    IsTrue .none = false ∧
    (∀ value : Int, IsTrue (.number value) = true ↔ value ≠ 0) ∧
    (∀ value : String, IsTrue (.string value) = true ↔ value ≠ "") ∧
    (∀ value : Bool, IsTrue (.bool value) = value) ∧
    (∀ addr : Nat, IsTrue (.classInstance addr) = false) ∧
    (∀ cls : Class, IsTrue (.class_ cls) = false) := by
  refine ⟨rfl, ?_, ?_, fun _ => rfl, fun _ => rfl, fun _ => rfl⟩
  · intro value
    simp [IsTrue]
  · intro value
    simp only [IsTrue, Bool.not_eq_true', ne_eq]
    rw [← Bool.not_eq_true, String.isEmpty_iff]

/-- C2 fails as stated: the handle to the instance at address 0 is not true. -/
theorem IsTrue_classInstance_counterexample : IsTrue (.classInstance 0) ≠ true := by
  simp [IsTrue]

/-- `GetMethod` is the first hit of the own method tables along the parent chain. -/
theorem GetMethod_eq_findSome : ∀ (c : Class) (name : String),
    c.GetMethod name = c.chain.findSome? fun k => k.vmt.lookup name
  | .mk class_name vmt Option.none, name => by
    cases hl : vmt.lookup name <;> simp [Class.GetMethod, Class.chain, Class.vmt, hl]
  | .mk class_name vmt (some p), name => by
    have ih := GetMethod_eq_findSome p name
    cases hl : vmt.lookup name <;> simp [Class.GetMethod, Class.chain, Class.vmt, hl, ih]

/-- What `findSome?` finds, as a split of the list at the first hit. -/
theorem findSome_eq_some_iff_split {α β : Type} (f : α → Option β) (l : List α) (b : β) :
    l.findSome? f = some b ↔
      ∃ pre k post, l = pre ++ k :: post ∧ (∀ k' ∈ pre, f k' = Option.none) ∧ f k = some b := by
  induction l with
  | nil => simp
  | cons a l ih =>
    cases ha : f a with
    | some b' =>
      simp only [List.findSome?_cons, ha]
      constructor
      · intro hb
        exact ⟨[], a, l, rfl, by simp, by rw [ha, hb]⟩
      · rintro ⟨pre, k, post, hsplit, hpre, hk⟩
        cases pre with
        | nil =>
          simp only [List.nil_append, List.cons.injEq] at hsplit
          rw [← hsplit.1, ha] at hk
          exact hk
        | cons x pre =>
          simp only [List.cons_append, List.cons.injEq] at hsplit
          have := hpre x (by simp)
          rw [← hsplit.1, ha] at this
          cases this
    | none =>
      simp only [List.findSome?_cons, ha, ih]
      constructor
      · rintro ⟨pre, k, post, hsplit, hpre, hk⟩
        refine ⟨a :: pre, k, post, by simp [hsplit], ?_, hk⟩
        intro k' hk'
        rcases List.mem_cons.1 hk' with h | h
        · rw [h, ha]
        · exact hpre k' h
      · rintro ⟨pre, k, post, hsplit, hpre, hk⟩
        cases pre with
        | nil =>
          simp only [List.nil_append, List.cons.injEq] at hsplit
          rw [← hsplit.1, ha] at hk
          cases hk
        | cons x pre =>
          simp only [List.cons_append, List.cons.injEq] at hsplit
          exact ⟨pre, k, post, hsplit.2, fun k' hk' => hpre k' (by simp [hk']), hk⟩

/-- The loop of `Class::Class` answers a table in which a name leads to what it led to
before, and a new name to the method of that name. -/
theorem Class_fill_lookup (class_name : String) :
    ∀ (methods : List Method) (vmt vmt1 : List (String × Method)),
      Class.fill class_name vmt methods = .ok vmt1 →
      ∀ name, vmt1.lookup name =
        (vmt.lookup name).or (methods.find? fun m => name == m.name)
  | [], vmt, vmt1, h, name => by
    simp only [Class.fill, Except.ok.injEq] at h
    subst h
    simp
  | m :: rest, vmt, vmt1, h, name => by
    unfold Class.fill at h
    split at h
    · cases h
    · rename_i hfree
      rw [Class_fill_lookup class_name rest _ vmt1 h name, List.lookup_append, List.find?_cons]
      cases hv : vmt.lookup name with
      | some found => simp
      | none =>
        cases hn : name == m.name <;> simp [List.lookup, hn]

/-- The constructor `Class::Class` builds the table in which each name leads to the
method of that name among `methods`. -/
theorem Class_new_vmt (name : String) (methods : List Method) (parent : Option Class)
    (c : Class) (h : Class.new name methods parent = .ok c) (method : String) :
    c.vmt.lookup method = methods.find? fun m => method == m.name := by
  unfold Class.new at h
  split at h
  · cases h
  · rename_i vmt hfill
    simp only [Except.ok.injEq] at h
    subst h
    simpa [Class.vmt] using Class_fill_lookup name methods [] vmt hfill method

/-- C3: `GetMethod` answers the definition in the own method table of the nearest class
of the parent chain that has the name, and nothing iff no class of the chain has it; an
override in a derived class wins over the base class, and a name only the base class
defines resolves to the base class's definition. -/
theorem GetMethod_nearest (c : Class) (name : String) :
    (∀ m, c.GetMethod name = some m ↔
      ∃ pre k post, c.chain = pre ++ k :: post ∧
        (∀ k' ∈ pre, k'.vmt.lookup name = Option.none) ∧ k.vmt.lookup name = some m) ∧
    (c.GetMethod name = Option.none ↔ ∀ k ∈ c.chain, k.vmt.lookup name = Option.none) ∧
    (∀ (b_name : String) (b_vmt : List (String × Method)) (m : Method),
      b_vmt.lookup name = some m → (Class.mk b_name b_vmt (some c)).GetMethod name = some m) ∧
    (∀ (b_name : String) (b_vmt : List (String × Method)),
      b_vmt.lookup name = Option.none →
        (Class.mk b_name b_vmt (some c)).GetMethod name = c.GetMethod name) := by
  refine ⟨fun m => ?_, ?_, ?_, ?_⟩
  · rw [GetMethod_eq_findSome]
    exact findSome_eq_some_iff_split _ _ _
  · rw [GetMethod_eq_findSome]
    simp
  · intro b_name b_vmt m hm
    simp [Class.GetMethod, hm]
  · intro b_name b_vmt hm
    simp [Class.GetMethod, hm]

/-- `closure.find` after `closure[name] = value`. -/
theorem Closure.find_assign (closure : Closure) (name key : String) (value : ObjectHolder) :
    Closure.find (Closure.assign closure name value) key =
      if key = name then some value else Closure.find closure key := by
  induction closure with
  | nil =>
    by_cases hk : key = name
    · simp [Closure.assign, Closure.find, List.lookup, hk]
    · have : (key == name) = false := by simpa using hk
      simp [Closure.assign, Closure.find, List.lookup, hk, this]
  | cons kv rest ih =>
    obtain ⟨k, v⟩ := kv
    unfold Closure.find at ih
    by_cases hkn : k = name
    · by_cases hk : key = name
      · simp [Closure.assign, Closure.find, List.lookup, hkn, hk]
      · have : (key == name) = false := by simpa using hk
        simp [Closure.assign, Closure.find, List.lookup, hkn, hk, this]
    · by_cases hk : key = name
      · have : (name == k) = false := by simpa using fun h : name = k => hkn h.symm
        subst hk
        simpa [Closure.assign, Closure.find, List.lookup, hkn, this] using ih
      · cases hkk : key == k <;>
          simp [Closure.assign, Closure.find, List.lookup, hkn, hk, hkk, ih]

/-- Binding the parameters leaves every other name as it was. -/
theorem bindParams_find_other (name : String) :
    ∀ (formal_params : List String) (actual_args : List ObjectHolder) (closure : Closure),
      name ∉ formal_params →
        Closure.find (bindParams closure formal_params actual_args) name = Closure.find closure name
  | [], _, _, _ => by simp [bindParams]
  | _ :: _, [], _, _ => by simp [bindParams]
  | p :: ps, a :: as, closure, hn => by
    have hp : name ≠ p := fun h => hn (by simp [h])
    have hps : name ∉ ps := fun h => hn (by simp [h])
    rw [bindParams, bindParams_find_other name ps as _ hps, Closure.find_assign, if_neg hp]

/-- Binding distinct parameters binds each to the argument at its position. -/
theorem bindParams_find_param :
    ∀ (formal_params : List String) (actual_args : List ObjectHolder) (closure : Closure),
      formal_params.Nodup → ∀ p a, (p, a) ∈ formal_params.zip actual_args →
        Closure.find (bindParams closure formal_params actual_args) p = some a
  | [], _, _, _, _, _, hm => by simp at hm
  | _ :: _, [], _, _, _, _, hm => by simp at hm
  | q :: ps, b :: as, closure, hnd, p, a, hm => by
    rw [List.nodup_cons] at hnd
    simp only [List.zip_cons_cons, List.mem_cons, Prod.mk.injEq] at hm
    rcases hm with ⟨hp, ha⟩ | hm
    · subst hp ha
      rw [bindParams, bindParams_find_other p ps as _ hnd.1, Closure.find_assign, if_pos rfl]
    · rw [bindParams]
      exact bindParams_find_param ps as _ hnd.2 p a hm

/-- What `ClassInstance::Call` does once the method is found with the right arity. -/
theorem Call_of_GetMethod (execute : Executor) (self : Nat) (inst : ClassInstance) (method : String)
    (m : Method) (actual_args : List ObjectHolder) (st : Store) (hself : st.deref self = some inst)
    (hm : inst.class_.GetMethod method = some m)
    (harity : m.formal_params.length = actual_args.length) :
    ClassInstance.Call execute self method actual_args st =
      match execute m.body (callScope self m.formal_params actual_args) st with
      | .normal value f => .normal value f.store
      | .returned returned_value f => .normal returned_value f.store
      | .raised e f => .raised e f.store
      | .timeout => .timeout := by
  simp [ClassInstance.Call, hself, hm, harity, callScope]

/-- C6: `HasMethod(name, argc)` holds exactly when `GetMethod(name)` finds a method with
`argc` formal parameters; when it holds `Call` is the execution of that method's body,
and when it does not, `Call` raises a runtime error and leaves the store as it was,
whatever `Execute` would do. -/
theorem Call_iff_HasMethod (self : Nat) (inst : ClassInstance) (method : String)
    (actual_args : List ObjectHolder) (st : Store) (hself : st.deref self = some inst) :
    (inst.HasMethod method actual_args.length = true ↔
      ∃ m, inst.class_.GetMethod method = some m ∧
        m.formal_params.length = actual_args.length) ∧
    (inst.HasMethod method actual_args.length = true →
      ∃ m, inst.class_.GetMethod method = some m ∧ ∀ execute : Executor,
        ClassInstance.Call execute self method actual_args st =
          match execute m.body (callScope self m.formal_params actual_args) st with
          | .normal value f => .normal value f.store
          | .returned returned_value f => .normal returned_value f.store
          | .raised e f => .raised e f.store
          | .timeout => .timeout) ∧
    (inst.HasMethod method actual_args.length = false →
      ∃ what, ∀ execute : Executor,
        ClassInstance.Call execute self method actual_args st = .raised (.runtime what) st) := by
  have hiff : inst.HasMethod method actual_args.length = true ↔
      ∃ m, inst.class_.GetMethod method = some m ∧
        m.formal_params.length = actual_args.length := by
    unfold ClassInstance.HasMethod
    cases hm : inst.class_.GetMethod method <;> simp
  refine ⟨hiff, ?_, ?_⟩
  · intro hhas
    obtain ⟨m, hm, harity⟩ := hiff.1 hhas
    exact ⟨m, hm, fun execute => Call_of_GetMethod execute self inst method m actual_args st hself hm harity⟩
  · intro hhas
    unfold ClassInstance.HasMethod at hhas
    cases hm : inst.class_.GetMethod method with
    | none =>
      exact ⟨"Class " ++ inst.class_.GetName ++ " doesn't have method " ++ method,
        fun execute => by simp [ClassInstance.Call, hself, hm]⟩
    | some m =>
      rw [hm] at hhas
      have hne : m.formal_params.length ≠ actual_args.length := by simpa using hhas
      exact ⟨"Method " ++ inst.class_.GetName ++ "::" ++ method ++ " expects "
          ++ toString m.formal_params.length ++ " arguments, but "
          ++ toString actual_args.length ++ " given",
        fun execute => by simp [ClassInstance.Call, hself, hm, hne]⟩

/-- Witness of C6: `B` overrides `m` without parameters, so a call of `m` with one
argument on an instance of `B` fails although `A::m` takes one argument. -/
theorem Call_iff_HasMethod_witness :
    (⟨Sample.B, []⟩ : ClassInstance).HasMethod "m" 1 = false ∧
    ∃ what, ∀ execute : Executor,
      ClassInstance.Call execute 0 "m" [.number 1] (Sample.store Sample.B) =
        .raised (.runtime what) (Sample.store Sample.B) :=
  ⟨by decide,
   (Call_iff_HasMethod 0 ⟨Sample.B, []⟩ "m" [.number 1] (Sample.store Sample.B) rfl).2.2
     (by decide)⟩

/-- C5 at the failing input: the body of `C::f` is the assignment `x = 1`, which
completes normally with the value 1, and `Call` answers that `Number`, not the empty
handle. -/
theorem Call_answers_body_value :
    ClassInstance.Call (Execute Host.hashed 2) 0 "f" [] (Sample.store Sample.C) =
      .normal (.number 1) (Sample.store Sample.C) := by
  rfl

/-- C7: with distinct formal parameters, none called `self`, the closure handed to a
method body binds `self` to the receiver, each parameter to the argument at its
position, and no other name, so that such a name is not found in the body; `Call` runs
the body in that closure and keeps only the store of what the body leaves; and after a
`MethodCall` the caller's closure is the one the evaluation of the arguments and of the
object expression left. -/
theorem method_scope_is_fresh (h : Host) (n : Nat) (self : Nat) (formal_params : List String)
    (actual_args : List ObjectHolder) (hnodup : formal_params.Nodup)
    (hself : "self" ∉ formal_params) :
    Closure.find (callScope self formal_params actual_args) "self" = some (.classInstance self) ∧
    (∀ p a, (p, a) ∈ formal_params.zip actual_args →
      Closure.find (callScope self formal_params actual_args) p = some a) ∧
    (∀ name, name ≠ "self" → name ∉ formal_params →
      Closure.find (callScope self formal_params actual_args) name = Option.none) ∧
    (∀ name st, name ≠ "self" → name ∉ formal_params →
      Execute h (n + 1) (.VariableValue [name]) (callScope self formal_params actual_args) st =
        .raised (.runtime ("Variable " ++ name ++ " not found in closure"))
          ⟨callScope self formal_params actual_args, st⟩) ∧
    (∀ (execute : Executor) (method : String) (body : Statement) (inst : ClassInstance) (st : Store),
      st.deref self = some inst →
      inst.class_.GetMethod method = some (.mk method formal_params body) →
      formal_params.length = actual_args.length →
      ClassInstance.Call execute self method actual_args st =
        match execute body (callScope self formal_params actual_args) st with
        | .normal value f => .normal value f.store
        | .returned returned_value f => .normal returned_value f.store
        | .raised e f => .raised e f.store
        | .timeout => .timeout) ∧
    (∀ (object : Statement) (method : String) (args : List Statement) (closure : Closure)
        (st : Store) (f f1 : Frame),
      evalArgs (Execute h n) args closure st = .normal actual_args f →
      Execute h n object f.closure f.store = .normal (.classInstance self) f1 →
      Execute h (n + 1) (.MethodCall object method args) closure st =
        (ClassInstance.Call (Execute h n) self method actual_args f1.store).inFrame f1.closure) := by
  have hother : ∀ name, name ≠ "self" → name ∉ formal_params →
      Closure.find (callScope self formal_params actual_args) name = Option.none := by
    intro name hne hnot
    rw [callScope, bindParams_find_other name formal_params actual_args _ hnot]
    have : (name == "self") = false := by simpa using hne
    simp [Closure.find, List.lookup, this]
  refine ⟨?_, ?_, hother, ?_, ?_, ?_⟩
  · rw [callScope, bindParams_find_other "self" formal_params actual_args _ hself]
    simp [Closure.find, List.lookup]
  · intro p a hpa
    exact bindParams_find_param formal_params actual_args _ hnodup p a hpa
  · intro name st hne hnot
    simp [Execute, VariableValue.Execute, VariableValue.walk, Iterator.isEnd, hother name hne hnot,
      Outcome.ofExcept]
  · intro execute method body inst st hderef hm harity
    exact Call_of_GetMethod execute self inst method _ actual_args st hderef hm harity
  · intro object method args closure st f f1 hargs hobj
    simp [Execute, hargs, hobj, Outcome.bind]

/-- Witness of C7: `c.f()` runs `x = 1` in the method's own closure; the caller's
binding of `x` to 5 is as it was after the call. -/
theorem method_scope_is_fresh_witness :
    Execute Host.hashed 4 (.MethodCall (.VariableValue ["c"]) "f" [])
        [("x", .number 5), ("c", .classInstance 0)] (Sample.store Sample.C) =
      .normal (.number 1) ⟨[("x", .number 5), ("c", .classInstance 0)], Sample.store Sample.C⟩ :=
  ((method_scope_is_fresh Host.hashed 3 0 [] [] List.nodup_nil (List.not_mem_nil _)).2.2.2.2.2
    (.VariableValue ["c"]) "f" [] [("x", .number 5), ("c", .classInstance 0)]
    (Sample.store Sample.C) _ _ rfl rfl).trans rfl

/-- The `for` loop of `VariableValue::Execute` ends in the scope the names lead to, and
after at least one step that scope is the field scope of an instance. -/
theorem walk_eq_fieldScope (st : Store) :
    ∀ (names : List String) (cur_closure : ClosureRef) (cur scope : Closure),
      fieldScope st cur names = some scope →
        ∃ r, VariableValue.walk st cur_closure cur names = .ok (r, scope) ∧
          (names ≠ [] → r ≠ .frame) ∧ (names = [] → r = cur_closure)
  | [], cur_closure, cur, scope, hs => by
    simp only [fieldScope, Option.some.injEq] at hs
    exact ⟨cur_closure, by simp [VariableValue.walk, hs], by simp, by simp⟩
  | name :: rest, cur_closure, cur, scope, hs => by
    unfold fieldScope at hs
    cases hf : Closure.find cur name with
    | none => simp [hf] at hs
    | some value =>
      cases value with
      | classInstance p =>
        simp only [hf] at hs
        cases hd : st.deref p with
        | none => simp [hd] at hs
        | some inst =>
          simp only [hd] at hs
          obtain ⟨r, hr, hne, heq⟩ := walk_eq_fieldScope st rest (.fields p) inst.fields scope hs
          refine ⟨r, by simp [VariableValue.walk, hf, hd, hr], fun _ => ?_, by simp⟩
          cases rest with
          | nil => rw [heq rfl]; simp
          | cons x xs => exact hne (by simp)
      | none => simp [hf] at hs
      | number _ => simp [hf] at hs
      | string _ => simp [hf] at hs
      | bool _ => simp [hf] at hs
      | class_ _ => simp [hf] at hs

/-- C8: when the names before the last lead to a scope (the root closure for a single
name, the field scope of the instance reached otherwise) that binds the last name,
`VariableValue::Execute` answers that binding, whatever the root closure binds the last
name to, and changes nothing. -/
theorem VariableValue_reads_reached_scope (h : Host) (n : Nat) (names : List String)
    (back : String) (closure scope : Closure) (st : Store) (value : ObjectHolder)
    (hscope : fieldScope st closure names = some scope)
    (hbound : Closure.find scope back = some value) :
    Execute h (n + 1) (.VariableValue (names ++ [back])) closure st =
      .normal value ⟨closure, st⟩ := by
  obtain ⟨r, hr, _, _⟩ := walk_eq_fieldScope st names .frame closure scope hscope
  simp [Execute, VariableValue.Execute, hr, hbound, Iterator.isEnd, Outcome.ofExcept]

/-- Witness of C8: `p.v` is the field `v = 1` of the instance `p`, although the root
closure binds `v` to 2. -/
theorem VariableValue_reads_reached_scope_witness :
    Execute Host.hashed 1 (.VariableValue ["p", "v"]) Sample.closureP Sample.storeV =
      .normal (.number 1) ⟨Sample.closureP, Sample.storeV⟩ :=
  VariableValue_reads_reached_scope Host.hashed 0 ["p"] "v" Sample.closureP [("v", .number 1)]
    Sample.storeV (.number 1) rfl rfl

/-- The last test of `VariableValue::Execute` compares the iterator into the scope
reached with the end of the root closure. On a host whose closures each had a
past-the-end iterator of their own, `p.q` with an instance `p` without a field `q`
would dereference the end of the field scope. -/
theorem VariableValue_missing_field_dereferences_end :
    Execute Host.sentinel 1 (.VariableValue ["p", "q"]) Sample.closureP Sample.storeV =
      .raised (.undefined "past-the-end iterator dereferenced") ⟨Sample.closureP, Sample.storeV⟩ := by
  rfl

/-- The arguments are evaluated from left to right: the arguments of a list put together
from two are those of the first, then those of the second from where the first ended. -/
theorem evalArgs_append (execute : Executor) :
    ∀ (first second : List Statement) (closure : Closure) (st : Store),
      evalArgs execute (first ++ second) closure st =
        (evalArgs execute first closure st).bind fun values f =>
          (evalArgs execute second f.closure f.store).bind fun more f1 =>
            .normal (values ++ more) f1
  | [], second, closure, st => by
    simp only [List.nil_append, evalArgs, Outcome.bind]
    cases evalArgs execute second closure st <;> simp
  | stmt :: rest, second, closure, st => by
    simp only [List.cons_append, evalArgs]
    cases hs : execute stmt closure st with
    | normal value f =>
      simp only [Outcome.bind, List.append_eq]
      rw [evalArgs_append execute rest second f.closure f.store]
      cases evalArgs execute rest f.closure f.store with
      | normal values f1 =>
        simp only [Outcome.bind]
        cases evalArgs execute second f1.closure f1.store <;> simp
      | returned _ _ => simp [Outcome.bind]
      | raised _ _ => simp [Outcome.bind]
      | timeout => simp [Outcome.bind]
    | returned _ _ => simp [Outcome.bind]
    | raised _ _ => simp [Outcome.bind]
    | timeout => simp [Outcome.bind]

/-- C10, as the code has it: `MethodCall::Execute` evaluates the arguments from left to
right first, then the object expression, then makes the call. An error of an argument
is the outcome whatever the object expression is; when the arguments are evaluated and
the object expression fails or is not an instance, the call fails in the frame that the
arguments and the object expression left, with the effects of the arguments in it. -/
theorem MethodCall_evaluates_arguments_first (h : Host) (n : Nat) (object : Statement)
    (method : String) (args : List Statement) (closure : Closure) (st : Store) :
    (∀ (first second : List Statement), args = first ++ second →
      evalArgs (Execute h n) args closure st =
        (evalArgs (Execute h n) first closure st).bind fun values f =>
          (evalArgs (Execute h n) second f.closure f.store).bind fun more f1 =>
            .normal (values ++ more) f1) ∧
    (∀ e f, evalArgs (Execute h n) args closure st = .raised e f →
      Execute h (n + 1) (.MethodCall object method args) closure st = .raised e f) ∧
    (∀ actual_args f e f1, evalArgs (Execute h n) args closure st = .normal actual_args f →
      Execute h n object f.closure f.store = .raised e f1 →
      Execute h (n + 1) (.MethodCall object method args) closure st = .raised e f1) ∧
    (∀ actual_args f callee f1, evalArgs (Execute h n) args closure st = .normal actual_args f →
      Execute h n object f.closure f.store = .normal callee f1 →
      (∀ p, callee ≠ .classInstance p) →
      Execute h (n + 1) (.MethodCall object method args) closure st =
        .raised (.runtime ("Trying to call method " ++ method
          ++ " on object whicj is not a class instance")) f1) ∧
    (∀ actual_args f p f1, evalArgs (Execute h n) args closure st = .normal actual_args f →
      Execute h n object f.closure f.store = .normal (.classInstance p) f1 →
      Execute h (n + 1) (.MethodCall object method args) closure st =
        (ClassInstance.Call (Execute h n) p method actual_args f1.store).inFrame f1.closure) := by
  refine ⟨?_, ?_, ?_, ?_, ?_⟩
  · intro first second hsplit
    rw [hsplit]
    exact evalArgs_append _ first second closure st
  · intro e f hargs
    simp [Execute, hargs, Outcome.bind]
  · intro actual_args f e f1 hargs hobj
    simp [Execute, hargs, hobj, Outcome.bind]
  · intro actual_args f callee f1 hargs hobj hnot
    cases callee with
    | classInstance p => exact absurd rfl (hnot p)
    | none => simp [Execute, hargs, hobj, Outcome.bind]
    | number _ => simp [Execute, hargs, hobj, Outcome.bind]
    | string _ => simp [Execute, hargs, hobj, Outcome.bind]
    | bool _ => simp [Execute, hargs, hobj, Outcome.bind]
    | class_ _ => simp [Execute, hargs, hobj, Outcome.bind]
  · intro actual_args f p f1 hargs hobj
    simp [Execute, hargs, hobj, Outcome.bind]

/-- C10 fails as stated: `(1).f(print 7, x = 1)` fails because 1 is not an instance, and
by then both arguments have been evaluated: `7` is in the output and `x` is bound. -/
theorem MethodCall_arguments_counterexample :
    Execute Host.hashed 3
        (.MethodCall (.NumericConst 1) "f" [.Print [.NumericConst 7], .Assignment "x" (.NumericConst 1)])
        [] ⟨[], ""⟩ =
      .raised (.runtime "Trying to call method f on object whicj is not a class instance")
        ⟨[("x", .number 1)], ⟨[], "7\n"⟩⟩ := by
  rfl

/-- The loop of `Compound::Execute` over a list put together from two runs the second
from where the first ended, when the first completes. -/
theorem Compound_loop_append (execute : Executor) :
    ∀ (before rest : List Statement) (closure : Closure) (st : Store),
      Compound.loop execute (before ++ rest) closure st =
        (Compound.loop execute before closure st).bind fun _ f =>
          Compound.loop execute rest f.closure f.store
  | [], rest, closure, st => by simp [Compound.loop, Outcome.bind]
  | stmt :: before, rest, closure, st => by
    simp only [List.cons_append, Compound.loop]
    cases hs : execute stmt closure st with
    | normal value f =>
      simp only [Outcome.bind]
      exact Compound_loop_append execute before rest f.closure f.store
    | returned _ _ => simp [Outcome.bind]
    | raised _ _ => simp [Outcome.bind]
    | timeout => simp [Outcome.bind]

/-- A `Return` that is executed leaves its statement, however deep it lies in `Compound`
and `IfElse` nodes, as the thrown value in the frame its expression left: nothing that
follows it is executed. -/
theorem ReturnFires_unwinds (h : Host) {n : Nat} {stmt : Statement} {closure : Closure}
    {st : Store} {value : ObjectHolder} {f : Frame}
    (hfires : ReturnFires h n stmt closure st value f) :
    Execute h n stmt closure st = .returned value f := by
  induction hfires with
  | here hexpr => simp [Execute, hexpr, Outcome.bind]
  | compound hbefore _ ih =>
    simp [Execute, Compound_loop_append, hbefore, Outcome.bind, Compound.loop, ih]
  | ifBody hcond htrue _ ih => simp [Execute, hcond, htrue, Outcome.bind, ih]
  | elseBody hcond hfalse _ ih => simp [Execute, hcond, hfalse, Outcome.bind, ih]

/-- `ClassInstance::Call` never lets the value thrown by a `Return` pass. -/
theorem Call_never_returned (execute : Executor) (self : Nat) (method : String)
    (actual_args : List ObjectHolder) (st : Store) (value : ObjectHolder) (s : Store) :
    ClassInstance.Call execute self method actual_args st ≠ .returned value s := by
  cases hd : st.deref self with
  | none => simp [ClassInstance.Call, hd]
  | some inst =>
    cases hm : inst.class_.GetMethod method with
    | none => simp [ClassInstance.Call, hd, hm]
    | some m =>
      by_cases harity : m.formal_params.length = actual_args.length
      · rw [Call_of_GetMethod execute self inst method m actual_args st hd hm harity]
        cases execute m.body (callScope self m.formal_params actual_args) st <;> simp
      · simp [ClassInstance.Call, hd, hm, harity]

/-- C4: when a `Return` is executed in the body of the method that `Call` runs, however
deep in `Compound` and `IfElse` nodes, `Call` answers the value of its expression in
the store that expression left, so nothing after the `Return` is executed; no call lets
a thrown value pass, so a `MethodCall` whose callee returns completes normally and the
caller's `Compound` goes on with its next statement; and an error raised in the body
leaves `Call` as that error. -/
theorem Return_is_caught_by_Call (h : Host) (n : Nat) (self : Nat) (inst : ClassInstance)
    (method : String) (m : Method) (actual_args : List ObjectHolder) (st : Store)
    (value : ObjectHolder) (f : Frame) (hself : st.deref self = some inst)
    (hm : inst.class_.GetMethod method = some m)
    (harity : m.formal_params.length = actual_args.length)
    (hfires : ReturnFires h n m.body (callScope self m.formal_params actual_args) st value f) :
    ClassInstance.Call (Execute h n) self method actual_args st = .normal value f.store ∧
    (∀ (execute : Executor) (v : ObjectHolder) (s : Store),
      ClassInstance.Call execute self method actual_args st ≠ .returned v s) ∧
    (∀ (object : Statement) (args rest : List Statement) (closure : Closure) (st0 : Store)
        (f0 f1 : Frame),
      evalArgs (Execute h n) args closure st0 = .normal actual_args f0 →
      Execute h n object f0.closure f0.store = .normal (.classInstance self) f1 →
      f1.store = st →
      Execute h (n + 1) (.MethodCall object method args) closure st0 =
          .normal value ⟨f1.closure, f.store⟩ ∧
        Compound.loop (Execute h (n + 1)) (.MethodCall object method args :: rest) closure st0 =
          Compound.loop (Execute h (n + 1)) rest f1.closure f.store) ∧
    (∀ (execute : Executor) (e : Err) (f1 : Frame),
      execute m.body (callScope self m.formal_params actual_args) st = .raised e f1 →
      ClassInstance.Call execute self method actual_args st = .raised e f1.store) := by
  have hcall : ClassInstance.Call (Execute h n) self method actual_args st =
      .normal value f.store := by
    rw [Call_of_GetMethod _ self inst method m actual_args st hself hm harity,
      ReturnFires_unwinds h hfires]
  refine ⟨hcall, fun execute v s => Call_never_returned execute self method actual_args st v s,
    ?_, ?_⟩
  · intro object args rest closure st0 f0 f1 hargs hobj hst
    have hexec : Execute h (n + 1) (.MethodCall object method args) closure st0 =
        .normal value ⟨f1.closure, f.store⟩ := by
      simp [Execute, hargs, hobj, Outcome.bind, hst, hcall, Outcome.inFrame]
    exact ⟨hexec, by simp [Compound.loop, hexec, Outcome.bind]⟩
  · intro execute e f1 hbody
    rw [Call_of_GetMethod execute self inst method m actual_args st hself hm harity, hbody]

namespace Parse

/-- `Get` moves within the line only, and answers `Eof` exactly when a `getline` has
failed. -/
theorem IndentedReader.Get_spec (r : IndentedReader) :
    r.Get.2.position = r.position ∧ (r.Get.1 = none ↔ r.input_ok = false) := by
  unfold IndentedReader.Get
  cases hok : r.input_ok
  · simp [hok]
  · cases hl : r.current_line_input <;> simp [IndentedReader.position, hok]

/-- `Next` moves within the line only; it answers `Eof` after a `getline` has failed,
and in a line without the byte 0xFF only then. -/
theorem IndentedReader.Next_spec (r : IndentedReader) :
    r.Next.2.position = r.position ∧ (r.input_ok = false → r.Next.1 = none) ∧
    ('\xff' ∉ r.current_line_input → r.Next.1 = none → r.input_ok = false) := by
  unfold IndentedReader.Next
  cases hok : r.input_ok
  · simp
  · have hsuffix := List.dropWhile_suffix isspace (l := r.current_line_input)
    cases hl : r.current_line_input.dropWhile isspace with
    | nil => simp [IndentedReader.position, hok]
    | cons c rest =>
      rw [hl] at hsuffix
      refine ⟨by simp [IndentedReader.position, hok], by simp [hok], fun hplain => ?_⟩
      have hc : c ≠ '\xff' := fun hh => hplain (hsuffix.subset (by simp [hh]))
      simp [hc, hok]

/-- The digit loop ends with the look-ahead `Eof` exactly when a `getline` has failed. -/
theorem Lexer.readNumber_eof (input_ok : Bool) :
    ∀ (line : List Char) (value : Int) (c : Char),
      (Lexer.readNumber input_ok value c line).2.1 = none ↔ input_ok = false
  | [], value, c => by
    cases input_ok <;> simp [Lexer.readNumber]
  | d :: rest, value, c => by
    cases input_ok
    · simp [Lexer.readNumber]
    · rw [Lexer.readNumber]
      by_cases hd : isdigit d = true
      · simpa [hd] using Lexer.readNumber_eof true rest _ d
      · simp [hd]

/-- The identifier loop ends with the look-ahead `Eof` exactly when a `getline` has
failed. -/
theorem Lexer.readId_eof (input_ok : Bool) :
    ∀ (line : List Char) (value : List Char) (c : Char),
      (Lexer.readId input_ok value c line).2.1 = none ↔ input_ok = false
  | [], value, c => by
    cases input_ok <;> simp [Lexer.readId]
  | d :: rest, value, c => by
    cases input_ok
    · simp [Lexer.readId]
    · rw [Lexer.readId]
      by_cases hd : (isalnum d || d == '_') = true
      · simpa [hd] using Lexer.readId_eof true rest _ d
      · simp [hd]

/-- A property of the first alternative and of whatever the others answer is a
property of what a conditional answers. -/
theorem ite_some_of {α : Type} (P : α → Prop) (c : Prop) [Decidable c] (a : α) (e : Option α)
    (tok : α) (ha : P a) (he : e = some tok → P tok) :
    (if c then some a else e) = some tok → P tok := by
  intro h
  by_cases hc : c
  · rw [if_pos hc] at h
    cases h
    exact ha
  · rw [if_neg hc] at h
    exact he h

/-- No keyword is one of the structural tokens. -/
theorem Lexer.keywords_not_structural (value : String) (tok : Token)
    (hk : Lexer.keywords value = some tok) :
    tok ≠ .Indent ∧ tok ≠ .Dedent ∧ tok ≠ .Eof := by
  revert hk
  unfold Lexer.keywords
  refine ite_some_of (fun t : Token => t ≠ Token.Indent ∧ t ≠ Token.Dedent ∧ t ≠ Token.Eof) _ _ _ _
    (by decide) ?_
  refine ite_some_of (fun t : Token => t ≠ Token.Indent ∧ t ≠ Token.Dedent ∧ t ≠ Token.Eof) _ _ _ _
    (by decide) ?_
  refine ite_some_of (fun t : Token => t ≠ Token.Indent ∧ t ≠ Token.Dedent ∧ t ≠ Token.Eof) _ _ _ _
    (by decide) ?_
  refine ite_some_of (fun t : Token => t ≠ Token.Indent ∧ t ≠ Token.Dedent ∧ t ≠ Token.Eof) _ _ _ _
    (by decide) ?_
  refine ite_some_of (fun t : Token => t ≠ Token.Indent ∧ t ≠ Token.Dedent ∧ t ≠ Token.Eof) _ _ _ _
    (by decide) ?_
  refine ite_some_of (fun t : Token => t ≠ Token.Indent ∧ t ≠ Token.Dedent ∧ t ≠ Token.Eof) _ _ _ _
    (by decide) ?_
  refine ite_some_of (fun t : Token => t ≠ Token.Indent ∧ t ≠ Token.Dedent ∧ t ≠ Token.Eof) _ _ _ _
    (by decide) ?_
  refine ite_some_of (fun t : Token => t ≠ Token.Indent ∧ t ≠ Token.Dedent ∧ t ≠ Token.Eof) _ _ _ _
    (by decide) ?_
  refine ite_some_of (fun t : Token => t ≠ Token.Indent ∧ t ≠ Token.Dedent ∧ t ≠ Token.Eof) _ _ _ _
    (by decide) ?_
  refine ite_some_of (fun t : Token => t ≠ Token.Indent ∧ t ≠ Token.Dedent ∧ t ≠ Token.Eof) _ _ _ _
    (by decide) ?_
  refine ite_some_of (fun t : Token => t ≠ Token.Indent ∧ t ≠ Token.Dedent ∧ t ≠ Token.Eof) _ _ _ _
    (by decide) ?_
  refine ite_some_of (fun t : Token => t ≠ Token.Indent ∧ t ≠ Token.Dedent ∧ t ≠ Token.Eof) _ _ _ _
    (by decide) ?_
  intro h
  cases h

end Parse

namespace Parse

/-- Every character of a line `getline` hands out is a character of the text, or of the
line under way. -/
theorem getlinesFrom_subset :
    ∀ (text line : List Char), ∀ l ∈ getlinesFrom line text, ∀ c ∈ l, c ∈ line ∨ c ∈ text
  | [], line, l, hl, c, hc => by
    unfold getlinesFrom at hl
    split at hl
    · cases hl
    · rw [List.mem_singleton.1 hl] at hc
      exact Or.inl hc
  | d :: ds, line, l, hl, c, hc => by
    unfold getlinesFrom at hl
    by_cases hd : d = '\n'
    · rw [if_pos hd] at hl
      rcases List.mem_cons.1 hl with h | h
      · rw [h] at hc
        exact Or.inl hc
      · rcases getlinesFrom_subset ds [] l h c hc with h1 | h1
        · cases h1
        · exact Or.inr (List.mem_cons_of_mem _ h1)
    · rw [if_neg hd] at hl
      rcases getlinesFrom_subset ds (line ++ [d]) l hl c hc with h1 | h1
      · rcases List.mem_append.1 h1 with h2 | h2
        · exact Or.inl h2
        · rw [List.mem_singleton.1 h2]
          exact Or.inr (List.mem_cons_self _ _)
      · exact Or.inr (List.mem_cons_of_mem _ h1)

/-- A reader that is further in the same line is itself. -/
theorem IndentedReader.Within_refl (r : IndentedReader) : r.Within r :=
  ⟨List.suffix_refl _, rfl⟩

/-- Being further in the same line is transitive. -/
theorem IndentedReader.Within_trans {r r1 r2 : IndentedReader} (h1 : r.Within r1)
    (h2 : r1.Within r2) : r.Within r2 :=
  ⟨h2.1.trans h1.1, h2.2.trans h1.2⟩

/-- A reader that is further in a line without a character holds the character
nowhere. -/
theorem IndentedReader.Without_of_within {bad : Char} {r r1 : IndentedReader}
    (h : r.Without bad) (hw : r.Within r1) : r1.Without bad := by
  have hp := hw.2
  simp only [IndentedReader.position, Prod.mk.injEq] at hp
  refine ⟨fun hmem => h.1 (hw.1.subset hmem), ?_⟩
  rw [hp.1]
  exact h.2

/-- `Get` moves on in the line. -/
theorem IndentedReader.Get_within (r : IndentedReader) : r.Within r.Get.2 := by
  refine ⟨?_, r.Get_spec.1⟩
  unfold IndentedReader.Get
  cases hok : r.input_ok
  · simp
  · cases hl : r.current_line_input with
    | nil => simp [hl]
    | cons c rest => simp [hl]

/-- `Next` moves on in the line. -/
theorem IndentedReader.Next_within (r : IndentedReader) : r.Within r.Next.2 := by
  refine ⟨?_, r.Next_spec.1⟩
  unfold IndentedReader.Next
  cases hok : r.input_ok
  · simp
  · have hdrop := List.dropWhile_suffix isspace (l := r.current_line_input)
    cases hl : r.current_line_input.dropWhile isspace with
    | nil => simp
    | cons c rest =>
      rw [hl] at hdrop
      simpa using (List.suffix_cons c rest).trans hdrop

/-- The digit loop moves on in the line. -/
theorem Lexer.readNumber_suffix (input_ok : Bool) :
    ∀ (line : List Char) (value : Int) (c : Char),
      (Lexer.readNumber input_ok value c line).2.2 <:+ line
  | [], value, c => by
    cases input_ok <;> simp [Lexer.readNumber]
  | d :: rest, value, c => by
    cases input_ok
    · simp [Lexer.readNumber]
    · rw [Lexer.readNumber]
      by_cases hd : isdigit d = true
      · simpa [hd] using
          (Lexer.readNumber_suffix true rest _ d).trans (List.suffix_cons d rest)
      · simp [hd]

/-- The identifier loop moves on in the line. -/
theorem Lexer.readId_suffix (input_ok : Bool) :
    ∀ (line : List Char) (value : List Char) (c : Char),
      (Lexer.readId input_ok value c line).2.2 <:+ line
  | [], value, c => by
    cases input_ok <;> simp [Lexer.readId]
  | d :: rest, value, c => by
    cases input_ok
    · simp [Lexer.readId]
    · rw [Lexer.readId]
      by_cases hd : (isalnum d || d == '_') = true
      · simpa [hd] using
          (Lexer.readId_suffix true rest _ d).trans (List.suffix_cons d rest)
      · simp [hd]

/-- The string loop moves on in the line. -/
theorem Lexer.readString_suffix (opener : Char) :
    ∀ (line : List Char) (previous_backslash : Bool) (value : List Char),
      (Lexer.readString opener previous_backslash value line).2.2 <:+ line
  | [], previous_backslash, value => by simp [Lexer.readString]
  | c :: rest, previous_backslash, value => by
    rw [Lexer.readString]
    by_cases hc : ((c != opener || previous_backslash) && c != '\n') = true
    · rw [if_pos hc]
      exact (Lexer.readString_suffix opener rest _ _).trans (List.suffix_cons c rest)
    · rw [if_neg hc]
      exact List.suffix_cons c rest

end Parse

namespace Parse

/-- What the branches `=`, `!`, `<`, `>` do: they answer the two-character token or the
first character as a `Char`, leave `indent` alone, move within the line only, and leave
the look-ahead `Eof` after a `getline` has failed, in a line without the byte 0xFF only
then. -/
theorem Lexer.twoCharOp_spec (l : Lexer) (first : Char) (t : Token) :
    ((l.twoCharOp first t).1 = t ∨ (l.twoCharOp first t).1 = .Char first) ∧
    (l.twoCharOp first t).2.indent = l.indent ∧
    (l.twoCharOp first t).2.char_reader.position = l.char_reader.position ∧
    ((l.twoCharOp first t).2.char_reader.input_ok = false →
      (l.twoCharOp first t).2.cur_char = none) ∧
    ('\xff' ∉ l.char_reader.current_line_input → (l.twoCharOp first t).2.cur_char = none →
      (l.twoCharOp first t).2.char_reader.input_ok = false) := by
  have hg := l.char_reader.Get_spec
  have hn := l.char_reader.Get.2.Next_spec
  have hgw := l.char_reader.Get_within.1
  have hok : l.char_reader.Get.2.input_ok = l.char_reader.input_ok := by
    have := hg.1
    simp only [IndentedReader.position, Prod.mk.injEq] at this
    exact this.2.1
  have hok2 : l.char_reader.Get.2.Next.2.input_ok = l.char_reader.Get.2.input_ok := by
    have := hn.1
    simp only [IndentedReader.position, Prod.mk.injEq] at this
    exact this.2.1
  by_cases heq : l.char_reader.Get.1 = some '='
  · have hdef : l.twoCharOp first t =
        (t, { l with char_reader := l.char_reader.Get.2.Next.2,
                     cur_char := l.char_reader.Get.2.Next.1 }) := by
      simp [Lexer.twoCharOp, heq]
    rw [hdef]
    refine ⟨Or.inl rfl, rfl, hn.1.trans hg.1, fun hf => hn.2.1 ?_, fun hplain hnone => ?_⟩
    · rw [← hok2]
      exact hf
    · show l.char_reader.Get.2.Next.2.input_ok = false
      rw [hok2]
      exact hn.2.2 (fun hmem => hplain (hgw.subset hmem)) hnone
  · have hdef : l.twoCharOp first t =
        (.Char first, { l with char_reader := l.char_reader.Get.2,
                               cur_char := l.char_reader.Get.1 }) := by
      simp [Lexer.twoCharOp, heq]
    rw [hdef]
    refine ⟨Or.inr rfl, rfl, hg.1, fun hf => hg.2.2 ?_, fun _ hnone => ?_⟩
    · rw [← hok]
      exact hf
    · show l.char_reader.Get.2.input_ok = false
      rw [hok]
      exact hg.2.1 hnone

/-- The branches `=`, `!`, `<`, `>` move on in the line. -/
theorem Lexer.twoCharOp_suffix (l : Lexer) (first : Char) (t : Token) :
    (l.twoCharOp first t).2.char_reader.current_line_input <:+
      l.char_reader.current_line_input := by
  have hg := l.char_reader.Get_within.1
  have hn := l.char_reader.Get.2.Next_within.1
  by_cases heq : l.char_reader.Get.1 = some '='
  · have hdef : l.twoCharOp first t =
        (t, { l with char_reader := l.char_reader.Get.2.Next.2,
                     cur_char := l.char_reader.Get.2.Next.1 }) := by
      simp [Lexer.twoCharOp, heq]
    rw [hdef]
    exact hn.trans hg
  · have hdef : l.twoCharOp first t =
        (.Char first, { l with char_reader := l.char_reader.Get.2,
                               cur_char := l.char_reader.Get.1 }) := by
      simp [Lexer.twoCharOp, heq]
    rw [hdef]
    exact hg

end Parse

namespace Parse

/-- What one of the branches `=`, `!`, `<`, `>` of `scan` does. -/
theorem Lexer.scan_twoCharOp (l : Lexer) (first : Char) (t : Token) (tok : Token) (l1 : Lexer)
    (ht : t ≠ .Indent ∧ t ≠ .Dedent ∧ t ≠ .Eof)
    (h : (Except.ok (l.twoCharOp first t) : Except LexFailure (Token × Lexer)) = .ok (tok, l1)) :
    tok ≠ .Indent ∧ tok ≠ .Dedent ∧ tok ≠ .Eof ∧ l1.indent = l.indent ∧
    l1.char_reader.position = l.char_reader.position ∧
    (l1.char_reader.input_ok = false → l1.cur_char = none) ∧
    ('\xff' ∉ l.char_reader.current_line_input → l1.cur_char = none →
      l1.char_reader.input_ok = false) := by
  have hs := l.twoCharOp_spec first t
  simp only [Except.ok.injEq] at h
  rw [h] at hs
  obtain ⟨htok, hind, hpos, hfw, hbw⟩ := hs
  simp only at htok hind hpos hfw hbw
  refine ⟨?_, ?_, ?_, hind, hpos, hfw, hbw⟩
  · rcases htok with h1 | h1 <;> rw [h1]
    · exact ht.1
    · simp
  · rcases htok with h1 | h1 <;> rw [h1]
    · exact ht.2.1
    · simp
  · rcases htok with h1 | h1 <;> rw [h1]
    · exact ht.2.2
    · simp

/-- What `scan` does: it never answers `Indent` or `Dedent`, it answers `Eof` only for
the look-ahead `Eof`, it leaves `indent` alone and moves within the line only; a
look-ahead that is `Eof` after a `getline` has failed stays so, and in a line without
the byte 0xFF a look-ahead that is `Eof` only then stays so. -/
theorem Lexer.scan_spec (l : Lexer) (tok : Token) (l1 : Lexer) (h : l.scan = .ok (tok, l1)) :
    tok ≠ .Indent ∧ tok ≠ .Dedent ∧ (tok = .Eof → l.cur_char = none) ∧ l1.indent = l.indent ∧
    l1.char_reader.position = l.char_reader.position ∧
    ((l.char_reader.input_ok = false → l.cur_char = none) →
      l1.char_reader.input_ok = false → l1.cur_char = none) ∧
    ('\xff' ∉ l.char_reader.current_line_input →
      (l.cur_char = none → l.char_reader.input_ok = false) →
      l1.cur_char = none → l1.char_reader.input_ok = false) := by
  have htwo : ∀ (first : Char) (t : Token), t ≠ .Indent ∧ t ≠ .Dedent ∧ t ≠ .Eof →
      (Except.ok (l.twoCharOp first t) : Except LexFailure (Token × Lexer)) = .ok (tok, l1) →
      tok ≠ .Indent ∧ tok ≠ .Dedent ∧ (tok = .Eof → l.cur_char = none) ∧ l1.indent = l.indent ∧
      l1.char_reader.position = l.char_reader.position ∧
      ((l.char_reader.input_ok = false → l.cur_char = none) →
        l1.char_reader.input_ok = false → l1.cur_char = none) ∧
      ('\xff' ∉ l.char_reader.current_line_input →
        (l.cur_char = none → l.char_reader.input_ok = false) →
        l1.cur_char = none → l1.char_reader.input_ok = false) := by
    intro first t ht h2
    obtain ⟨h1, h2, h3, h4, h5, h6, h7⟩ := Lexer.scan_twoCharOp l first t tok l1 ht h2
    exact ⟨h1, h2, fun he => absurd he h3, h4, h5, fun _ => h6, fun hp _ => h7 hp⟩
  unfold Lexer.scan at h
  cases hcur : l.cur_char with
  | none =>
    simp only [hcur] at h
    cases h
    exact ⟨by decide, by decide, fun _ => rfl, rfl, rfl, fun hfw => by rw [hcur]; exact hfw,
      fun _ hbw => by rw [hcur]; exact hbw⟩
  | some c =>
    simp only [hcur] at h
    split at h
    · cases h
      have hnum := Lexer.readNumber_eof l.char_reader.input_ok
        l.char_reader.current_line_input 0 c
      exact ⟨by simp, by simp, by simp, rfl, by simp [IndentedReader.position],
        fun _ hf => hnum.2 hf, fun _ _ hn => hnum.1 hn⟩
    · split at h
      · split at h
        · cases h
        · split at h
          · cases h
          · cases h
            have hn := IndentedReader.Next_spec
              { l.char_reader with current_line_input :=
                  (Lexer.readString c false [] l.char_reader.current_line_input).2.2 }
            have hp := hn.1
            simp only [IndentedReader.position, Prod.mk.injEq] at hp
            refine ⟨by simp, by simp, by simp, rfl, ?_, fun _ hf => hn.2.1 ?_,
              fun hplain _ hnone => ?_⟩
            · simpa [IndentedReader.position] using hn.1
            · rw [← hp.2.1]
              exact hf
            · have hfree : '\xff' ∉
                  (Lexer.readString c false [] l.char_reader.current_line_input).2.2 :=
                fun hmem => hplain ((Lexer.readString_suffix c _ _ _).subset hmem)
              have := hn.2.2 hfree hnone
              rw [← hp.2.1] at this
              exact this
      · split at h
        · have hid := Lexer.readId_eof l.char_reader.input_ok l.char_reader.current_line_input [] c
          split at h
          · rename_i kw hkw
            cases h
            have hns := Lexer.keywords_not_structural _ _ hkw
            exact ⟨hns.1, hns.2.1, fun he => absurd he hns.2.2, rfl,
              by simp [IndentedReader.position], fun _ hf => hid.2 hf, fun _ _ hn => hid.1 hn⟩
          · cases h
            exact ⟨by simp, by simp, by simp, rfl, by simp [IndentedReader.position],
              fun _ hf => hid.2 hf, fun _ _ hn => hid.1 hn⟩
        · split at h
          · have := htwo '=' .Eq (by decide) h
            rw [hcur] at this
            exact this
          · split at h
            · have := htwo '!' .NotEq (by decide) h
              rw [hcur] at this
              exact this
            · split at h
              · have := htwo '<' .LessOrEq (by decide) h
                rw [hcur] at this
                exact this
              · split at h
                · have := htwo '>' .GreaterOrEq (by decide) h
                  rw [hcur] at this
                  exact this
                · cases h
                  have hn := l.char_reader.Next_spec
                  have hp := hn.1
                  simp only [IndentedReader.position, Prod.mk.injEq] at hp
                  refine ⟨by simp, by simp, by simp, rfl, hn.1, fun _ hf => hn.2.1 ?_,
                    fun hplain _ hnone => ?_⟩
                  · rw [← hp.2.1]
                    exact hf
                  · have := hn.2.2 hplain hnone
                    rw [← hp.2.1] at this
                    exact this

/-- The part of `NextTokenImpl` after the white space skip moves on in the line. -/
theorem Lexer.scan_suffix (l : Lexer) (tok : Token) (l1 : Lexer) (h : l.scan = .ok (tok, l1)) :
    l1.char_reader.current_line_input <:+ l.char_reader.current_line_input := by
  have htwo : ∀ (first : Char) (t : Token),
      (Except.ok (l.twoCharOp first t) : Except LexFailure (Token × Lexer)) = .ok (tok, l1) →
      l1.char_reader.current_line_input <:+ l.char_reader.current_line_input := by
    intro first t h2
    simp only [Except.ok.injEq] at h2
    have := Lexer.twoCharOp_suffix l first t
    rw [h2] at this
    exact this
  unfold Lexer.scan at h
  cases hcur : l.cur_char with
  | none =>
    simp only [hcur] at h
    cases h
    exact List.suffix_refl _
  | some c =>
    simp only [hcur] at h
    split at h
    · cases h
      exact Lexer.readNumber_suffix _ _ _ _
    · split at h
      · split at h
        · cases h
        · split at h
          · cases h
          · cases h
            exact (IndentedReader.Next_within
              { l.char_reader with current_line_input :=
                  (Lexer.readString c false [] l.char_reader.current_line_input).2.2 }).1.trans
              (Lexer.readString_suffix c _ _ _)
      · split at h
        · split at h
          · cases h
            exact Lexer.readId_suffix _ _ _ _
          · cases h
            exact Lexer.readId_suffix _ _ _ _
        · split at h
          · exact htwo _ _ h
          · split at h
            · exact htwo _ _ h
            · split at h
              · exact htwo _ _ h
              · split at h
                · exact htwo _ _ h
                · cases h
                  exact l.char_reader.Next_within.1

end Parse

namespace Parse

/-- The loop of `NextLine`, run over the lines after line `k` of the text, leaves a
consistent reader. -/
theorem IndentedReader.NextLineLoop_consistent (text : List Char) (r : IndentedReader) :
    ∀ (lines : List (List Char)) (k : Nat) (r1 : IndentedReader),
      (r.input_ok = true → lines = (getlines text).drop k) →
      (r.input_ok = false → lines = []) →
      IndentedReader.NextLineLoop r lines k = .ok r1 → r1.Consistent text
  | [], k, r1, _, _, h => by
    simp only [IndentedReader.NextLineLoop, Except.ok.injEq] at h
    subst h
    simp [IndentedReader.Consistent]
  | line :: rest, k, r1, hok, hfail, h => by
    have hrok : r.input_ok = true := by
      cases hr : r.input_ok
      · exact absurd (hfail hr) (by simp)
      · rfl
    have hl := hok hrok
    have hline : (getlines text)[k]? = some line := by
      have : ((getlines text).drop k).head? = some line := by rw [← hl]; rfl
      rwa [List.head?_drop] at this
    have hrest : rest = (getlines text).drop (k + 1) := by
      have : ((getlines text).drop k).tail = rest := by rw [← hl]; rfl
      rw [← this, List.tail_drop]
    unfold IndentedReader.NextLineLoop at h
    simp only at h
    split at h
    · split at h
      · cases h
      · simp only [Except.ok.injEq] at h
        subst h
        refine ⟨fun _ => ⟨hrest, by simp, ?_⟩, fun hf => ?_⟩
        · simp [Lexer.lineLevel, List.getD_eq_getElem?_getD, hline]
        · simp [hrok] at hf
    · exact IndentedReader.NextLineLoop_consistent text r rest (k + 1) r1 (fun _ => hrest)
        (fun hf => by simp [hrok] at hf) h

/-- `NextLine` keeps a reader consistent. -/
theorem IndentedReader.NextLine_consistent (text : List Char) (r r1 : IndentedReader)
    (hr : r.Consistent text) (h : r.NextLine = .ok r1) : r1.Consistent text :=
  IndentedReader.NextLineLoop_consistent text r r.input r.line_number r1
    (fun hok => (hr.1 hok).1) (fun hf => (hr.2 hf).1) h

/-- The lexer is consistent when the initialisers before `current` are done, and its
`indent` is 0. -/
theorem Lexer.init_consistent (text : List Char) (l : Lexer) (h : Lexer.init text = .ok l) :
    l.Consistent text ∧ l.indent = 0 := by
  unfold Lexer.init at h
  split at h
  · cases h
  · rename_i r hr
    simp only [Except.ok.injEq] at h
    subst h
    have hcons : r.Consistent text :=
      IndentedReader.NextLineLoop_consistent text _ (getlines text) 0 r (fun _ => by simp)
        (fun hf => by simp at hf) hr
    have hg := r.Get_spec
    have hp := hg.1
    simp only [IndentedReader.position, Prod.mk.injEq] at hp
    refine ⟨⟨?_, ?_⟩, rfl⟩
    · simpa [IndentedReader.Consistent, hp.1, hp.2.1, hp.2.2.1, hp.2.2.2] using hcons
    · simp only
      rw [hg.2, hp.2.1]

end Parse

namespace Parse

/-- The loop of `NextLine` over lines without a character leaves a reader without it. -/
theorem IndentedReader.NextLineLoop_without (bad : Char) (r : IndentedReader)
    (hr : bad ∉ r.current_line_input) :
    ∀ (lines : List (List Char)) (line_number : Nat) (r1 : IndentedReader),
      (∀ line ∈ lines, bad ∉ line) → r.NextLineLoop lines line_number = .ok r1 →
      r1.Without bad
  | [], line_number, r1, _, h => by
    simp only [IndentedReader.NextLineLoop, Except.ok.injEq] at h
    rw [← h]
    exact ⟨hr, fun _ hmem => by cases hmem⟩
  | line :: rest, line_number, r1, hlines, h => by
    unfold IndentedReader.NextLineLoop at h
    simp only at h
    split at h
    · split at h
      · cases h
      · simp only [Except.ok.injEq] at h
        rw [← h]
        refine ⟨fun hmem => ?_, fun l hl => hlines l (List.mem_cons_of_mem _ hl)⟩
        exact hlines line (List.mem_cons_self _ _) (List.mem_of_mem_drop hmem)
    · exact IndentedReader.NextLineLoop_without bad r hr rest _ r1
        (fun l hl => hlines l (List.mem_cons_of_mem _ hl)) h

/-- `NextTokenImpl` leaves a reader without a character when it starts from one. -/
theorem Lexer.NextTokenImpl_without (bad : Char) (l : Lexer) (tok : Token) (l1 : Lexer)
    (hfree : l.char_reader.Without bad) (h : l.NextTokenImpl = .ok (tok, l1)) :
    l1.char_reader.Without bad := by
  have hscan : ∀ l0 : Lexer, l.char_reader.Within l0.char_reader →
      l0.scan = .ok (tok, l1) → l1.char_reader.Without bad := by
    intro l0 hw hs
    exact IndentedReader.Without_of_within hfree
      (IndentedReader.Within_trans hw
        ⟨Lexer.scan_suffix l0 tok l1 hs, (Lexer.scan_spec l0 tok l1 hs).2.2.2.2.1⟩)
  unfold Lexer.NextTokenImpl at h
  split at h
  · cases h
    exact hfree
  · split at h
    · cases h
      exact hfree
    · split at h
      · cases hn : l.char_reader.NextLine with
        | error e => simp [hn] at h
        | ok r =>
          simp only [hn, Except.ok.injEq, Prod.mk.injEq] at h
          rw [← h.2]
          have hr : r.Without bad :=
            IndentedReader.NextLineLoop_without bad l.char_reader hfree.1 _ _ r hfree.2 hn
          exact IndentedReader.Without_of_within hr r.Get_within
      · cases hcur : l.cur_char with
        | none =>
          simp only [hcur] at h
          exact hscan l (IndentedReader.Within_refl _) h
        | some c =>
          simp only [hcur] at h
          split at h
          · exact hscan _ l.char_reader.Next_within h
          · exact hscan l (IndentedReader.Within_refl _) h

/-- `NextToken` leaves a reader without a character when it starts from one. -/
theorem Lexer.NextToken_without (bad : Char) (l : Lexer) (tok : Token) (l1 : Lexer)
    (hfree : l.char_reader.Without bad) (h : l.NextToken = .ok (tok, l1)) :
    l1.char_reader.Without bad := by
  unfold Lexer.NextToken at h
  cases himpl : l.NextTokenImpl with
  | error e => simp [himpl] at h
  | ok r =>
    obtain ⟨tok1, l2⟩ := r
    simp only [himpl, Except.ok.injEq, Prod.mk.injEq] at h
    rw [← h.2]
    exact Lexer.NextTokenImpl_without bad l tok1 l2 hfree himpl

/-- The reader of a lexer over a text whose lines are without a character is without
it when the member initialisers are done. -/
theorem Lexer.init_without (bad : Char) (text : List Char) (l : Lexer)
    (hlines : ∀ line ∈ getlines text, bad ∉ line) (h : Lexer.init text = .ok l) :
    l.char_reader.Without bad := by
  unfold Lexer.init at h
  cases hr : IndentedReader.new text with
  | error e => simp [hr] at h
  | ok r =>
    simp only [hr, Except.ok.injEq] at h
    rw [← h]
    have hfree : r.Without bad :=
      IndentedReader.NextLineLoop_without bad _ (by simp) _ _ r hlines hr
    exact IndentedReader.Without_of_within hfree r.Get_within

end Parse

namespace Parse

/-- Consistency of a reader is a matter of its position only. -/
theorem IndentedReader.Consistent_of_position (text : List Char) (r r1 : IndentedReader)
    (hr : r.Consistent text) (hp : r1.position = r.position) : r1.Consistent text := by
  simp only [IndentedReader.position, Prod.mk.injEq] at hp
  simpa [IndentedReader.Consistent, hp.1, hp.2.1, hp.2.2.1, hp.2.2.2] using hr

/-- What `scan` does to a consistent lexer whose `indent` is the reader's, in a line
without the byte 0xFF. -/
theorem Lexer.scan_step (text : List Char) (l : Lexer) (tok : Token) (l1 : Lexer)
    (hinv : l.Consistent text) (hplain : '\xff' ∉ l.char_reader.current_line_input)
    (h : l.scan = .ok (tok, l1)) :
    l1.Consistent text ∧ tok ≠ .Indent ∧ tok ≠ .Dedent ∧ l1.indent = l.indent ∧
    (tok = .Eof → l.char_reader.input_ok = false) ∧
    (tok ≠ .Eof → l.cur_char ≠ none → l.char_reader.input_ok = true) := by
  obtain ⟨hni, hnd, heof, hind, hpos, hfw, hbw⟩ := Lexer.scan_spec l tok l1 h
  refine ⟨⟨IndentedReader.Consistent_of_position text _ _ hinv.1 hpos,
    hbw hplain hinv.2.1, hfw hinv.2.2⟩, hni, hnd, hind,
    fun he => hinv.2.1 (heof he), fun _ hc => ?_⟩
  cases hok : l.char_reader.input_ok
  · exact absurd (hinv.2.2 hok) hc
  · rfl

/-- One call of `NextTokenImpl` on a consistent lexer over lines without the byte 0xFF:
the lexer stays consistent; `Indent` raises `indent` by one and `Dedent` lowers it by
one; any other token leaves `indent` alone and is answered only when `indent` is the
reader's indentation level; `Eof` is answered only after a `getline` has failed, every
other token that is not `Indent` or `Dedent` only before. -/
theorem Lexer.NextTokenImpl_step (text : List Char) (l : Lexer) (tok : Token) (l1 : Lexer)
    (hinv : l.Consistent text) (hplain : l.char_reader.Without '\xff')
    (h : l.NextTokenImpl = .ok (tok, l1)) :
    l1.Consistent text ∧
    (tok = .Indent → l1.indent = l.indent + 1) ∧
    (tok = .Dedent → l1.indent + 1 = l.indent) ∧
    (tok ≠ .Indent → tok ≠ .Dedent →
      l1.indent = l.indent ∧ l.indent = l.char_reader.current_indent) ∧
    (tok = .Eof → l.char_reader.input_ok = false) ∧
    (tok ≠ .Indent → tok ≠ .Dedent → tok ≠ .Eof → l.char_reader.input_ok = true) := by
  unfold Lexer.NextTokenImpl at h
  simp only [IndentedReader.CurrentIndent] at h
  split at h
  · rename_i hgt
    cases h
    refine ⟨hinv, by simp, fun _ => ?_, by simp, by simp, by simp⟩
    show l.indent - 1 + 1 = l.indent
    omega
  · rename_i hngt
    split at h
    · cases h
      exact ⟨hinv, by simp, by simp, by simp, by simp, by simp⟩
    · rename_i hnlt
      have hlevel : l.indent = l.char_reader.current_indent := by omega
      split at h
      · rename_i hnl
        split at h
        · cases h
        · rename_i r hr
          cases h
          have hrc := IndentedReader.NextLine_consistent text _ r hinv.1 hr
          have hg := r.Get_spec
          have hp := hg.1
          simp only [IndentedReader.position, Prod.mk.injEq] at hp
          refine ⟨⟨IndentedReader.Consistent_of_position text _ _ hrc hg.1, ?_⟩, by simp, by simp,
            fun _ _ => ⟨rfl, hlevel⟩, by simp, fun _ _ _ => ?_⟩
          · simp only
            rw [hg.2, hp.2.1]
          · cases hok : l.char_reader.input_ok
            · have := hinv.2.2 hok
              rw [hnl] at this
              cases this
            · rfl
      · split at h
        · rename_i c hc
          split at h
          · have hn := l.char_reader.Next_spec
            have hp := hn.1
            simp only [IndentedReader.position, Prod.mk.injEq] at hp
            have hinv1 : Lexer.Consistent text
                { l with char_reader := l.char_reader.Next.2, cur_char := l.char_reader.Next.1 } :=
              ⟨IndentedReader.Consistent_of_position text _ _ hinv.1 hn.1,
                fun hnone => by
                  have := hn.2.2 hplain.1 hnone
                  rw [← hp.2.1] at this
                  exact this,
                fun hf => hn.2.1 (by rw [← hp.2.1]; exact hf)⟩
            have hplain1 : '\xff' ∉ l.char_reader.Next.2.current_line_input :=
              fun hmem => hplain.1 (l.char_reader.Next_within.1.subset hmem)
            obtain ⟨hc1, hni, hnd, hind, heof, _⟩ :=
              Lexer.scan_step text _ tok l1 hinv1 hplain1 h
            refine ⟨hc1, fun he => absurd he hni, fun he => absurd he hnd,
              fun _ _ => ⟨hind, hlevel⟩, fun he => ?_, fun _ _ _ => ?_⟩
            · have := heof he
              simp only at this
              rw [hp.2.1] at this
              exact this
            · cases hok : l.char_reader.input_ok
              · have := hinv.2.2 hok
                rw [hc] at this
                cases this
              · rfl
          · obtain ⟨hc1, hni, hnd, hind, heof, hne⟩ :=
              Lexer.scan_step text l tok l1 hinv hplain.1 h
            exact ⟨hc1, fun he => absurd he hni, fun he => absurd he hnd,
              fun _ _ => ⟨hind, hlevel⟩, heof, fun _ _ he => hne he (by rw [hc]; simp)⟩
        · rename_i hnone
          obtain ⟨hc1, hni, hnd, hind, heof, hne⟩ :=
            Lexer.scan_step text l tok l1 hinv hplain.1 h
          refine ⟨hc1, fun he => absurd he hni, fun he => absurd he hnd,
            fun _ _ => ⟨hind, hlevel⟩, heof, fun _ _ he => ?_⟩
          exfalso
          unfold Lexer.scan at h
          rw [hnone] at h
          simp only [Except.ok.injEq, Prod.mk.injEq] at h
          exact he h.1.symm

/-- `NextToken` is `NextTokenImpl` with the token stored in `current`. -/
theorem Lexer.NextToken_step (text : List Char) (l : Lexer) (tok : Token) (l1 : Lexer)
    (hinv : l.Consistent text) (hplain : l.char_reader.Without '\xff')
    (h : l.NextToken = .ok (tok, l1)) :
    l1.Consistent text ∧
    (tok = .Indent → l1.indent = l.indent + 1) ∧
    (tok = .Dedent → l1.indent + 1 = l.indent) ∧
    (tok ≠ .Indent → tok ≠ .Dedent →
      l1.indent = l.indent ∧ l.indent = l.char_reader.current_indent) ∧
    (tok = .Eof → l.char_reader.input_ok = false) ∧
    (tok ≠ .Indent → tok ≠ .Dedent → tok ≠ .Eof → l.char_reader.input_ok = true) := by
  unfold Lexer.NextToken at h
  split at h
  · cases h
  · rename_i t l2 himpl
    simp only [Except.ok.injEq, Prod.mk.injEq] at h
    obtain ⟨ht, hl⟩ := h
    subst ht hl
    obtain ⟨hc, h1, h2, h3, h4, h5⟩ := Lexer.NextTokenImpl_step text l t l2 hinv hplain himpl
    exact ⟨hc, h1, h2, h3, h4, h5⟩

end Parse

namespace Parse

/-- Counting `Indent` tokens, one token at a time. -/
theorem Lexer.indents_cons (e : Lexer.Emitted) (es : List Lexer.Emitted) :
    Lexer.indents (e :: es) = (if e.tok = .Indent then 1 else 0) + Lexer.indents es := by
  by_cases he : e.tok = .Indent <;> simp [Lexer.indents, List.filter_cons, he, Nat.add_comm]

/-- Counting `Dedent` tokens, one token at a time. -/
theorem Lexer.dedents_cons (e : Lexer.Emitted) (es : List Lexer.Emitted) :
    Lexer.dedents (e :: es) = (if e.tok = .Dedent then 1 else 0) + Lexer.dedents es := by
  by_cases he : e.tok = .Dedent <;> simp [Lexer.dedents, List.filter_cons, he, Nat.add_comm]

/-- The tokens pulled from a consistent lexer over lines without the byte 0xFF: before
each of them, `indent` plus the `Indent` tokens so far covers the `Dedent` tokens so
far; a token that is not `Indent` or `Dedent` comes when the difference is the
indentation level of the reader's line, which for a token other than `Eof` is a line of
the text; and `Eof` comes when the difference is 0. -/
theorem Lexer.pull_levels (text : List Char) :
    ∀ (n : Nat) (l : Lexer) (ems : List Lexer.Emitted), l.Consistent text →
      l.char_reader.Without '\xff' → Lexer.pull n l = .ok ems →
      ∀ pre e post, ems = pre ++ e :: post →
        Lexer.dedents pre ≤ l.indent + Lexer.indents pre ∧
        (e.tok ≠ .Indent → e.tok ≠ .Dedent →
          l.indent + Lexer.indents pre = Lexer.dedents pre + e.line_indent) ∧
        (e.tok ≠ .Indent → e.tok ≠ .Dedent → e.tok ≠ .Eof →
          1 ≤ e.line_number ∧ e.line_indent = Lexer.lineLevel text e.line_number) ∧
        (e.tok = .Eof → l.indent + Lexer.indents pre = Lexer.dedents pre)
  | 0, l, ems, _, _, h, pre, e, post, hsplit => by
    simp only [Lexer.pull, Except.ok.injEq] at h
    subst h
    simp at hsplit
  | n + 1, l, ems, hinv, hplain, h, pre, e, post, hsplit => by
    unfold Lexer.pull at h
    split at h
    · cases h
    · rename_i tok l1 hnext
      split at h
      · cases h
      · rename_i rest hrest
        simp only [Except.ok.injEq] at h
        subst h
        obtain ⟨hc1, hI, hD, hO, hE, hL⟩ := Lexer.NextToken_step text l tok l1 hinv hplain hnext
        have hplain1 := Lexer.NextToken_without '\xff' l tok l1 hplain hnext
        cases pre with
        | nil =>
          simp only [List.nil_append, List.cons.injEq] at hsplit
          obtain ⟨he, -⟩ := hsplit
          subst he
          simp only [Lexer.indents, Lexer.dedents, List.filter_nil, List.length_nil,
            Nat.add_zero, Nat.zero_add, Nat.zero_le, true_and, IndentedReader.CurrentIndent]
          refine ⟨fun h1 h2 => (hO h1 h2).2, fun h1 h2 h3 => ?_, fun he => ?_⟩
          · have := hinv.1.1 (hL h1 h2 h3)
            exact ⟨this.2.1, this.2.2⟩
          · have h0 := (hinv.1.2 (hE he)).2
            have := (hO (by rw [he]; decide) (by rw [he]; decide)).2
            omega
        | cons e0 pre1 =>
          simp only [List.cons_append, List.cons.injEq] at hsplit
          obtain ⟨he0, hrest1⟩ := hsplit
          obtain ⟨k1, k2, k3, k4⟩ :=
            Lexer.pull_levels text n l1 rest hc1 hplain1 hrest pre1 e post hrest1
          rw [Lexer.indents_cons, Lexer.dedents_cons, ← he0]
          simp only
          by_cases hti : tok = .Indent
          · have hi := hI hti
            subst hti
            simp only [if_true, reduceCtorEq, if_false]
            exact ⟨by omega, fun h1 h2 => by have := k2 h1 h2; omega, k3,
              fun he => by have := k4 he; omega⟩
          · by_cases htd : tok = .Dedent
            · have hd := hD htd
              subst htd
              simp only [reduceCtorEq, if_true, if_false]
              exact ⟨by omega, fun h1 h2 => by have := k2 h1 h2; omega, k3,
                fun he => by have := k4 he; omega⟩
            · have ho := (hO hti htd).1
              simp only [hti, htd, if_false]
              exact ⟨by omega, fun h1 h2 => by have := k2 h1 h2; omega, k3,
                fun he => by have := k4 he; omega⟩

/-- The tokens pulled from a consistent lexer over lines without the byte 0xFF, all of
them: `indent` plus the `Indent` tokens covers the `Dedent` tokens. -/
theorem Lexer.pull_balance (text : List Char) :
    ∀ (n : Nat) (l : Lexer) (ems : List Lexer.Emitted), l.Consistent text →
      l.char_reader.Without '\xff' → Lexer.pull n l = .ok ems →
      Lexer.dedents ems ≤ l.indent + Lexer.indents ems
  | 0, l, ems, _, _, h => by
    simp only [Lexer.pull, Except.ok.injEq] at h
    subst h
    simp [Lexer.dedents]
  | n + 1, l, ems, hinv, hplain, h => by
    unfold Lexer.pull at h
    split at h
    · cases h
    · rename_i tok l1 hnext
      split at h
      · cases h
      · rename_i rest hrest
        simp only [Except.ok.injEq] at h
        subst h
        obtain ⟨hc1, hI, hD, hO, -, -⟩ := Lexer.NextToken_step text l tok l1 hinv hplain hnext
        have hplain1 := Lexer.NextToken_without '\xff' l tok l1 hplain hnext
        have ih := Lexer.pull_balance text n l1 rest hc1 hplain1 hrest
        rw [Lexer.indents_cons, Lexer.dedents_cons]
        simp only
        by_cases hti : tok = .Indent
        · have hi := hI hti
          subst hti
          simp only [if_true, reduceCtorEq, if_false]
          omega
        · by_cases htd : tok = .Dedent
          · have hd := hD htd
            subst htd
            simp only [reduceCtorEq, if_true, if_false]
            omega
          · have ho := (hO hti htd).1
            simp only [hti, htd, if_false]
            omega

/-- The indentation tokens of a text without the byte 0xFF: in the first `n` tokens of
the stream of such a text that lexes without error, the `Dedent` tokens never outnumber
the `Indent` tokens, neither before any token nor in all `n`; a token that is neither
is emitted only when the difference is the indentation level the reader holds, which
for every such token but `Eof` is the level of a line of the text, its leading white
space halved; and `Eof` is emitted only when the difference is 0, so that up to the
first `Eof` the stream has as many `Indent` as `Dedent` tokens. -/
theorem Lexer.stream_indentation (text : List Char) (n : Nat) (ems : List Lexer.Emitted)
    (hplain : '\xff' ∉ text) (hstream : Lexer.stream text n = .ok ems) :
    Lexer.dedents ems ≤ Lexer.indents ems ∧
    ∀ (pre : List Lexer.Emitted) (e : Lexer.Emitted) (post : List Lexer.Emitted),
      ems = pre ++ e :: post →
        Lexer.dedents pre ≤ Lexer.indents pre ∧
        (e.tok ≠ .Indent → e.tok ≠ .Dedent →
          Lexer.indents pre = Lexer.dedents pre + e.line_indent) ∧
        (e.tok ≠ .Indent → e.tok ≠ .Dedent → e.tok ≠ .Eof →
          1 ≤ e.line_number ∧ e.line_indent = Lexer.lineLevel text e.line_number) ∧
        (e.tok = .Eof → Lexer.indents pre = Lexer.dedents pre) := by
  unfold Lexer.stream at hstream
  split at hstream
  · cases hstream
  · rename_i l hl
    obtain ⟨hc, h0⟩ := Lexer.init_consistent text l hl
    have hfree : l.char_reader.Without '\xff' :=
      Lexer.init_without '\xff' text l
        (fun line hline hmem => by
          rcases getlinesFrom_subset text [] line hline '\xff' hmem with h1 | h1
          · cases h1
          · exact hplain h1) hl
    refine ⟨?_, fun pre e post hsplit => ?_⟩
    · have := Lexer.pull_balance text n l ems hc hfree hstream
      rw [h0] at this
      simpa using this
    · have := Lexer.pull_levels text n l ems hc hfree hstream pre e post hsplit
      rw [h0] at this
      simpa using this

end Parse

/-- An instance of the indentation tokens of a text without the byte 0xFF: the seven
tokens of `Sample.text` end in `Eof`, and the six before it hold as many `Indent` as
`Dedent` tokens. -/
theorem stream_indentation_sample :
    Parse.Lexer.stream Sample.text 7 = .ok (Sample.tokens ++ [Parse.Lexer.Emitted.mk .Eof 2 0]) ∧
    Parse.Lexer.indents Sample.tokens = Parse.Lexer.dedents Sample.tokens :=
  ⟨rfl,
   ((Parse.Lexer.stream_indentation Sample.text 7
     (Sample.tokens ++ [Parse.Lexer.Emitted.mk .Eof 2 0]) (by decide) rfl).2
     Sample.tokens (Parse.Lexer.Emitted.mk .Eof 2 0) [] rfl).2.2.2 rfl⟩

/-- C1 at the failing input: the line `a`, then the line `  ( ` followed by the byte
0xFF. After `(` the look-ahead is read with `Next`, which returns the byte as a signed
`char`, -1, and that is `Eof`: the stream ends in `Eof` tokens after one `Indent` and
no `Dedent`, with the second line still at level 1. With `)` in place of the byte the
`Dedent` comes before `Eof`, and so it does when the byte is read with `Get`, at the
beginning of the line, where it is the `Char` token it should be. -/
theorem stream_Eof_without_Dedent :
    Parse.Lexer.stream ['a', '\n', ' ', ' ', '(', ' ', '\xff'] 6 =
      .ok [⟨.Id "a", 1, 0⟩, ⟨.Newline, 1, 0⟩, ⟨.Indent, 2, 1⟩, ⟨.Char '(', 2, 1⟩,
        ⟨.Eof, 2, 1⟩, ⟨.Eof, 2, 1⟩] ∧
    Parse.Lexer.indents
        [⟨.Id "a", 1, 0⟩, ⟨.Newline, 1, 0⟩, ⟨.Indent, 2, 1⟩, ⟨.Char '(', 2, 1⟩] = 1 ∧
    Parse.Lexer.dedents
        [⟨.Id "a", 1, 0⟩, ⟨.Newline, 1, 0⟩, ⟨.Indent, 2, 1⟩, ⟨.Char '(', 2, 1⟩] = 0 ∧
    Parse.Lexer.stream ['a', '\n', ' ', ' ', '(', ' ', ')'] 8 =
      .ok [⟨.Id "a", 1, 0⟩, ⟨.Newline, 1, 0⟩, ⟨.Indent, 2, 1⟩, ⟨.Char '(', 2, 1⟩,
        ⟨.Char ')', 2, 1⟩, ⟨.Newline, 2, 1⟩, ⟨.Dedent, 2, 0⟩, ⟨.Eof, 2, 0⟩] ∧
    Parse.Lexer.stream ['a', '\n', ' ', ' ', '\xff'] 7 =
      .ok [⟨.Id "a", 1, 0⟩, ⟨.Newline, 1, 0⟩, ⟨.Indent, 2, 1⟩, ⟨.Char '\xff', 2, 1⟩,
        ⟨.Newline, 2, 1⟩, ⟨.Dedent, 2, 0⟩, ⟨.Eof, 2, 0⟩] :=
  ⟨rfl, rfl, rfl, rfl, rfl⟩

/-- Witness of C4: in `D::g` the `Return` of 1 lies in a `Compound` in an `IfElse` in
the body; `Call` answers 1 and nothing is printed. And `D::k`, which calls `g` and then
returns 3, answers 3: the `Return` in `g` ends `g` only. -/
theorem Return_is_caught_by_Call_witness :
    ClassInstance.Call (Execute Host.hashed 5) 0 "g" [] (Sample.store Sample.D) =
      .normal (.number 1) (Sample.store Sample.D) ∧
    ClassInstance.Call (Execute Host.hashed 8) 0 "k" [] (Sample.store Sample.D) =
      .normal (.number 3) (Sample.store Sample.D) :=
  ⟨(Return_is_caught_by_Call Host.hashed 5 0 ⟨Sample.D, []⟩ "g"
    (.mk "g" []
      (.Compound [
        .IfElse (.BoolConst true)
          (.Compound [.Return (.NumericConst 1), .Print [.StringConst "after"]])
          Option.none,
        .Print [.StringConst "after"],
        .Return (.NumericConst 2)]))
    [] (Sample.store Sample.D) (.number 1) ⟨callScope 0 [] [], Sample.store Sample.D⟩ rfl rfl rfl
    (ReturnFires.compound (rfl : Compound.loop (Execute Host.hashed 4) [] _ _ = _)
      (ReturnFires.ifBody (rfl : Execute Host.hashed 3 (.BoolConst true) _ _ = _) rfl
        (ReturnFires.compound (rfl : Compound.loop (Execute Host.hashed 2) [] _ _ = _)
          (ReturnFires.here rfl))))).1,
   rfl⟩

/-- C11, as the code has it: `Or` and `And` evaluate the left operand first and the
right operand only when the left one does not decide the result. `Or` with a true left
operand is `Bool(true)` and `And` with a false left operand is `Bool(false)` in the
frame the left operand left; otherwise the node is the evaluation of the right operand,
with its effects and errors, and the result is the truth value of the right operand. -/
theorem Or_And_short_circuit (h : Host) (n : Nat) (lhs rhs : Statement) (closure : Closure)
    (st : Store) (left : ObjectHolder) (f : Frame)
    (hl : Execute h n lhs closure st = .normal left f) :
    (IsTrue left = true →
      Execute h (n + 1) (.Or lhs rhs) closure st = .normal (.bool true) f) ∧
    (IsTrue left = false →
      Execute h (n + 1) (.Or lhs rhs) closure st =
        (Execute h n rhs f.closure f.store).bind fun right f1 =>
          .normal (.bool (IsTrue right)) f1) ∧
    (IsTrue left = true →
      Execute h (n + 1) (.And lhs rhs) closure st =
        (Execute h n rhs f.closure f.store).bind fun right f1 =>
          .normal (.bool (IsTrue right)) f1) ∧
    (IsTrue left = false →
      Execute h (n + 1) (.And lhs rhs) closure st = .normal (.bool false) f) := by
  refine ⟨fun ht => ?_, fun hf => ?_, fun ht => ?_, fun hf => ?_⟩ <;>
    simp [Execute, hl, Outcome.bind, *]

/-- Witness of C11: `True or x = 1` is true and `x` stays unbound. -/
theorem Or_And_short_circuit_witness :
    Execute Host.hashed 2 (.Or (.BoolConst true) (.Assignment "x" (.NumericConst 1))) []
        ⟨[], ""⟩ = .normal (.bool true) ⟨[], ⟨[], ""⟩⟩ :=
  (Or_And_short_circuit Host.hashed 1 (.BoolConst true) (.Assignment "x" (.NumericConst 1)) []
    ⟨[], ""⟩ (.bool true) ⟨[], ⟨[], ""⟩⟩ rfl).1 rfl

/-- C11 fails as stated: in `True or x = 1` the assignment is not executed, and
`False and 1 / 0` is false although the right operand would raise. -/
theorem Or_And_counterexample :
    Execute Host.hashed 3 (.Or (.BoolConst true) (.Assignment "x" (.NumericConst 1))) []
        ⟨[], ""⟩ = .normal (.bool true) ⟨[], ⟨[], ""⟩⟩ ∧
    Execute Host.hashed 3 (.Assignment "x" (.NumericConst 1)) [] ⟨[], ""⟩ =
      .normal (.number 1) ⟨[("x", .number 1)], ⟨[], ""⟩⟩ ∧
    Execute Host.hashed 3 (.And (.BoolConst false) (.Div (.NumericConst 1) (.NumericConst 0))) []
        ⟨[], ""⟩ = .normal (.bool false) ⟨[], ⟨[], ""⟩⟩ ∧
    Execute Host.hashed 3 (.Div (.NumericConst 1) (.NumericConst 0)) [] ⟨[], ""⟩ =
      .raised (.runtime "Division by zero") ⟨[], ⟨[], ""⟩⟩ :=
  ⟨rfl, rfl, rfl, rfl⟩

/-- An integer in the range of `int` is its own reduction. -/
theorem wrap32_of_range (x : Int) (hlo : -2147483648 ≤ x) (hhi : x < 2147483648) :
    wrap32 x = x := by
  unfold wrap32
  rw [Int.emod_eq_of_lt (by omega) (by omega)]
  omega

/-- A binary node evaluates its left operand, then its right operand from the frame the
left one left; here for `Add`, whose result is then `Add.values` of the two values. -/
theorem Execute_Add (h : Host) (n : Nat) (lhs rhs : Statement) (closure : Closure) (st : Store)
    (l r : ObjectHolder) (f f1 : Frame) (hl : Execute h n lhs closure st = .normal l f)
    (hr : Execute h n rhs f.closure f.store = .normal r f1) :
    Execute h (n + 1) (.Add lhs rhs) closure st =
      (Add.values (ClassInstance.Call (Execute h n)) l r f1.store).inFrame f1.closure := by
  simp [Execute, hl, hr, Outcome.bind]

/-- C12: with the operands evaluated to `l` and `r`, `Add` is `Number(a + b)` for two
Numbers (the sum reduced to `int`, which is the sum itself when that is in range),
`String(s ++ t)` for two Strings, the call `l.__add__(r)` when `l` is an instance whose
class resolves `__add__` with one formal parameter, and the runtime error of `Add` for
every other pair of operands. -/
theorem Add_by_operands (h : Host) (n : Nat) (lhs rhs : Statement) (closure : Closure)
    (st : Store) (l r : ObjectHolder) (f f1 : Frame)
    (hl : Execute h n lhs closure st = .normal l f)
    (hr : Execute h n rhs f.closure f.store = .normal r f1) :
    (∀ a b, l = .number a → r = .number b →
      Execute h (n + 1) (.Add lhs rhs) closure st = .normal (.number (wrap32 (a + b))) f1 ∧
      (-2147483648 ≤ a + b → a + b < 2147483648 → wrap32 (a + b) = a + b)) ∧
    (∀ s t, l = .string s → r = .string t →
      Execute h (n + 1) (.Add lhs rhs) closure st = .normal (.string (s ++ t)) f1) ∧
    (∀ p inst, l = .classInstance p → f1.store.deref p = some inst →
      inst.HasMethod "__add__" 1 = true →
      Execute h (n + 1) (.Add lhs rhs) closure st =
        (ClassInstance.Call (Execute h n) p "__add__" [r] f1.store).inFrame f1.closure) ∧
    ((∀ a b, ¬(l = .number a ∧ r = .number b)) → (∀ s t, ¬(l = .string s ∧ r = .string t)) →
      (∀ p, l = .classInstance p →
        ∃ inst, f1.store.deref p = some inst ∧ inst.HasMethod "__add__" 1 = false) →
      Execute h (n + 1) (.Add lhs rhs) closure st =
        .raised (.runtime "Addition isn't supported for these operands") f1) := by
  rw [Execute_Add h n lhs rhs closure st l r f f1 hl hr]
  refine ⟨?_, ?_, ?_, ?_⟩
  · intro a b ha hb
    subst ha hb
    exact ⟨by simp [Add.values, Outcome.inFrame], wrap32_of_range _⟩
  · intro s t hs ht
    subst hs ht
    simp [Add.values, Outcome.inFrame]
  · intro p inst hp hd hm
    subst hp
    simp [Add.values, hd, hm]
  · intro hnum hstr hinst
    cases l with
    | classInstance p =>
      obtain ⟨inst, hd, hm⟩ := hinst p rfl
      simp [Add.values, hd, hm, Outcome.inFrame]
    | number a =>
      cases r with
      | number b => exact absurd ⟨rfl, rfl⟩ (hnum a b)
      | _ => simp [Add.values, Outcome.inFrame]
    | string s =>
      cases r with
      | string t => exact absurd ⟨rfl, rfl⟩ (hstr s t)
      | _ => simp [Add.values, Outcome.inFrame]
    | none => cases r <;> simp [Add.values, Outcome.inFrame]
    | bool _ => cases r <;> simp [Add.values, Outcome.inFrame]
    | class_ _ => cases r <;> simp [Add.values, Outcome.inFrame]

/-- Witness of C12: `2 + 3` is 5. -/
theorem Add_by_operands_witness :
    Execute Host.hashed 2 (.Add (.NumericConst 2) (.NumericConst 3)) [] ⟨[], ""⟩ =
      .normal (.number 5) ⟨[], ⟨[], ""⟩⟩ :=
  ((Add_by_operands Host.hashed 1 (.NumericConst 2) (.NumericConst 3) [] ⟨[], ""⟩ (.number 2)
    (.number 3) ⟨[], ⟨[], ""⟩⟩ ⟨[], ⟨[], ""⟩⟩ rfl rfl).1 2 3 rfl rfl).1

/-- `Div` evaluates its left operand, then its right operand from the frame the left one
left, and is then `Div.values` of the two values. -/
theorem Execute_Div (h : Host) (n : Nat) (lhs rhs : Statement) (closure : Closure) (st : Store)
    (l r : ObjectHolder) (f f1 : Frame) (hl : Execute h n lhs closure st = .normal l f)
    (hr : Execute h n rhs f.closure f.store = .normal r f1) :
    Execute h (n + 1) (.Div lhs rhs) closure st = Outcome.ofExcept (Div.values l r) f1 := by
  simp [Execute, hl, hr, Outcome.bind]

/-- The remainder of the division that truncates toward zero is smaller in absolute
value than the divisor and is not of the sign opposite to the dividend's. -/
theorem tmod_truncates (a b : Int) (hb : b ≠ 0) :
    |a.tmod b| < |b| ∧ (0 ≤ a → 0 ≤ a.tmod b) ∧ (a ≤ 0 → a.tmod b ≤ 0) := by
  have hpos : ∀ x y : Int, 0 ≤ x → y ≠ 0 → 0 ≤ x.tmod y ∧ x.tmod y < |y| := by
    intro x y hx hy
    refine ⟨Int.tmod_nonneg y hx, ?_⟩
    rcases lt_or_gt_of_ne hy with hneg | hp
    · rw [← Int.tmod_neg, abs_of_neg hneg]
      exact Int.tmod_lt_of_pos x (by omega)
    · rw [abs_of_pos hp]
      exact Int.tmod_lt_of_pos x hp
  have hnegmod : (-a).tmod b = -(a.tmod b) := by
    rw [Int.tmod_def, Int.tmod_def, Int.neg_tdiv]
    ring
  rcases le_total 0 a with ha | ha
  · obtain ⟨h0, h1⟩ := hpos a b ha hb
    refine ⟨by rw [abs_of_nonneg h0]; exact h1, fun _ => h0, fun ha0 => ?_⟩
    have : a = 0 := le_antisymm ha0 ha
    subst this
    simp
  · obtain ⟨h0, h1⟩ := hpos (-a) b (by omega) hb
    rw [hnegmod] at h0 h1
    refine ⟨by rw [abs_of_nonpos (by omega)]; exact h1, fun ha0 => ?_, fun _ => by omega⟩
    have : a = 0 := le_antisymm ha ha0
    subst this
    simp

/-- C13: with the operands evaluated to `l` and `r`, `Div` of two Numbers raises
"Division by zero" exactly when the divisor is 0; when the divisor is not 0 and the
quotient truncated toward zero is in the range of `int`, `Div` is the Number of that
quotient `q`, and `a = q * b + rem` with `|rem| < |b|` and `rem` zero or of the sign of
`a`; when an operand is not a Number, `Div` raises its type error, whatever the other
operand is, the Number 0 included. -/
theorem Div_by_operands (h : Host) (n : Nat) (lhs rhs : Statement) (closure : Closure)
    (st : Store) (l r : ObjectHolder) (f f1 : Frame)
    (hl : Execute h n lhs closure st = .normal l f)
    (hr : Execute h n rhs f.closure f.store = .normal r f1) :
    (∀ a b, l = .number a → r = .number b →
      (Execute h (n + 1) (.Div lhs rhs) closure st = .raised (.runtime "Division by zero") f1
        ↔ b = 0) ∧
      (b ≠ 0 → -2147483648 ≤ a.tdiv b → a.tdiv b < 2147483648 →
        Execute h (n + 1) (.Div lhs rhs) closure st = .normal (.number (a.tdiv b)) f1) ∧
      (b ≠ 0 →
        ∃ rem, a = a.tdiv b * b + rem ∧ |rem| < |b| ∧ (0 ≤ a → 0 ≤ rem) ∧ (a ≤ 0 → rem ≤ 0))) ∧
    ((∀ a, l ≠ .number a) ∨ (∀ b, r ≠ .number b) →
      Execute h (n + 1) (.Div lhs rhs) closure st =
        .raised (.runtime "Multiplication is supported only for integers") f1) := by
  rw [Execute_Div h n lhs rhs closure st l r f f1 hl hr]
  refine ⟨?_, ?_⟩
  · intro a b ha hb
    subst ha hb
    refine ⟨?_, fun hb0 hlo hhi => by simp [Div.values, hb0, hlo, hhi, Outcome.ofExcept],
      fun hb0 => ?_⟩
    · by_cases hb0 : b = 0
      · simp [Div.values, hb0, Outcome.ofExcept]
      · by_cases hq : -2147483648 ≤ a.tdiv b ∧ a.tdiv b < 2147483648
        · simp [Div.values, hb0, hq, Outcome.ofExcept]
        · simp only [Div.values, hb0, hq, if_false, Outcome.ofExcept, iff_false]
          intro hh
          cases hh
    · obtain ⟨h1, h2, h3⟩ := tmod_truncates a b hb0
      exact ⟨a.tmod b, by rw [Int.mul_comm]; exact (Int.tdiv_add_tmod a b).symm, h1, h2, h3⟩
  · intro hnot
    cases l with
    | number a =>
      cases r with
      | number b =>
        rcases hnot with hn | hn
        · exact absurd rfl (hn a)
        · exact absurd rfl (hn b)
      | _ => simp [Div.values, Outcome.ofExcept]
    | _ => cases r <;> simp [Div.values, Outcome.ofExcept]

/-- Witness of C13: `-7 / 2` is -3, 7 / 0 raises "Division by zero", and
`-2147483648 / -1`, whose quotient is not representable, is not a Number. -/
theorem Div_by_operands_witness :
    Execute Host.hashed 2 (.Div (.NumericConst (-7)) (.NumericConst 2)) [] ⟨[], ""⟩ =
      .normal (.number (-3)) ⟨[], ⟨[], ""⟩⟩ ∧
    Execute Host.hashed 2 (.Div (.NumericConst 7) (.NumericConst 0)) [] ⟨[], ""⟩ =
      .raised (.runtime "Division by zero") ⟨[], ⟨[], ""⟩⟩ ∧
    Execute Host.hashed 2 (.Div (.NumericConst (-2147483648)) (.NumericConst (-1))) []
        ⟨[], ""⟩ =
      .raised (.undefined "quotient not representable in int") ⟨[], ⟨[], ""⟩⟩ :=
  ⟨((Div_by_operands Host.hashed 1 (.NumericConst (-7)) (.NumericConst 2) [] ⟨[], ""⟩
      (.number (-7)) (.number 2) ⟨[], ⟨[], ""⟩⟩ ⟨[], ⟨[], ""⟩⟩ rfl rfl).1 (-7) 2 rfl rfl).2.1
      (by decide) (by decide) (by decide),
   ((Div_by_operands Host.hashed 1 (.NumericConst 7) (.NumericConst 0) [] ⟨[], ""⟩
      (.number 7) (.number 0) ⟨[], ⟨[], ""⟩⟩ ⟨[], ⟨[], ""⟩⟩ rfl rfl).1 7 0 rfl rfl).1.2 rfl,
   rfl⟩

/-- C14: for every Number `a` in the range of `int` and every `b`,
`Add(Sub(Mult(a, b), Mult(a, b)), a)` evaluates to the Number `a`, the product being
reduced to `int`, and changes nothing. -/
theorem Add_Sub_Mult_cancels (h : Host) (n : Nat) (a b : Int) (closure : Closure) (st : Store)
    (hlo : -2147483648 ≤ a) (hhi : a < 2147483648) :
    Execute h (n + 4)
        (.Add (.Sub (.Mult (.NumericConst a) (.NumericConst b))
                    (.Mult (.NumericConst a) (.NumericConst b)))
              (.NumericConst a)) closure st =
      .normal (.number a) ⟨closure, st⟩ := by
  have h0 : wrap32 0 = 0 := by decide
  simp [Execute, Outcome.bind, Outcome.ofExcept, Mult.values, Sub.values, Add.values,
    Outcome.inFrame, h0, wrap32_of_range a hlo hhi]

/-- Witness of C14: with `a = 100000` and `b = 100000` the product overflows `int`, and
the expression is 100000. -/
theorem Add_Sub_Mult_cancels_witness :
    Execute Host.hashed 4
        (.Add (.Sub (.Mult (.NumericConst 100000) (.NumericConst 100000))
                    (.Mult (.NumericConst 100000) (.NumericConst 100000)))
              (.NumericConst 100000)) [] ⟨[], ""⟩ =
      .normal (.number 100000) ⟨[], ⟨[], ""⟩⟩ :=
  Add_Sub_Mult_cancels Host.hashed 0 100000 100000 [] ⟨[], ""⟩ (by decide) (by decide)

/-- C15: `Equal` of two Numbers, two Strings or two Bools answers whether the payloads
are equal, without raising and without a call; so `Equal(x, x)` is true for every such
`x`; and `Equal` of two empty handles is true. -/
theorem Equal_same_variant (call : Caller) (st : Store) :
    (∀ a b : Int, Equal call (.number a) (.number b) st = .normal (decide (a = b)) st) ∧
    (∀ s t : String, Equal call (.string s) (.string t) st = .normal (decide (s = t)) st) ∧
    (∀ p q : Bool, Equal call (.bool p) (.bool q) st = .normal (decide (p = q)) st) ∧
    (∀ a : Int, Equal call (.number a) (.number a) st = .normal true st) ∧
    (∀ s : String, Equal call (.string s) (.string s) st = .normal true st) ∧
    (∀ p : Bool, Equal call (.bool p) (.bool p) st = .normal true st) ∧
    Equal call .none .none st = .normal true st := by
  refine ⟨?_, ?_, ?_, ?_, ?_, ?_, ?_⟩
  · intro a b
    by_cases hab : a = b <;>
      simp [Equal, TryCompare, TryCompareNumber, hab]
  · intro s t
    by_cases hst : s = t <;>
      simp [Equal, TryCompare, TryCompareNumber, TryCompareString, hst]
  · intro p q
    cases p <;> cases q <;>
      simp [Equal, TryCompare, TryCompareNumber, TryCompareString, TryCompareBool]
  · intro a
    simp [Equal, TryCompare, TryCompareNumber]
  · intro s
    simp [Equal, TryCompare, TryCompareNumber, TryCompareString]
  · intro p
    simp [Equal, TryCompare, TryCompareNumber, TryCompareString, TryCompareBool]
  · simp [Equal, TryCompare, TryCompareNumber, TryCompareString, TryCompareBool,
      compareByMethod]

/-- C16: for two Numbers, two Strings or two Bools, `Less(a, b)`, `Equal(a, b)` and
`Less(b, a)` all answer without raising, and exactly one of the three answers is true:
the two `Less` answers are never both true, and `Equal` is true iff neither is. -/
theorem Less_Equal_trichotomy (call : Caller) (st : Store) (l r : ObjectHolder)
    (hsame : (∃ a b, l = .number a ∧ r = .number b) ∨ (∃ s t, l = .string s ∧ r = .string t) ∨
      (∃ p q, l = .bool p ∧ r = .bool q)) :
    ∃ lt eq gt : Bool,
      Less call l r st = .normal lt st ∧ Equal call l r st = .normal eq st ∧
      Less call r l st = .normal gt st ∧
      ¬(lt = true ∧ gt = true) ∧ (eq = true ↔ lt = false ∧ gt = false) ∧
      (lt = true ∨ eq = true ∨ gt = true) ∧ ¬(lt = true ∧ eq = true) ∧
      ¬(eq = true ∧ gt = true) := by
  rcases hsame with ⟨a, b, hl, hr⟩ | ⟨s, t, hl, hr⟩ | ⟨p, q, hl, hr⟩
  · subst hl hr
    refine ⟨decide (a < b), decide (a = b), decide (b < a), ?_, ?_, ?_, ?_⟩
    · simp [Less, TryCompare, TryCompareNumber]
    · by_cases hab : a = b <;> simp [Equal, TryCompare, TryCompareNumber, hab]
    · simp [Less, TryCompare, TryCompareNumber]
    · simp only [decide_eq_true_eq, decide_eq_false_iff_not]
      omega
  · subst hl hr
    refine ⟨decide (s < t), decide (s = t), decide (t < s), ?_, ?_, ?_, ?_⟩
    · simp [Less, TryCompare, TryCompareNumber, TryCompareString]
    · by_cases hst : s = t <;>
        simp [Equal, TryCompare, TryCompareNumber, TryCompareString, hst]
    · simp [Less, TryCompare, TryCompareNumber, TryCompareString]
    · simp only [decide_eq_true_eq, decide_eq_false_iff_not]
      rcases lt_trichotomy s t with hlt | heq | hgt
      · exact ⟨fun hh => lt_asymm hlt hh.2, ⟨fun he => absurd hlt (he ▸ lt_irrefl _),
          fun hh => absurd hlt hh.1⟩, Or.inl hlt, fun hh => (ne_of_lt hlt) hh.2,
          fun hh => (ne_of_lt hlt) hh.1⟩
      · subst heq
        exact ⟨fun hh => lt_irrefl _ hh.1, ⟨fun _ => ⟨lt_irrefl _, lt_irrefl _⟩, fun _ => rfl⟩,
          Or.inr (Or.inl rfl), fun hh => lt_irrefl _ hh.1, fun hh => lt_irrefl _ hh.2⟩
      · exact ⟨fun hh => lt_asymm hgt hh.1, ⟨fun he => absurd hgt (he ▸ lt_irrefl _),
          fun hh => absurd hgt hh.2⟩, Or.inr (Or.inr hgt), fun hh => (ne_of_gt hgt) hh.2,
          fun hh => (ne_of_gt hgt) hh.1⟩
  · subst hl hr
    refine ⟨!p && q, decide (p = q), !q && p, ?_, ?_, ?_, ?_⟩
    · simp [Less, TryCompare, TryCompareNumber, TryCompareString, TryCompareBool]
    · cases p <;> cases q <;>
        simp [Equal, TryCompare, TryCompareNumber, TryCompareString, TryCompareBool]
    · simp [Less, TryCompare, TryCompareNumber, TryCompareString, TryCompareBool]
    · cases p <;> cases q <;> simp

/-- Witness of C16: of `"ab" < "b"`, `"ab" == "b"` and `"b" < "ab"` only the first is
true. -/
theorem Less_Equal_trichotomy_witness :
    ∃ lt eq gt : Bool,
      Less (ClassInstance.Call (Execute Host.hashed 1)) (.string "ab") (.string "b") ⟨[], ""⟩ =
        .normal lt ⟨[], ""⟩ ∧
      Equal (ClassInstance.Call (Execute Host.hashed 1)) (.string "ab") (.string "b") ⟨[], ""⟩ =
        .normal eq ⟨[], ""⟩ ∧
      Less (ClassInstance.Call (Execute Host.hashed 1)) (.string "b") (.string "ab") ⟨[], ""⟩ =
        .normal gt ⟨[], ""⟩ ∧
      ¬(lt = true ∧ gt = true) ∧ (eq = true ↔ lt = false ∧ gt = false) ∧
      (lt = true ∨ eq = true ∨ gt = true) ∧ ¬(lt = true ∧ eq = true) ∧
      ¬(eq = true ∧ gt = true) :=
  Less_Equal_trichotomy (ClassInstance.Call (Execute Host.hashed 1)) ⟨[], ""⟩ (.string "ab")
    (.string "b") (Or.inr (Or.inl ⟨"ab", "b", rfl, rfl⟩))

/-- No `TryCompare` attempt succeeds on operands that are not two Numbers, two Strings
or two Bools. -/
theorem TryCompare_mixed (l r : ObjectHolder) (cmpNumber : Int → Int → Bool)
    (cmpString : String → String → Bool) (cmpBool : Bool → Bool → Bool)
    (hnum : ∀ a b, ¬(l = .number a ∧ r = .number b))
    (hstr : ∀ s t, ¬(l = .string s ∧ r = .string t))
    (hbool : ∀ p q, ¬(l = .bool p ∧ r = .bool q)) :
    TryCompare l r cmpNumber cmpString cmpBool = Option.none := by
  cases l with
  | number a =>
    cases r with
    | number b => exact absurd ⟨rfl, rfl⟩ (hnum a b)
    | _ => simp [TryCompare, TryCompareNumber, TryCompareString, TryCompareBool]
  | string s =>
    cases r with
    | string t => exact absurd ⟨rfl, rfl⟩ (hstr s t)
    | _ => simp [TryCompare, TryCompareNumber, TryCompareString, TryCompareBool]
  | bool p =>
    cases r with
    | bool q => exact absurd ⟨rfl, rfl⟩ (hbool p q)
    | _ => simp [TryCompare, TryCompareNumber, TryCompareString, TryCompareBool]
  | none => cases r <;> simp [TryCompare, TryCompareNumber, TryCompareString, TryCompareBool]
  | class_ _ =>
    cases r <;> simp [TryCompare, TryCompareNumber, TryCompareString, TryCompareBool]
  | classInstance _ =>
    cases r <;> simp [TryCompare, TryCompareNumber, TryCompareString, TryCompareBool]

/-- C17: on operands that are not two Numbers, two Strings or two Bools, `Equal` is the
truth value of `l.__eq__(r)` when `l` is an instance whose class resolves `__eq__` with
one formal parameter; otherwise it is true for two empty handles and raises its
runtime error for anything else. `Less` is the truth value of `l.__lt__(r)` in the same
way and raises its runtime error otherwise, two empty handles included. -/
theorem Equal_Less_fallback (call : Caller) (st : Store) (l r : ObjectHolder)
    (hnum : ∀ a b, ¬(l = .number a ∧ r = .number b))
    (hstr : ∀ s t, ¬(l = .string s ∧ r = .string t))
    (hbool : ∀ p q, ¬(l = .bool p ∧ r = .bool q)) :
    (∀ p inst, l = .classInstance p → st.deref p = some inst →
      inst.HasMethod "__eq__" 1 = true →
      Equal call l r st = (call p "__eq__" [r] st).bind fun value s =>
        .normal (IsTrue value) s) ∧
    ((∀ p, l = .classInstance p →
        ∃ inst, st.deref p = some inst ∧ inst.HasMethod "__eq__" 1 = false) →
      (l = .none → r = .none → Equal call l r st = .normal true st) ∧
      (¬(l = .none ∧ r = .none) →
        Equal call l r st = .raised (.runtime "Cannot compare objects for equality") st)) ∧
    (∀ p inst, l = .classInstance p → st.deref p = some inst →
      inst.HasMethod "__lt__" 1 = true →
      Less call l r st = (call p "__lt__" [r] st).bind fun value s =>
        .normal (IsTrue value) s) ∧
    ((∀ p, l = .classInstance p →
        ∃ inst, st.deref p = some inst ∧ inst.HasMethod "__lt__" 1 = false) →
      Less call l r st = .raised (.runtime "Cannot compare objects for less") st) := by
  have heq := TryCompare_mixed l r (fun l r => l == r) (fun l r => l == r) (fun l r => l == r)
    hnum hstr hbool
  have hlt := TryCompare_mixed l r (fun l r => decide (l < r)) (fun l r => decide (l < r))
    (fun l r => !l && r) hnum hstr hbool
  refine ⟨?_, ?_, ?_, ?_⟩
  · intro p inst hp hd hm
    subst hp
    simp [Equal, heq, compareByMethod, hd, hm]
  · intro hno
    refine ⟨fun hl hr => ?_, fun hnn => ?_⟩
    · subst hl hr
      simp [Equal, heq, compareByMethod]
    · cases l with
      | classInstance p =>
        obtain ⟨inst, hd, hm⟩ := hno p rfl
        simp [Equal, heq, compareByMethod, hd, hm]
      | none =>
        cases r with
        | none => exact absurd ⟨rfl, rfl⟩ hnn
        | _ => simp [Equal, heq, compareByMethod]
      | number _ => simp [Equal, heq, compareByMethod]
      | string _ => simp [Equal, heq, compareByMethod]
      | bool _ => simp [Equal, heq, compareByMethod]
      | class_ _ => simp [Equal, heq, compareByMethod]
  · intro p inst hp hd hm
    subst hp
    simp only [Less, hlt]
    simp [compareByMethod, hd, hm]
  · intro hno
    cases l with
    | classInstance p =>
      obtain ⟨inst, hd, hm⟩ := hno p rfl
      simp only [Less, hlt]
      simp [compareByMethod, hd, hm]
    | none => (simp only [Less, hlt]; simp [compareByMethod])
    | number _ => (simp only [Less, hlt]; simp [compareByMethod])
    | string _ => (simp only [Less, hlt]; simp [compareByMethod])
    | bool _ => (simp only [Less, hlt]; simp [compareByMethod])
    | class_ _ => (simp only [Less, hlt]; simp [compareByMethod])

/-- Witness of C17: `Less(None, None)` raises, and so does `Less(1, "a")`. -/
theorem Equal_Less_fallback_witness :
    Less (ClassInstance.Call (Execute Host.hashed 1)) .none .none ⟨[], ""⟩ =
      .raised (.runtime "Cannot compare objects for less") ⟨[], ""⟩ ∧
    Less (ClassInstance.Call (Execute Host.hashed 1)) (.number 1) (.string "a") ⟨[], ""⟩ =
      .raised (.runtime "Cannot compare objects for less") ⟨[], ""⟩ :=
  ⟨(Equal_Less_fallback (ClassInstance.Call (Execute Host.hashed 1)) ⟨[], ""⟩ .none .none
      (fun _ _ hh => by cases hh.1) (fun _ _ hh => by cases hh.1)
      (fun _ _ hh => by cases hh.1)).2.2.2 (fun _ hp => by cases hp),
   (Equal_Less_fallback (ClassInstance.Call (Execute Host.hashed 1)) ⟨[], ""⟩ (.number 1)
      (.string "a") (fun _ _ hh => by cases hh.2) (fun _ _ hh => by cases hh.1)
      (fun _ _ hh => by cases hh.1)).2.2.2 (fun _ hp => by cases hp)⟩

/-- The loop of `Print::Execute` over arguments that evaluate and print as `PrintRun`
says: the first argument is preceded by a space unless it is the first of the node. -/
theorem Print_loop_of_run (execute : Executor)
    (print : ObjectHolder → Store → Outcome String Store) {args : List Statement}
    {closure closure1 : Closure} {heap heap1 : List (Option ClassInstance)}
    {pieces : List String} (hrun : PrintRun execute print args closure heap pieces closure1 heap1) :
    ∀ output,
      Print.loop execute print args true closure ⟨heap, output⟩ =
        .normal .none ⟨closure1, ⟨heap1, output ++ lineOf pieces⟩⟩ ∧
      Print.loop execute print args false closure ⟨heap, output⟩ =
        .normal .none ⟨closure1, ⟨heap1, output ++ restOfLine pieces⟩⟩ := by
  induction hrun with
  | done => intro output; simp [Print.loop, Store.write, lineOf, restOfLine]
  | none heval _ ih =>
    intro output
    unfold EvaluatesWriting at heval
    simp [Print.loop, Store.write, heval, Outcome.bind, ih, lineOf, restOfLine,
      String.append_assoc]
  | @object stmt rest closure closure1 closure2 heap heap1 heap2 heap3 value written written1
      text pieces hne heval hrender _ ih =>
    intro output
    unfold EvaluatesWriting at heval
    unfold RendersWriting at hrender
    cases value with
    | none => exact absurd rfl hne
    | number _ =>
      simp [Print.loop, Store.write, heval, hrender, Outcome.bind, Outcome.inFrame, ih, lineOf,
        restOfLine, String.append_assoc]
    | string _ =>
      simp [Print.loop, Store.write, heval, hrender, Outcome.bind, Outcome.inFrame, ih, lineOf,
        restOfLine, String.append_assoc]
    | bool _ =>
      simp [Print.loop, Store.write, heval, hrender, Outcome.bind, Outcome.inFrame, ih, lineOf,
        restOfLine, String.append_assoc]
    | class_ _ =>
      simp [Print.loop, Store.write, heval, hrender, Outcome.bind, Outcome.inFrame, ih, lineOf,
        restOfLine, String.append_assoc]
    | classInstance _ =>
      simp [Print.loop, Store.write, heval, hrender, Outcome.bind, Outcome.inFrame, ih, lineOf,
        restOfLine, String.append_assoc]

/-- C18, as the code has it: when the arguments of a `Print` node evaluate one after the
other without error, the node answers the empty handle and has sent to the output, for
each argument in turn, a space unless it is the first, what the evaluation and the
printing of the argument wrote themselves, and the rendering of its value, and a line
feed at the end. For arguments that write nothing themselves that is the renderings
separated by single spaces and a line feed. The empty handle renders as `None`, a Bool
as `True` or `False`, a Number and a String as their value, a class as its name. -/
theorem Print_writes_pieces (h : Host) (n : Nat) (args : List Statement)
    (closure closure1 : Closure) (heap heap1 : List (Option ClassInstance))
    (pieces : List String)
    (hrun : PrintRun (Execute h n) (PrintObject h n) args closure heap pieces closure1 heap1) :
    (∀ output, Execute h (n + 1) (.Print args) closure ⟨heap, output⟩ =
      .normal .none ⟨closure1, ⟨heap1, output ++ lineOf pieces⟩⟩) ∧
    (∀ (value : Bool) (heap : List (Option ClassInstance)),
      RendersWriting (PrintObject h (n + 1)) (.bool value) heap ""
        (if value then "True" else "False") heap) ∧
    (∀ (value : Int) (heap : List (Option ClassInstance)),
      RendersWriting (PrintObject h (n + 1)) (.number value) heap "" (toString value) heap) ∧
    (∀ (value : String) (heap : List (Option ClassInstance)),
      RendersWriting (PrintObject h (n + 1)) (.string value) heap "" value heap) ∧
    (∀ (cls : Class) (heap : List (Option ClassInstance)),
      RendersWriting (PrintObject h (n + 1)) (.class_ cls) heap "" ("Class " ++ cls.GetName)
        heap) := by
  refine ⟨fun output => ?_, ?_, ?_, ?_, ?_⟩
  · simp only [Execute]
    exact (Print_loop_of_run _ _ hrun output).1
  · intro value heap output
    simp [PrintObject]
  · intro value heap output
    simp [PrintObject]
  · intro value heap output
    simp [PrintObject]
  · intro cls heap output
    simp [PrintObject]

/-- Witness of C18: `print 1, None, True` writes `1 None True` and a line feed. -/
theorem Print_writes_pieces_witness :
    Execute Host.hashed 2 (.Print [.NumericConst 1, .None, .BoolConst true]) [] ⟨[], ""⟩ =
      .normal .none ⟨[], ⟨[], "1 None True\n"⟩⟩ :=
  (Print_writes_pieces Host.hashed 1 [.NumericConst 1, .None, .BoolConst true] [] [] [] []
    ["" ++ "" ++ "1", "" ++ "None", "" ++ "" ++ "True"]
    (@PrintRun.object _ _ _ _ [] [] [] [] [] [] [] (.number 1) "" "" "1" _ (by simp)
      (fun output => by simp [Execute]) (fun output => by simp [PrintObject]; rfl)
      (@PrintRun.none _ _ _ _ [] [] [] [] [] [] "" _ (fun output => by simp [Execute])
        (@PrintRun.object _ _ _ _ [] [] [] [] [] [] [] (.bool true) "" "" "True" _ (by simp)
          (fun output => by simp [Execute]) (fun output => by simp [PrintObject])
          PrintRun.done)))).1 ""

/-- C18 fails as stated: in `print 1, p.f()` both arguments evaluate without error, to 1
and to 2, and `f` prints `x` on the way; the node sends `1 x`, a line feed, `2` and a
line feed to the output, not `1 2` and a line feed. -/
theorem Print_interleaves_counterexample :
    Execute Host.hashed 6 (.Print [.NumericConst 1, .MethodCall (.VariableValue ["p"]) "f" []])
        [("p", .classInstance 0)] (Sample.store Sample.E) =
      .normal .none ⟨[("p", .classInstance 0)], ⟨[some ⟨Sample.E, []⟩], "1 x\n2\n"⟩⟩ ∧
    Execute Host.hashed 5 (.NumericConst 1) [("p", .classInstance 0)] (Sample.store Sample.E) =
      .normal (.number 1) ⟨[("p", .classInstance 0)], Sample.store Sample.E⟩ ∧
    Execute Host.hashed 5 (.MethodCall (.VariableValue ["p"]) "f" []) [("p", .classInstance 0)]
        (Sample.store Sample.E) =
      .normal (.number 2) ⟨[("p", .classInstance 0)], ⟨[some ⟨Sample.E, []⟩], "x\n"⟩⟩ ∧
    lineOf ["1", "2"] = "1 2\n" ∧ "1 x\n2\n" ≠ "1 2\n" :=
  ⟨rfl, rfl, rfl, rfl, by decide⟩

/-- C19 at the failing input: `Stringify` of the empty handle calls `Print` through the
null pointer, where `Print::Execute` tests the handle and writes `None`. -/
theorem Stringify_None_dereferences_null :
    Execute Host.hashed 2 (.Stringify .None) [] ⟨[], ""⟩ =
      .raised (.undefined "null handle dereferenced") ⟨[], ⟨[], ""⟩⟩ ∧
    Execute Host.hashed 2 (.Print [.None]) [] ⟨[], ""⟩ =
      .normal .none ⟨[], ⟨[], "None\n"⟩⟩ :=
  ⟨rfl, rfl⟩

/-- What `Stringify` does for a value that has an object: it is the String of the text
the object prints, in the store that printing left, and that String prints as the same
text; an instance whose class resolves `__str__` without parameters prints what the
value of `__str__` prints. -/
theorem Stringify_of_printed (h : Host) (n : Nat) (argument : Statement) (closure : Closure)
    (st : Store) (value : ObjectHolder) (f : Frame) (text : String) (s1 : Store)
    (hvalue : Execute h n argument closure st = .normal value f)
    (hprint : PrintObject h n value f.store = .normal text s1) :
    Execute h (n + 1) (.Stringify argument) closure st = .normal (.string text) ⟨f.closure, s1⟩ ∧
    (∀ m s, PrintObject h (m + 1) (.string text) s = .normal text s) ∧
    (∀ m self inst s, s.deref self = some inst → inst.HasMethod "__str__" 0 = true →
      PrintObject h (m + 1) (.classInstance self) s =
        (ClassInstance.Call (Execute h m) self "__str__" [] s).bind fun result s2 =>
          PrintObject h m result s2) := by
  refine ⟨by simp [Execute, hvalue, hprint, Outcome.bind, Outcome.inFrame], ?_, ?_⟩
  · intro m s
    simp [PrintObject]
  · intro m self inst s hd hm
    simp [PrintObject, hd, hm]

/-- Keeping instances is reflexive. -/
theorem Store.Keeps_refl (st : Store) : st.Keeps st :=
  fun _ inst hd => ⟨inst, hd, rfl⟩

/-- Keeping instances is transitive. -/
theorem Store.Keeps_trans {st st1 st2 : Store} (h1 : st.Keeps st1) (h2 : st1.Keeps st2) :
    st.Keeps st2 := by
  intro addr inst hd
  obtain ⟨inst1, hd1, hc1⟩ := h1 addr inst hd
  obtain ⟨inst2, hd2, hc2⟩ := h2 addr inst1 hd1
  exact ⟨inst2, hd2, hc2.trans hc1⟩

/-- Writing to the output keeps the instances. -/
theorem Store.Keeps_write (st : Store) (text : String) : st.Keeps (st.write text) :=
  fun _ inst hd => ⟨inst, hd, rfl⟩

/-- Keeping instances is a matter of the heap only. -/
theorem Store.Keeps_of_heap {st st1 st2 : Store} (h1 : st.Keeps st1) (hh : st2.heap = st1.heap) :
    st.Keeps st2 := by
  intro addr inst hd
  obtain ⟨inst1, hd1, hc1⟩ := h1 addr inst hd
  exact ⟨inst1, by simpa [Store.deref, hh] using hd1, hc1⟩

/-- An address that is alive lies in the heap. -/
theorem Store.deref_lt {st : Store} {addr : Nat} {inst : ClassInstance}
    (hd : st.deref addr = some inst) : addr < st.heap.length := by
  unfold Store.deref at hd
  by_contra hge
  rw [List.getElem?_eq_none (by omega)] at hd
  simp at hd

/-- Assigning to a field keeps the instances. -/
theorem Store.Keeps_assignField (st : Store) (p : Nat) (field_name : String)
    (value : ObjectHolder) : st.Keeps (st.assignField p field_name value) := by
  intro addr inst hd
  unfold Store.assignField
  cases hp : st.deref p with
  | none => exact ⟨inst, hd, rfl⟩
  | some target =>
    have hlt := Store.deref_lt hp
    by_cases ha : addr = p
    · subst ha
      rw [hp] at hd
      cases hd
      exact ⟨{ inst with fields := Closure.assign inst.fields field_name value },
        by simp [Store.deref, hlt], rfl⟩
    · refine ⟨inst, ?_, rfl⟩
      have hne : p ≠ addr := fun hh => ha hh.symm
      simpa [Store.deref, List.getElem?_set_ne hne] using hd

/-- Constructing an instance keeps the instances, and the new instance is alive at the
address answered, with the class given and without fields. -/
theorem Store.construct_spec (st : Store) (class_ : Class) :
    st.Keeps (st.construct class_).2 ∧ (st.construct class_).1 = st.heap.length ∧
    (st.construct class_).2.deref st.heap.length = some ⟨class_, []⟩ ∧
    (st.construct class_).2.output = st.output := by
  refine ⟨?_, rfl, by simp [Store.construct, Store.deref], rfl⟩
  intro addr inst hd
  have hlt := Store.deref_lt hd
  exact ⟨inst, by simpa [Store.construct, Store.deref, List.getElem?_append_left hlt] using hd, rfl⟩

/-- A property of the state passes through sequencing when each part has it. -/
theorem Outcome.All_bind {α β σ : Type} (P : σ → Prop) (r : Outcome α σ)
    (k : α → σ → Outcome β σ) (hr : r.All P) (hk : ∀ a s, P s → (k a s).All P) :
    (r.bind k).All P := by
  cases r with
  | normal a s => exact hk a s hr
  | returned _ _ => exact hr
  | raised _ _ => exact hr
  | timeout => trivial

/-- A property of the state an outcome carries follows from a stronger one. -/
theorem Outcome.All_mono {α σ : Type} {P Q : σ → Prop} (r : Outcome α σ) (hr : r.All P)
    (hpq : ∀ s, P s → Q s) : r.All Q := by
  cases r with
  | normal _ s => exact hpq s hr
  | returned _ s => exact hpq s hr
  | raised _ s => exact hpq s hr
  | timeout => trivial

/-- A property of the store passes from a callee to the frame of its caller. -/
theorem Outcome.All_inFrame {α : Type} (P : Store → Prop) (closure : Closure)
    (r : Outcome α Store) (hr : r.All P) : (r.inFrame closure).All fun f => P f.store := by
  cases r <;> exact hr

/-- A function that changes nothing keeps what holds of the state. -/
theorem Outcome.All_ofExcept {α σ : Type} (P : σ → Prop) (r : Except Err α) (s : σ) (hs : P s) :
    (Outcome.ofExcept r s).All P := by
  cases r <;> exact hs

/-- What keeps the instances of a store that keeps those of `st` keeps those of `st`. -/
theorem Outcome.All_keeps_trans {α : Type} {st s : Store} (r : Outcome α Frame)
    (hs : st.Keeps s) (hr : r.All fun f => s.Keeps f.store) : r.All fun f => st.Keeps f.store :=
  Outcome.All_mono r hr fun _ hf => Store.Keeps_trans hs hf

/-- The same for an outcome that carries a store. -/
theorem Outcome.All_keeps_trans_store {α : Type} {st s : Store} (r : Outcome α Store)
    (hs : st.Keeps s) (hr : r.All fun s1 => s.Keeps s1) : r.All fun s1 => st.Keeps s1 :=
  Outcome.All_mono r hr fun _ hf => Store.Keeps_trans hs hf

/-- `Call` keeps the instances when `Execute` does. -/
theorem Call_keeps (execute : Executor) (hexec : KeepingExecutor execute) :
    KeepingCaller (ClassInstance.Call execute) := by
  intro self method actual_args st
  cases hd : st.deref self with
  | none =>
    simp only [ClassInstance.Call, hd]
    exact Store.Keeps_refl st
  | some inst =>
    cases hm : inst.class_.GetMethod method with
    | none =>
      simp only [ClassInstance.Call, hd, hm]
      exact Store.Keeps_refl st
    | some m =>
      by_cases harity : m.formal_params.length = actual_args.length
      · rw [Call_of_GetMethod execute self inst method m actual_args st hd hm harity]
        have := hexec m.body (callScope self m.formal_params actual_args) st
        cases hb : execute m.body (callScope self m.formal_params actual_args) st with
        | normal _ f => rw [hb] at this; exact this
        | returned _ f => rw [hb] at this; exact this
        | raised _ f => rw [hb] at this; exact this
        | timeout => trivial
      · have hne : (m.formal_params.length != actual_args.length) = true := by simpa using harity
        simp only [ClassInstance.Call, hd, hm, hne, if_true]
        exact Store.Keeps_refl st

/-- The argument loop keeps the instances when `Execute` does. -/
theorem evalArgs_keeps (execute : Executor) (hexec : KeepingExecutor execute) :
    ∀ (args : List Statement) (closure : Closure) (st : Store),
      (evalArgs execute args closure st).All fun f => st.Keeps f.store
  | [], closure, st => Store.Keeps_refl st
  | stmt :: rest, closure, st => by
    unfold evalArgs
    refine Outcome.All_bind _ _ _ (hexec stmt closure st) fun value f hf => ?_
    refine Outcome.All_bind _ _ _
      (Outcome.All_keeps_trans _ hf (evalArgs_keeps execute hexec rest f.closure f.store))
      fun values f1 hf1 => hf1

/-- The loop of `Compound` keeps the instances when `Execute` does. -/
theorem Compound_loop_keeps (execute : Executor) (hexec : KeepingExecutor execute) :
    ∀ (statements : List Statement) (closure : Closure) (st : Store),
      (Compound.loop execute statements closure st).All fun f => st.Keeps f.store
  | [], closure, st => Store.Keeps_refl st
  | stmt :: rest, closure, st => by
    unfold Compound.loop
    exact Outcome.All_bind _ _ _ (hexec stmt closure st) fun _ f hf =>
      Outcome.All_keeps_trans _ hf (Compound_loop_keeps execute hexec rest f.closure f.store)

/-- The loop of `Print` keeps the instances when `Execute` and `Print` do. -/
theorem Print_loop_keeps (execute : Executor)
    (print : ObjectHolder → Store → Outcome String Store) (hexec : KeepingExecutor execute)
    (hprint : KeepingPrinter print) :
    ∀ (args : List Statement) (first : Bool) (closure : Closure) (st : Store),
      (Print.loop execute print args first closure st).All fun f => st.Keeps f.store
  | [], first, closure, st => Store.Keeps_write st "\n"
  | statement :: rest, first, closure, st => by
    unfold Print.loop
    have hstart : st.Keeps (if first = true then st else st.write " ") := by
      cases first
      · exact Store.Keeps_write st " "
      · exact Store.Keeps_refl st
    refine Outcome.All_bind _ _ _ (Outcome.All_keeps_trans _ hstart (hexec statement closure _))
      fun result f hf => ?_
    have hnone : (Print.loop execute print rest false f.closure (f.store.write "None")).All
        fun f1 => st.Keeps f1.store :=
      Outcome.All_keeps_trans _ (Store.Keeps_trans hf (Store.Keeps_write _ _))
        (Print_loop_keeps execute print hexec hprint rest false f.closure _)
    have hobject : (((print result f.store).inFrame f.closure).bind fun text f1 =>
        Print.loop execute print rest false f1.closure (f1.store.write text)).All
        fun f1 => st.Keeps f1.store := by
      refine Outcome.All_bind _ _ _
        (Outcome.All_keeps_trans _ hf (Outcome.All_inFrame _ _ _ (hprint result f.store)))
        fun text f1 hf1 => ?_
      exact Outcome.All_keeps_trans _ (Store.Keeps_trans hf1 (Store.Keeps_write _ _))
        (Print_loop_keeps execute print hexec hprint rest false f1.closure _)
    cases result with
    | none => exact hnone
    | number _ => exact hobject
    | string _ => exact hobject
    | bool _ => exact hobject
    | class_ _ => exact hobject
    | classInstance _ => exact hobject

/-- `Add.values` keeps the instances when `Call` does. -/
theorem Add_values_keeps (call : Caller) (hcall : KeepingCaller call) (left right : ObjectHolder)
    (st : Store) : (Add.values call left right st).All fun s => st.Keeps s := by
  unfold Add.values
  split
  · exact Store.Keeps_refl st
  · exact Store.Keeps_refl st
  · split
    · exact Store.Keeps_refl st
    · split
      · exact hcall _ _ _ st
      · exact Store.Keeps_refl st
  · exact Store.Keeps_refl st

/-- The call of a comparison method keeps the instances when `Call` and the rest of the
function do. -/
theorem compareByMethod_keeps (call : Caller) (hcall : KeepingCaller call) (method : String)
    (lhs rhs : ObjectHolder) (st : Store) (otherwise : Outcome Bool Store)
    (hother : otherwise.All fun s => st.Keeps s) :
    (compareByMethod call method lhs rhs st otherwise).All fun s => st.Keeps s := by
  unfold compareByMethod
  split
  · split
    · exact Store.Keeps_refl st
    · split
      · exact Outcome.All_bind _ _ _ (hcall _ _ _ st) fun _ _ hs => hs
      · exact hother
  · exact hother

/-- `Equal` keeps the instances when `Call` does. -/
theorem Equal_keeps (call : Caller) (hcall : KeepingCaller call) (lhs rhs : ObjectHolder)
    (st : Store) : (Equal call lhs rhs st).All fun s => st.Keeps s := by
  unfold Equal
  split
  · exact Store.Keeps_refl st
  · refine compareByMethod_keeps call hcall _ _ _ st _ ?_
    split <;> exact Store.Keeps_refl st

/-- `Less` keeps the instances when `Call` does. -/
theorem Less_keeps (call : Caller) (hcall : KeepingCaller call) (lhs rhs : ObjectHolder)
    (st : Store) : (Less call lhs rhs st).All fun s => st.Keeps s := by
  unfold Less
  split
  · exact Store.Keeps_refl st
  · exact compareByMethod_keeps call hcall _ _ _ st _ (Store.Keeps_refl st)

/-- Moving the local instance at `result` into an object of its own: the object gets the
next free address and is the instance as it was, every other instance stays as it was,
and the output is as it was. -/
theorem Store.own_spec (st : Store) (result : Nat) (inst : ClassInstance)
    (hd : st.deref result = some inst) :
    ∃ st1, st.own result = .normal (.classInstance st.heap.length) st1 ∧
      st1.deref st.heap.length = some inst ∧ st1.output = st.output ∧
      ∀ addr other, addr ≠ result → st.deref addr = some other →
        st1.deref addr = some other := by
  have hlt := Store.deref_lt hd
  refine ⟨{ st with heap := st.heap.set result Option.none ++ [some inst] }, ?_, ?_, rfl, ?_⟩
  · simp [Store.own, hd]
  · have hlen : (st.heap.set result Option.none).length = st.heap.length := by simp
    simp [Store.deref, List.getElem?_append_right, hlen]
  · intro addr other hne hother
    have hlt1 := Store.deref_lt hother
    have hne1 : result ≠ addr := fun hh => hne hh.symm
    have hlen : addr < (st.heap.set result Option.none).length := by simpa using hlt1
    simpa [Store.deref, List.getElem?_append_left hlen, List.getElem?_set_ne hne1] using hother

/-- Moving a local instance that `st` does not hold keeps the instances of `st`. -/
theorem Store.own_keeps (st s1 : Store) (result : Nat) (hkeeps : st.Keeps s1)
    (hfresh : st.deref result = Option.none) : (s1.own result).All fun s => st.Keeps s := by
  cases hd : s1.deref result with
  | none =>
    simp only [Store.own, hd]
    exact hkeeps
  | some inst =>
    obtain ⟨s2, hown, _, _, hothers⟩ := Store.own_spec s1 result inst hd
    rw [hown]
    intro addr other hother
    obtain ⟨other1, hd1, hc1⟩ := hkeeps addr other hother
    have hne : addr ≠ result := by
      intro hh
      rw [hh, hfresh] at hother
      cases hother
    exact ⟨other1, hothers addr other1 hne hd1, hc1⟩

/-- No instance is alive at the next free address. -/
theorem Store.deref_length (st : Store) : st.deref st.heap.length = Option.none := by
  simp [Store.deref]

/-- `Execute` and `Print` keep the instances of the store they start from, with every
budget and however they end: an instance stays alive, at its address and with its
class. -/
theorem Execute_keeps (h : Host) :
    ∀ n, KeepingExecutor (Execute h n) ∧ KeepingPrinter (PrintObject h n)
  | 0 => ⟨fun _ _ _ => by simp only [Execute]; trivial,
          fun _ _ => by simp only [PrintObject]; trivial⟩
  | n + 1 => by
    obtain ⟨he, hp⟩ := Execute_keeps h n
    have hc := Call_keeps _ he
    constructor
    · intro stmt closure st
      cases stmt with
      | NumericConst _ => simp only [Execute]; exact Store.Keeps_refl st
      | StringConst _ => simp only [Execute]; exact Store.Keeps_refl st
      | BoolConst _ => simp only [Execute]; exact Store.Keeps_refl st
      | None => simp only [Execute]; exact Store.Keeps_refl st
      | Assignment var_name right_value =>
        simp only [Execute]
        exact Outcome.All_bind _ _ _ (he right_value closure st) fun _ _ hf => hf
      | VariableValue dotted_ids =>
        simp only [Execute]
        exact Outcome.All_ofExcept _ _ _ (Store.Keeps_refl st)
      | Print args =>
        simp only [Execute]
        exact Print_loop_keeps _ _ he hp args true closure st
      | MethodCall object method args =>
        simp only [Execute]
        refine Outcome.All_bind _ _ _ (evalArgs_keeps _ he args closure st)
          fun actual_args f hf => ?_
        refine Outcome.All_bind _ _ _ (Outcome.All_keeps_trans _ hf (he object f.closure f.store))
          fun callee f1 hf1 => ?_
        cases callee with
        | classInstance p =>
          exact Outcome.All_keeps_trans _ hf1 (Outcome.All_inFrame _ _ _ (hc p method _ f1.store))
        | none => exact hf1
        | number _ => exact hf1
        | string _ => exact hf1
        | bool _ => exact hf1
        | class_ _ => exact hf1
      | Stringify argument =>
        simp only [Execute]
        refine Outcome.All_bind _ _ _ (he argument closure st) fun value f hf => ?_
        exact Outcome.All_bind _ _ _
          (Outcome.All_keeps_trans _ hf (Outcome.All_inFrame _ _ _ (hp value f.store)))
          fun _ _ hf1 => hf1
      | Add lhs rhs =>
        simp only [Execute]
        refine Outcome.All_bind _ _ _ (he lhs closure st) fun left f hf => ?_
        refine Outcome.All_bind _ _ _ (Outcome.All_keeps_trans _ hf (he rhs f.closure f.store))
          fun right f1 hf1 => ?_
        exact Outcome.All_keeps_trans _ hf1
          (Outcome.All_inFrame _ _ _ (Add_values_keeps _ hc left right f1.store))
      | Sub lhs rhs =>
        simp only [Execute]
        refine Outcome.All_bind _ _ _ (he lhs closure st) fun left f hf => ?_
        exact Outcome.All_bind _ _ _ (Outcome.All_keeps_trans _ hf (he rhs f.closure f.store))
          fun right f1 hf1 => Outcome.All_ofExcept _ _ _ hf1
      | Mult lhs rhs =>
        simp only [Execute]
        refine Outcome.All_bind _ _ _ (he lhs closure st) fun left f hf => ?_
        exact Outcome.All_bind _ _ _ (Outcome.All_keeps_trans _ hf (he rhs f.closure f.store))
          fun right f1 hf1 => Outcome.All_ofExcept _ _ _ hf1
      | Div lhs rhs =>
        simp only [Execute]
        refine Outcome.All_bind _ _ _ (he lhs closure st) fun left f hf => ?_
        exact Outcome.All_bind _ _ _ (Outcome.All_keeps_trans _ hf (he rhs f.closure f.store))
          fun right f1 hf1 => Outcome.All_ofExcept _ _ _ hf1
      | Compound statements =>
        simp only [Execute]
        exact Compound_loop_keeps _ he statements closure st
      | Return statement =>
        simp only [Execute]
        exact Outcome.All_bind _ _ _ (he statement closure st) fun _ _ hf => hf
      | ClassDefinition cls => simp only [Execute]; exact Store.Keeps_refl st
      | FieldAssignment object field_name right_value =>
        simp only [Execute]
        split
        · exact Store.Keeps_refl st
        · refine Outcome.All_bind _ _ _ (he right_value closure st) fun value f hf => ?_
          split
          · exact Store.Keeps_trans hf (Store.Keeps_assignField _ _ _ _)
          · exact hf
        · exact Store.Keeps_refl st
      | IfElse condition if_body else_body =>
        simp only [Execute]
        refine Outcome.All_bind _ _ _ (he condition closure st) fun value f hf => ?_
        split
        · exact Outcome.All_bind _ _ _ (Outcome.All_keeps_trans _ hf (he if_body f.closure f.store))
            fun _ _ hf1 => hf1
        · split
          · rename_i body
            exact Outcome.All_bind _ _ _
              (Outcome.All_keeps_trans _ hf (he body f.closure f.store)) fun _ _ hf1 => hf1
          · exact hf
      | Or lhs rhs =>
        simp only [Execute]
        refine Outcome.All_bind _ _ _ (he lhs closure st) fun left f hf => ?_
        split
        · exact hf
        · exact Outcome.All_bind _ _ _ (Outcome.All_keeps_trans _ hf (he rhs f.closure f.store))
            fun _ _ hf1 => hf1
      | And lhs rhs =>
        simp only [Execute]
        refine Outcome.All_bind _ _ _ (he lhs closure st) fun left f hf => ?_
        split
        · exact Outcome.All_bind _ _ _ (Outcome.All_keeps_trans _ hf (he rhs f.closure f.store))
            fun _ _ hf1 => hf1
        · exact hf
      | Not argument =>
        simp only [Execute]
        exact Outcome.All_bind _ _ _ (he argument closure st) fun _ _ hf => hf
      | Comparison comparator left right =>
        simp only [Execute]
        have hcompare : ∀ (lhs rhs : ObjectHolder) (f : Frame), st.Keeps f.store →
            (((match comparator with
              | .Equal => Equal (ClassInstance.Call (Execute h n)) lhs rhs f.store
              | .Less => Less (ClassInstance.Call (Execute h n)) lhs rhs f.store).inFrame
                f.closure).bind fun result f1 => Outcome.normal (ObjectHolder.bool result) f1).All
              fun (f1 : Frame) => st.Keeps f1.store := by
          intro lhs rhs f hf
          refine Outcome.All_bind _ _ _ (Outcome.All_keeps_trans _ hf
            (Outcome.All_inFrame _ _ _ ?_)) fun _ _ hf1 => hf1
          cases comparator
          · exact Equal_keeps _ hc lhs rhs f.store
          · exact Less_keeps _ hc lhs rhs f.store
        split
        · refine Outcome.All_bind _ _ _ (he right closure st) fun rhs f hf => ?_
          exact Outcome.All_bind _ _ _ (Outcome.All_keeps_trans _ hf (he left f.closure f.store))
            fun lhs f1 hf1 => hcompare lhs rhs f1 hf1
        · refine Outcome.All_bind _ _ _ (he left closure st) fun lhs f hf => ?_
          exact Outcome.All_bind _ _ _ (Outcome.All_keeps_trans _ hf (he right f.closure f.store))
            fun rhs f1 hf1 => hcompare lhs rhs f1 hf1
      | NewInstance class_ args =>
        simp only [Execute]
        have hcons := (Store.construct_spec st class_).1
        have hfresh := Store.deref_length st
        split
        · refine Outcome.All_bind _ _ _
            (Outcome.All_keeps_trans _ hcons (evalArgs_keeps _ he args closure _))
            fun actual_args f hf => ?_
          refine Outcome.All_bind _ _ _ (Outcome.All_keeps_trans _ hf
            (Outcome.All_inFrame _ _ _ (hc _ "__init__" actual_args f.store)))
            fun _ f1 hf1 => ?_
          exact Outcome.All_inFrame _ _ _ (Store.own_keeps st f1.store _ hf1 hfresh)
        · exact Outcome.All_inFrame _ _ _ (Store.own_keeps st _ _ hcons hfresh)
    · intro object st
      cases object with
      | none => simp only [PrintObject]; exact Store.Keeps_refl st
      | number _ => simp only [PrintObject]; exact Store.Keeps_refl st
      | string _ => simp only [PrintObject]; exact Store.Keeps_refl st
      | bool _ => simp only [PrintObject]; exact Store.Keeps_refl st
      | class_ _ => simp only [PrintObject]; exact Store.Keeps_refl st
      | classInstance self =>
        simp only [PrintObject]
        split
        · exact Store.Keeps_refl st
        · split
          · exact Outcome.All_bind _ _ _ (hc self "__str__" [] st) fun value s hs =>
              Outcome.All_keeps_trans_store _ hs (hp value s)
          · exact Store.Keeps_refl st

/-- Properties of the result and of the state pass through sequencing. -/
theorem Outcome.AllWith_bind {α β σ : Type} {V : α → Prop} {W : β → Prop}
    {R : ObjectHolder → Prop} {P : σ → Prop} (r : Outcome α σ) (k : α → σ → Outcome β σ)
    (hr : r.AllWith V R P) (hk : ∀ value s, V value → P s → (k value s).AllWith W R P) :
    (r.bind k).AllWith W R P := by
  cases r with
  | normal value s => exact hk value s hr.1 hr.2
  | returned _ _ => exact hr
  | raised _ _ => exact hr
  | timeout => trivial

/-- The properties of an outcome follow from stronger ones of its result. -/
theorem Outcome.AllWith_mono {α σ : Type} {V W : α → Prop} {R : ObjectHolder → Prop}
    {P : σ → Prop} (r : Outcome α σ) (hr : r.AllWith V R P) (hvw : ∀ value, V value → W value) :
    r.AllWith W R P := by
  cases r with
  | normal value s => exact ⟨hvw value hr.1, hr.2⟩
  | returned _ _ => exact hr
  | raised _ _ => exact hr
  | timeout => trivial

/-- Isolation passes from a callee to the frame of its caller. -/
theorem Outcome.AllWith_inFrame {α : Type} {V : α → Prop} {R : ObjectHolder → Prop} (a : Nat)
    (cell : Option ClassInstance) (closure : Closure) (r : Outcome α Store)
    (hclosure : Closure.Avoids a closure) (hr : r.AllWith V R fun s => s.Isolates a cell) :
    (r.inFrame closure).AllWith V R fun f => f.Isolates a cell := by
  cases r with
  | normal value s => exact ⟨hr.1, hclosure, hr.2⟩
  | returned value s => exact ⟨hr.1, hclosure, hr.2⟩
  | raised _ s => exact ⟨hclosure, hr⟩
  | timeout => trivial

/-- A function that changes nothing keeps what holds of the state. -/
theorem Outcome.AllWith_ofExcept {α σ : Type} {V : α → Prop} {R : ObjectHolder → Prop}
    {P : σ → Prop} (r : Except Err α) (s : σ) (hv : ∀ value, r = .ok value → V value)
    (hs : P s) : (Outcome.ofExcept r s).AllWith V R P := by
  cases r with
  | ok value => exact ⟨hv value rfl, hs⟩
  | error _ => exact hs

/-- What a closure binds a name to is one of its bindings. -/
theorem Closure.find_mem (closure : Closure) (name : String) (value : ObjectHolder)
    (hfind : Closure.find closure name = some value) : ∃ key, (key, value) ∈ closure := by
  induction closure with
  | nil => simp [Closure.find, List.lookup] at hfind
  | cons kv rest ih =>
    obtain ⟨k, v⟩ := kv
    unfold Closure.find at hfind ih
    rw [List.lookup_cons] at hfind
    cases hk : name == k with
    | true =>
      rw [hk] at hfind
      simp only [Option.some.injEq] at hfind
      exact ⟨k, by simp [hfind]⟩
    | false =>
      rw [hk] at hfind
      obtain ⟨key, hmem⟩ := ih hfind
      exact ⟨key, List.mem_cons_of_mem _ hmem⟩

/-- A closure without a handle to the instance at `a` binds no name to one. -/
theorem Closure.Avoids_find {a : Nat} {closure : Closure} (h : Closure.Avoids a closure)
    {name : String} {value : ObjectHolder} (hfind : Closure.find closure name = some value) :
    value ≠ .classInstance a := by
  obtain ⟨key, hmem⟩ := Closure.find_mem closure name value hfind
  exact h (key, value) hmem

/-- Binding a name to a value that is no handle to the instance at `a` keeps a closure
without such a handle. -/
theorem Closure.Avoids_assign {a : Nat} (closure : Closure) (name : String)
    (value : ObjectHolder) (h : Closure.Avoids a closure) (hv : value ≠ .classInstance a) :
    Closure.Avoids a (Closure.assign closure name value) := by
  induction closure with
  | nil =>
    intro kv hkv
    simp only [Closure.assign, List.mem_singleton] at hkv
    rw [hkv]
    exact hv
  | cons kv rest ih =>
    obtain ⟨k, v⟩ := kv
    have hrest : Closure.Avoids a rest := fun kv hkv => h kv (List.mem_cons_of_mem _ hkv)
    unfold Closure.assign
    by_cases hk : k = name
    · rw [if_pos hk]
      intro kv hkv
      rcases List.mem_cons.1 hkv with hh | hh
      · rw [hh]
        exact hv
      · exact hrest kv hh
    · rw [if_neg hk]
      intro kv hkv
      rcases List.mem_cons.1 hkv with hh | hh
      · rw [hh]
        exact h (k, v) (List.mem_cons_self _ _)
      · exact ih hrest kv hh

/-- Binding the parameters to arguments that are no handles to the instance at `a`
keeps a closure without such a handle. -/
theorem bindParams_avoids {a : Nat} :
    ∀ (formal_params : List String) (actual_args : List ObjectHolder) (closure : Closure),
      Closure.Avoids a closure →
      (∀ value ∈ actual_args, value ≠ ObjectHolder.classInstance a) →
      Closure.Avoids a (bindParams closure formal_params actual_args)
  | [], _, _, hc, _ => by simpa [bindParams] using hc
  | _ :: _, [], _, hc, _ => by simpa [bindParams] using hc
  | p :: ps, v :: vs, closure, hc, hargs => by
    rw [bindParams]
    exact bindParams_avoids ps vs _
      (Closure.Avoids_assign closure p v hc (hargs v (List.mem_cons_self _ _)))
      (fun value hvalue => hargs value (List.mem_cons_of_mem _ hvalue))

/-- An address a store isolates lies in the heap. -/
theorem Store.Isolates_lt {st : Store} {a : Nat} {cell : Option ClassInstance}
    (h : st.Isolates a cell) : a < st.heap.length := by
  by_contra hge
  have := h.1
  rw [List.getElem?_eq_none (by omega)] at this
  cases this

/-- Writing to the output keeps an address isolated. -/
theorem Store.Isolates_write {st : Store} {a : Nat} {cell : Option ClassInstance}
    (h : st.Isolates a cell) (text : String) : (st.write text).Isolates a cell :=
  h

/-- Assigning a value that is no handle to the instance at `a` to a field of another
instance keeps `a` isolated. -/
theorem Store.Isolates_assignField {st : Store} {a : Nat} {cell : Option ClassInstance}
    (h : st.Isolates a cell) (p : Nat) (hp : p ≠ a) (field_name : String) (value : ObjectHolder)
    (hv : value ≠ .classInstance a) : (st.assignField p field_name value).Isolates a cell := by
  unfold Store.assignField
  cases hd : st.deref p with
  | none => exact h
  | some target =>
    have hlt := Store.deref_lt hd
    refine ⟨?_, fun addr inst hinst => ?_⟩
    · simpa [List.getElem?_set_ne hp] using h.1
    · by_cases ha : addr = p
      · subst ha
        have : inst = { target with fields := Closure.assign target.fields field_name value } := by
          simpa [Store.deref, hlt] using hinst.symm
        rw [this]
        exact Closure.Avoids_assign _ _ _ (h.2 addr target hd) hv
      · have hne : p ≠ addr := fun hh => ha hh.symm
        refine h.2 addr inst ?_
        simpa [Store.deref, List.getElem?_set_ne hne] using hinst

/-- Constructing an instance keeps an address isolated. -/
theorem Store.Isolates_construct {st : Store} {a : Nat} {cell : Option ClassInstance}
    (h : st.Isolates a cell) (class_ : Class) : (st.construct class_).2.Isolates a cell := by
  have hlt := Store.Isolates_lt h
  refine ⟨?_, fun addr inst hinst => ?_⟩
  · simpa [Store.construct, List.getElem?_append_left hlt] using h.1
  · by_cases ha : addr < st.heap.length
    · refine h.2 addr inst ?_
      simpa [Store.construct, Store.deref, List.getElem?_append_left ha] using hinst
    · have hge : st.heap.length ≤ addr := by omega
      have hlt1 := Store.deref_lt hinst
      have hlen : (st.construct class_).2.heap.length = st.heap.length + 1 := by
        simp [Store.construct]
      have haddr : addr = st.heap.length := by omega
      subst haddr
      have : inst = ⟨class_, []⟩ := by
        simpa [Store.construct, Store.deref] using hinst.symm
      rw [this]
      intro kv hkv
      cases hkv

/-- The instance just constructed is isolated when nothing of the store it is
constructed in refers to its address. -/
theorem Store.construct_isolates (st : Store) (class_ : Class)
    (hst : ∀ addr inst, st.deref addr = some inst → Closure.Avoids st.heap.length inst.fields) :
    (st.construct class_).2.Isolates st.heap.length (some ⟨class_, []⟩) := by
  refine ⟨by simp [Store.construct], fun addr inst hinst => ?_⟩
  by_cases ha : addr < st.heap.length
  · refine hst addr inst ?_
    simpa [Store.construct, Store.deref, List.getElem?_append_left ha] using hinst
  · have hlt1 := Store.deref_lt hinst
    have hlen : (st.construct class_).2.heap.length = st.heap.length + 1 := by
      simp [Store.construct]
    have haddr : addr = st.heap.length := by omega
    subst haddr
    have : inst = ⟨class_, []⟩ := by
      simpa [Store.construct, Store.deref] using hinst.symm
    rw [this]
    intro kv hkv
    cases hkv

/-- Moving another local instance into an object of its own keeps `a` isolated, and the
handle answered is not one to the instance at `a`. -/
theorem Store.own_isolates {st : Store} {a : Nat} {cell : Option ClassInstance}
    {R : ObjectHolder → Prop} (h : st.Isolates a cell) (result : Nat) (hne : result ≠ a) :
    (st.own result).AllWith (fun value => value ≠ .classInstance a) R
      (fun s => s.Isolates a cell) := by
  have hlt := Store.Isolates_lt h
  cases hd : st.deref result with
  | none =>
    simp only [Store.own, hd]
    exact h
  | some moved =>
    have hltr := Store.deref_lt hd
    simp only [Store.own, hd]
    have hlen : (st.heap.set result Option.none).length = st.heap.length := by simp
    refine ⟨?_, ?_, fun addr inst hinst => ?_⟩
    · intro hh
      injection hh with hh
      omega
    · have hlt1 : a < (st.heap.set result Option.none).length := by simpa using hlt
      simpa [List.getElem?_append_left hlt1, List.getElem?_set_ne hne] using h.1
    · by_cases ha : addr < st.heap.length
      · have ha1 : addr < (st.heap.set result Option.none).length := by simpa using ha
        by_cases hr : addr = result
        · subst hr
          simp [Store.deref, List.getElem?_append_left ha1, ha] at hinst
        · have hr1 : result ≠ addr := fun hh => hr hh.symm
          refine h.2 addr inst ?_
          simpa [Store.deref, List.getElem?_append_left ha1, List.getElem?_set_ne hr1] using hinst
      · have hlt2 := Store.deref_lt hinst
        have haddr : addr = st.heap.length := by
          simp only [List.length_append, hlen, List.length_singleton] at hlt2
          omega
        subst haddr
        have : inst = moved := by
          simpa [Store.deref, List.getElem?_append_right, hlen] using hinst.symm
        rw [this]
        exact h.2 result moved hd

/-- The scope the loop of `VariableValue` ends in holds no handle to an isolated
instance. -/
theorem walk_avoids {st : Store} {a : Nat} {cell : Option ClassInstance}
    (hst : st.Isolates a cell) :
    ∀ (names : List String) (cur_closure : ClosureRef) (cur : Closure) (r : ClosureRef × Closure),
      Closure.Avoids a cur → VariableValue.walk st cur_closure cur names = .ok r →
      Closure.Avoids a r.2
  | [], cur_closure, cur, r, hcur, hw => by
    simp only [VariableValue.walk, Except.ok.injEq] at hw
    rw [← hw]
    exact hcur
  | id :: rest, cur_closure, cur, r, hcur, hw => by
    unfold VariableValue.walk at hw
    cases hfind : Closure.find cur id with
    | none => simp [hfind] at hw
    | some found =>
      cases found with
      | classInstance p =>
        cases hinst : st.deref p with
        | none => simp [hfind, hinst] at hw
        | some inst =>
          simp only [hfind, hinst] at hw
          exact walk_avoids hst rest _ _ r (hst.2 p inst hinst) hw
      | none => simp [hfind] at hw
      | number _ => simp [hfind] at hw
      | string _ => simp [hfind] at hw
      | bool _ => simp [hfind] at hw
      | class_ _ => simp [hfind] at hw

/-- `VariableValue` answers no handle to an isolated instance. -/
theorem VariableValue_avoids (h : Host) {st : Store} {a : Nat} {cell : Option ClassInstance}
    (hst : st.Isolates a cell) (dotted_ids : List String) (closure : Closure)
    (hclosure : Closure.Avoids a closure) (value : ObjectHolder)
    (hv : VariableValue.Execute h dotted_ids closure st = .ok value) :
    value ≠ .classInstance a := by
  unfold VariableValue.Execute at hv
  cases hlast : dotted_ids.getLast? with
  | none => simp [hlast] at hv
  | some back =>
    cases hw : VariableValue.walk st .frame closure dotted_ids.dropLast with
    | error e => simp [hlast, hw] at hv
    | ok r =>
      obtain ⟨cur_closure, cur⟩ := r
      have hcur : Closure.Avoids a cur := walk_avoids hst _ _ _ _ hclosure hw
      simp only [hlast, hw] at hv
      split at hv
      · cases hfind : Closure.find cur back with
        | none => simp [hfind] at hv
        | some found =>
          simp only [hfind, Except.ok.injEq] at hv
          rw [← hv]
          exact Closure.Avoids_find hcur hfind
      · cases hv

/-- `Call` isolates an address when `Execute` does. -/
theorem Call_isolates (a : Nat) (cell : Option ClassInstance) (execute : Executor)
    (hexec : IsolatingExecutor a cell execute) :
    IsolatingCaller a cell (ClassInstance.Call execute) := by
  intro self method actual_args st hself hargs hst
  cases hd : st.deref self with
  | none =>
    simp only [ClassInstance.Call, hd]
    exact hst
  | some inst =>
    cases hm : inst.class_.GetMethod method with
    | none =>
      simp only [ClassInstance.Call, hd, hm]
      exact hst
    | some m =>
      by_cases harity : m.formal_params.length = actual_args.length
      · rw [Call_of_GetMethod execute self inst method m actual_args st hd hm harity]
        have hscope : Closure.Avoids a (callScope self m.formal_params actual_args) := by
          refine bindParams_avoids _ _ _ (fun kv hkv => ?_) hargs
          rw [List.mem_singleton.1 hkv]
          exact fun hh => hself (ObjectHolder.classInstance.inj hh)
        have := hexec m.body (callScope self m.formal_params actual_args) st hscope hst
        cases hb : execute m.body (callScope self m.formal_params actual_args) st with
        | normal _ f => rw [hb] at this; exact ⟨this.1, this.2.2⟩
        | returned _ f => rw [hb] at this; exact ⟨this.1, this.2.2⟩
        | raised _ f => rw [hb] at this; exact this.2
        | timeout => trivial
      · have hne : (m.formal_params.length != actual_args.length) = true := by simpa using harity
        simp only [ClassInstance.Call, hd, hm, hne, if_true]
        exact hst

/-- The argument loop isolates an address when `Execute` does, and no argument value
is a handle to the instance there. -/
theorem evalArgs_isolates (a : Nat) (cell : Option ClassInstance) (execute : Executor)
    (hexec : IsolatingExecutor a cell execute) :
    ∀ (args : List Statement) (closure : Closure) (st : Store),
      Closure.Avoids a closure → st.Isolates a cell →
      (evalArgs execute args closure st).AllWith
        (fun values => ∀ value ∈ values, value ≠ ObjectHolder.classInstance a)
        (fun value => value ≠ .classInstance a) (fun f => f.Isolates a cell)
  | [], closure, st, hc, hst => by
    unfold evalArgs
    exact ⟨fun value hvalue => (by cases hvalue), hc, hst⟩
  | stmt :: rest, closure, st, hc, hst => by
    unfold evalArgs
    refine Outcome.AllWith_bind _ _ (hexec stmt closure st hc hst) fun value f hv hf => ?_
    refine Outcome.AllWith_bind _ _
      (evalArgs_isolates a cell execute hexec rest f.closure f.store hf.1 hf.2)
      fun values f1 hvs hf1 => ?_
    refine ⟨fun v hmem => ?_, hf1⟩
    rcases List.mem_cons.1 hmem with hh | hh
    · rw [hh]
      exact hv
    · exact hvs v hh

/-- The loop of `Compound` isolates an address when `Execute` does. -/
theorem Compound_loop_isolates (a : Nat) (cell : Option ClassInstance) (execute : Executor)
    (hexec : IsolatingExecutor a cell execute) :
    ∀ (statements : List Statement) (closure : Closure) (st : Store),
      Closure.Avoids a closure → st.Isolates a cell →
      (Compound.loop execute statements closure st).AllWith
        (fun value => value ≠ .classInstance a)
        (fun value => value ≠ .classInstance a) (fun f => f.Isolates a cell)
  | [], closure, st, hc, hst => by
    unfold Compound.loop
    exact ⟨fun hh => (by cases hh), hc, hst⟩
  | stmt :: rest, closure, st, hc, hst => by
    unfold Compound.loop
    exact Outcome.AllWith_bind _ _ (hexec stmt closure st hc hst) fun _ f _ hf =>
      Compound_loop_isolates a cell execute hexec rest f.closure f.store hf.1 hf.2

/-- The loop of `Print` isolates an address when `Execute` and `Print` do. -/
theorem Print_loop_isolates (a : Nat) (cell : Option ClassInstance) (execute : Executor)
    (print : ObjectHolder → Store → Outcome String Store)
    (hexec : IsolatingExecutor a cell execute) (hprint : IsolatingPrinter a cell print) :
    ∀ (args : List Statement) (first : Bool) (closure : Closure) (st : Store),
      Closure.Avoids a closure → st.Isolates a cell →
      (Print.loop execute print args first closure st).AllWith
        (fun value => value ≠ .classInstance a)
        (fun value => value ≠ .classInstance a) (fun f => f.Isolates a cell)
  | [], first, closure, st, hc, hst => by
    unfold Print.loop
    exact ⟨fun hh => (by cases hh), hc, Store.Isolates_write hst "\n"⟩
  | statement :: rest, first, closure, st, hc, hst => by
    unfold Print.loop
    have hstart : (if first = true then st else st.write " ").Isolates a cell := by
      cases first
      · exact Store.Isolates_write hst " "
      · exact hst
    refine Outcome.AllWith_bind _ _ (hexec statement closure _ hc hstart) fun result f hv hf => ?_
    have hnone : (Print.loop execute print rest false f.closure (f.store.write "None")).AllWith
        (fun value => value ≠ .classInstance a)
        (fun value => value ≠ .classInstance a) (fun f => f.Isolates a cell) :=
      Print_loop_isolates a cell execute print hexec hprint rest false f.closure _ hf.1
        (Store.Isolates_write hf.2 "None")
    have hobject : (((print result f.store).inFrame f.closure).bind fun text f1 =>
        Print.loop execute print rest false f1.closure (f1.store.write text)).AllWith
        (fun value => value ≠ .classInstance a)
        (fun value => value ≠ .classInstance a) (fun f => f.Isolates a cell) := by
      refine Outcome.AllWith_bind _ _
        (Outcome.AllWith_inFrame a cell f.closure _ hf.1 (hprint result f.store hv hf.2))
        fun text f1 _ hf1 => ?_
      exact Print_loop_isolates a cell execute print hexec hprint rest false f1.closure _ hf1.1
        (Store.Isolates_write hf1.2 text)
    cases result with
    | none => exact hnone
    | number _ => exact hobject
    | string _ => exact hobject
    | bool _ => exact hobject
    | class_ _ => exact hobject
    | classInstance _ => exact hobject

/-- `Add.values` isolates an address when `Call` does. -/
theorem Add_values_isolates (a : Nat) (cell : Option ClassInstance) (call : Caller)
    (hcall : IsolatingCaller a cell call) (left right : ObjectHolder) (st : Store)
    (hleft : left ≠ .classInstance a) (hright : right ≠ .classInstance a)
    (hst : st.Isolates a cell) :
    (Add.values call left right st).AllWith (fun value => value ≠ .classInstance a)
      (fun value => value ≠ .classInstance a) (fun s => s.Isolates a cell) := by
  unfold Add.values
  split
  · exact ⟨fun hh => (by cases hh), hst⟩
  · exact ⟨fun hh => (by cases hh), hst⟩
  · split
    · exact hst
    · split
      · refine hcall _ _ _ st (fun hh => hleft (by rw [hh])) (fun value hvalue => ?_) hst
        rw [List.mem_singleton.1 hvalue]
        exact hright
      · exact hst
  · exact hst

/-- The call of a comparison method isolates an address when `Call` and the rest of the
function do. -/
theorem compareByMethod_isolates (a : Nat) (cell : Option ClassInstance) (call : Caller)
    (hcall : IsolatingCaller a cell call) (method : String) (lhs rhs : ObjectHolder) (st : Store)
    (otherwise : Outcome Bool Store) (hlhs : lhs ≠ .classInstance a)
    (hrhs : rhs ≠ .classInstance a) (hst : st.Isolates a cell)
    (hother : otherwise.AllWith (fun _ => True) (fun value => value ≠ .classInstance a)
      (fun s => s.Isolates a cell)) :
    (compareByMethod call method lhs rhs st otherwise).AllWith (fun _ => True)
      (fun value => value ≠ .classInstance a) (fun s => s.Isolates a cell) := by
  unfold compareByMethod
  split
  · split
    · exact hst
    · split
      · refine Outcome.AllWith_bind _ _
          (hcall _ _ _ st (fun hh => hlhs (by rw [hh])) (fun value hvalue => ?_) hst)
          fun _ _ _ hs => ⟨trivial, hs⟩
        rw [List.mem_singleton.1 hvalue]
        exact hrhs
      · exact hother
  · exact hother

/-- `Equal` isolates an address when `Call` does. -/
theorem Equal_isolates (a : Nat) (cell : Option ClassInstance) (call : Caller)
    (hcall : IsolatingCaller a cell call) (lhs rhs : ObjectHolder) (st : Store)
    (hlhs : lhs ≠ .classInstance a) (hrhs : rhs ≠ .classInstance a) (hst : st.Isolates a cell) :
    (Equal call lhs rhs st).AllWith (fun _ => True) (fun value => value ≠ .classInstance a)
      (fun s => s.Isolates a cell) := by
  unfold Equal
  split
  · exact ⟨trivial, hst⟩
  · refine compareByMethod_isolates a cell call hcall _ _ _ st _ hlhs hrhs hst ?_
    split
    · exact ⟨trivial, hst⟩
    · exact hst

/-- `Less` isolates an address when `Call` does. -/
theorem Less_isolates (a : Nat) (cell : Option ClassInstance) (call : Caller)
    (hcall : IsolatingCaller a cell call) (lhs rhs : ObjectHolder) (st : Store)
    (hlhs : lhs ≠ .classInstance a) (hrhs : rhs ≠ .classInstance a) (hst : st.Isolates a cell) :
    (Less call lhs rhs st).AllWith (fun _ => True) (fun value => value ≠ .classInstance a)
      (fun s => s.Isolates a cell) := by
  unfold Less
  split
  · exact ⟨trivial, hst⟩
  · exact compareByMethod_isolates a cell call hcall _ _ _ st _ hlhs hrhs hst hst

/-- `Sub.values` answers a number, so no handle to an instance. -/
theorem Sub_values_avoids (a : Nat) (left right value : ObjectHolder)
    (hv : Sub.values left right = .ok value) : value ≠ .classInstance a := by
  unfold Sub.values at hv
  split at hv
  · cases hv
    exact fun hh => by cases hh
  · cases hv

/-- `Mult.values` answers a number, so no handle to an instance. -/
theorem Mult_values_avoids (a : Nat) (left right value : ObjectHolder)
    (hv : Mult.values left right = .ok value) : value ≠ .classInstance a := by
  unfold Mult.values at hv
  split at hv
  · cases hv
    exact fun hh => by cases hh
  · cases hv

/-- `Div.values` answers a number, so no handle to an instance. -/
theorem Div_values_avoids (a : Nat) (left right value : ObjectHolder)
    (hv : Div.values left right = .ok value) : value ≠ .classInstance a := by
  unfold Div.values at hv
  split at hv
  · split at hv
    · cases hv
    · split at hv
      · cases hv
        exact fun hh => by cases hh
      · cases hv
  · cases hv

/-- `Execute` and `Print` isolate an address, with every budget and however they end:
run from a closure and a store in which nothing refers to the instance at `a`, they
leave the cell at `a` as it is, answer and throw no handle to it, and leave a closure
and a store in which nothing refers to it. -/
theorem Execute_isolates (h : Host) (a : Nat) (cell : Option ClassInstance) :
    ∀ n, IsolatingExecutor a cell (Execute h n) ∧ IsolatingPrinter a cell (PrintObject h n)
  | 0 => ⟨fun _ _ _ _ _ => by simp only [Execute]; trivial,
          fun _ _ _ _ => by simp only [PrintObject]; trivial⟩
  | n + 1 => by
    obtain ⟨he, hp⟩ := Execute_isolates h a cell n
    have hc := Call_isolates a cell _ he
    constructor
    · intro stmt closure st hcl hst
      cases stmt with
      | NumericConst _ => simp only [Execute]; exact ⟨fun hh => (by cases hh), hcl, hst⟩
      | StringConst _ => simp only [Execute]; exact ⟨fun hh => (by cases hh), hcl, hst⟩
      | BoolConst _ => simp only [Execute]; exact ⟨fun hh => (by cases hh), hcl, hst⟩
      | None => simp only [Execute]; exact ⟨fun hh => (by cases hh), hcl, hst⟩
      | Assignment var_name right_value =>
        simp only [Execute]
        exact Outcome.AllWith_bind _ _ (he right_value closure st hcl hst) fun value f hv hf =>
          ⟨hv, Closure.Avoids_assign _ _ _ hf.1 hv, hf.2⟩
      | VariableValue dotted_ids =>
        simp only [Execute]
        exact Outcome.AllWith_ofExcept _ _
          (fun value hvalue => VariableValue_avoids h hst dotted_ids closure hcl value hvalue)
          ⟨hcl, hst⟩
      | Print args =>
        simp only [Execute]
        exact Print_loop_isolates a cell _ _ he hp args true closure st hcl hst
      | MethodCall object method args =>
        simp only [Execute]
        refine Outcome.AllWith_bind _ _ (evalArgs_isolates a cell _ he args closure st hcl hst)
          fun actual_args f hargs hf => ?_
        refine Outcome.AllWith_bind _ _ (he object f.closure f.store hf.1 hf.2)
          fun callee f1 hcallee hf1 => ?_
        cases callee with
        | classInstance p =>
          exact Outcome.AllWith_inFrame a cell f1.closure _ hf1.1
            (hc p method actual_args f1.store (fun hh => hcallee (by rw [hh])) hargs hf1.2)
        | none => exact hf1
        | number _ => exact hf1
        | string _ => exact hf1
        | bool _ => exact hf1
        | class_ _ => exact hf1
      | Stringify argument =>
        simp only [Execute]
        refine Outcome.AllWith_bind _ _ (he argument closure st hcl hst) fun value f hv hf => ?_
        exact Outcome.AllWith_bind _ _
          (Outcome.AllWith_inFrame a cell f.closure _ hf.1 (hp value f.store hv hf.2))
          fun _ _ _ hf1 => ⟨fun hh => (by cases hh), hf1⟩
      | Add lhs rhs =>
        simp only [Execute]
        refine Outcome.AllWith_bind _ _ (he lhs closure st hcl hst) fun left f hl hf => ?_
        refine Outcome.AllWith_bind _ _ (he rhs f.closure f.store hf.1 hf.2)
          fun right f1 hr hf1 => ?_
        exact Outcome.AllWith_inFrame a cell f1.closure _ hf1.1
          (Add_values_isolates a cell _ hc left right f1.store hl hr hf1.2)
      | Sub lhs rhs =>
        simp only [Execute]
        refine Outcome.AllWith_bind _ _ (he lhs closure st hcl hst) fun left f hl hf => ?_
        exact Outcome.AllWith_bind _ _ (he rhs f.closure f.store hf.1 hf.2)
          fun right f1 hr hf1 =>
            Outcome.AllWith_ofExcept _ _ (Sub_values_avoids a left right) hf1
      | Mult lhs rhs =>
        simp only [Execute]
        refine Outcome.AllWith_bind _ _ (he lhs closure st hcl hst) fun left f hl hf => ?_
        exact Outcome.AllWith_bind _ _ (he rhs f.closure f.store hf.1 hf.2)
          fun right f1 hr hf1 =>
            Outcome.AllWith_ofExcept _ _ (Mult_values_avoids a left right) hf1
      | Div lhs rhs =>
        simp only [Execute]
        refine Outcome.AllWith_bind _ _ (he lhs closure st hcl hst) fun left f hl hf => ?_
        exact Outcome.AllWith_bind _ _ (he rhs f.closure f.store hf.1 hf.2)
          fun right f1 hr hf1 =>
            Outcome.AllWith_ofExcept _ _ (Div_values_avoids a left right) hf1
      | Compound statements =>
        simp only [Execute]
        exact Compound_loop_isolates a cell _ he statements closure st hcl hst
      | Return statement =>
        simp only [Execute]
        exact Outcome.AllWith_bind _ _ (he statement closure st hcl hst) fun _ _ hv hf => ⟨hv, hf⟩
      | ClassDefinition cls =>
        simp only [Execute]
        exact ⟨fun hh => (by cases hh),
          Closure.Avoids_assign _ _ _ hcl (fun hh => (by cases hh)), hst⟩
      | FieldAssignment object field_name right_value =>
        cases hobj : VariableValue.Execute h object closure st with
        | error e =>
          simp only [Execute, hobj]
          exact ⟨hcl, hst⟩
        | ok target =>
          have htarget := VariableValue_avoids h hst object closure hcl target hobj
          cases target with
          | classInstance p =>
            simp only [Execute, hobj]
            refine Outcome.AllWith_bind _ _ (he right_value closure st hcl hst)
              fun value f hv hf => ?_
            split
            · exact ⟨hv, hf.1, Store.Isolates_assignField hf.2 p
                (fun hh => htarget (by rw [hh])) field_name value hv⟩
            · exact hf
          | none => simp only [Execute, hobj]; exact ⟨hcl, hst⟩
          | number _ => simp only [Execute, hobj]; exact ⟨hcl, hst⟩
          | string _ => simp only [Execute, hobj]; exact ⟨hcl, hst⟩
          | bool _ => simp only [Execute, hobj]; exact ⟨hcl, hst⟩
          | class_ _ => simp only [Execute, hobj]; exact ⟨hcl, hst⟩
      | IfElse condition if_body else_body =>
        simp only [Execute]
        refine Outcome.AllWith_bind _ _ (he condition closure st hcl hst) fun value f _ hf => ?_
        split
        · exact Outcome.AllWith_bind _ _ (he if_body f.closure f.store hf.1 hf.2)
            fun _ _ _ hf1 => ⟨fun hh => (by cases hh), hf1⟩
        · cases else_body with
          | some body =>
            exact Outcome.AllWith_bind _ _ (he body f.closure f.store hf.1 hf.2)
              fun _ _ _ hf1 => ⟨fun hh => (by cases hh), hf1⟩
          | none => exact ⟨fun hh => (by cases hh), hf⟩
      | Or lhs rhs =>
        simp only [Execute]
        refine Outcome.AllWith_bind _ _ (he lhs closure st hcl hst) fun left f _ hf => ?_
        split
        · exact ⟨fun hh => (by cases hh), hf⟩
        · exact Outcome.AllWith_bind _ _ (he rhs f.closure f.store hf.1 hf.2)
            fun _ _ _ hf1 => ⟨fun hh => (by cases hh), hf1⟩
      | And lhs rhs =>
        simp only [Execute]
        refine Outcome.AllWith_bind _ _ (he lhs closure st hcl hst) fun left f _ hf => ?_
        split
        · exact Outcome.AllWith_bind _ _ (he rhs f.closure f.store hf.1 hf.2)
            fun _ _ _ hf1 => ⟨fun hh => (by cases hh), hf1⟩
        · exact ⟨fun hh => (by cases hh), hf⟩
      | Not argument =>
        simp only [Execute]
        exact Outcome.AllWith_bind _ _ (he argument closure st hcl hst)
          fun _ _ _ hf => ⟨fun hh => (by cases hh), hf⟩
      | Comparison comparator left right =>
        simp only [Execute]
        have hcompare : ∀ (lhs rhs : ObjectHolder) (f : Frame), lhs ≠ .classInstance a →
            rhs ≠ .classInstance a → f.Isolates a cell →
            (((match comparator with
              | .Equal => Equal (ClassInstance.Call (Execute h n)) lhs rhs f.store
              | .Less => Less (ClassInstance.Call (Execute h n)) lhs rhs f.store).inFrame
                f.closure).bind fun result f1 =>
                  Outcome.normal (ObjectHolder.bool result) f1).AllWith
              (fun (value : ObjectHolder) => value ≠ .classInstance a)
              (fun (value : ObjectHolder) => value ≠ .classInstance a)
              (fun (f1 : Frame) => f1.Isolates a cell) := by
          intro lhs rhs f hl hr hf
          have hcmp : (match comparator with
              | .Equal => Equal (ClassInstance.Call (Execute h n)) lhs rhs f.store
              | .Less => Less (ClassInstance.Call (Execute h n)) lhs rhs f.store).AllWith
              (fun _ => True) (fun (value : ObjectHolder) => value ≠ .classInstance a)
              (fun (s : Store) => s.Isolates a cell) := by
            cases comparator
            · exact Equal_isolates a cell _ hc lhs rhs f.store hl hr hf.2
            · exact Less_isolates a cell _ hc lhs rhs f.store hl hr hf.2
          exact Outcome.AllWith_bind _ _ (Outcome.AllWith_inFrame a cell f.closure _ hf.1 hcmp)
            fun _ _ _ hf1 => ⟨fun hh => (by cases hh), hf1⟩
        split
        · refine Outcome.AllWith_bind _ _ (he right closure st hcl hst) fun rhs f hr hf => ?_
          exact Outcome.AllWith_bind _ _ (he left f.closure f.store hf.1 hf.2)
            fun lhs f1 hl hf1 => hcompare lhs rhs f1 hl hr hf1
        · refine Outcome.AllWith_bind _ _ (he left closure st hcl hst) fun lhs f hl hf => ?_
          exact Outcome.AllWith_bind _ _ (he right f.closure f.store hf.1 hf.2)
            fun rhs f1 hr hf1 => hcompare lhs rhs f1 hl hr hf1
      | NewInstance class_ args =>
        simp only [Execute]
        have hcons := Store.Isolates_construct hst class_
        have hne : (st.construct class_).1 ≠ a := Nat.ne_of_gt (Store.Isolates_lt hst)
        split
        · refine Outcome.AllWith_bind _ _
            (evalArgs_isolates a cell _ he args closure _ hcl hcons)
            fun actual_args f hargs hf => ?_
          refine Outcome.AllWith_bind _ _ (Outcome.AllWith_inFrame a cell f.closure _ hf.1
            (hc _ "__init__" actual_args f.store hne hargs hf.2))
            fun _ f1 _ hf1 => ?_
          exact Outcome.AllWith_inFrame a cell f1.closure _ hf1.1
            (Store.own_isolates hf1.2 _ hne)
        · exact Outcome.AllWith_inFrame a cell closure _ hcl (Store.own_isolates hcons _ hne)
    · intro object st hobject hst
      cases object with
      | none => simp only [PrintObject]; exact hst
      | number _ => simp only [PrintObject]; exact ⟨trivial, hst⟩
      | string _ => simp only [PrintObject]; exact ⟨trivial, hst⟩
      | bool _ => simp only [PrintObject]; exact ⟨trivial, hst⟩
      | class_ _ => simp only [PrintObject]; exact ⟨trivial, hst⟩
      | classInstance self =>
        simp only [PrintObject]
        split
        · exact hst
        · split
          · exact Outcome.AllWith_bind _ _
              (hc self "__str__" [] st (fun hh => hobject (by rw [hh]))
                (fun value hvalue => (by cases hvalue)) hst)
              fun value s hv hs => hp value s hv hs
          · exact ⟨trivial, hst⟩

/-- C20: `NewInstance` constructs an instance of the class without fields. When no class
of the chain defines `__init__`, the arguments are not evaluated and the instance is
answered as it is, with nothing else changed. Otherwise the arguments are evaluated
from left to right and `__init__` is called on the instance: an error of an argument or
of the call is the outcome, a number of arguments that is not the number of formal
parameters of `__init__` is the arity error, and when the call completes, the handle
answered is that of an instance of the class with the fields the call left in it. The
instance `__init__` is called on is of the class, and it still has no fields when
nothing in the closure and the store `NewInstance` starts from refers to its address. -/
theorem NewInstance_runs_init (h : Host) (n : Nat) (class_ : Class) (args : List Statement)
    (closure : Closure) (st : Store) :
    (st.construct class_).2.deref st.heap.length = some ⟨class_, []⟩ ∧
    (class_.GetMethod "__init__" = Option.none →
      ∃ st1, Execute h (n + 1) (.NewInstance class_ args) closure st =
          .normal (.classInstance (st.heap.length + 1)) ⟨closure, st1⟩ ∧
        st1.deref (st.heap.length + 1) = some ⟨class_, []⟩ ∧ st1.output = st.output ∧
        st.Keeps st1) ∧
    (∀ m, class_.GetMethod "__init__" = some m →
      Execute h (n + 1) (.NewInstance class_ args) closure st =
        (evalArgs (Execute h n) args closure (st.construct class_).2).bind
          (fun actual_args f =>
            ((ClassInstance.Call (Execute h n) st.heap.length "__init__" actual_args
              f.store).inFrame f.closure).bind
              fun _ f1 => (f1.store.own st.heap.length).inFrame f1.closure) ∧
      (∀ e f, evalArgs (Execute h n) args closure (st.construct class_).2 = .raised e f →
        Execute h (n + 1) (.NewInstance class_ args) closure st = .raised e f) ∧
      ∀ actual_args f,
        evalArgs (Execute h n) args closure (st.construct class_).2 = .normal actual_args f →
        (∃ inst, f.store.deref st.heap.length = some inst ∧ inst.class_ = class_) ∧
        (Closure.Avoids st.heap.length closure →
          (∀ addr inst, st.deref addr = some inst →
            Closure.Avoids st.heap.length inst.fields) →
          f.store.deref st.heap.length = some ⟨class_, []⟩) ∧
        (m.formal_params.length ≠ actual_args.length →
          Execute h (n + 1) (.NewInstance class_ args) closure st =
            .raised (.runtime ("Method " ++ class_.GetName ++ "::" ++ "__init__" ++ " expects "
              ++ toString m.formal_params.length ++ " arguments, but "
              ++ toString actual_args.length ++ " given")) f) ∧
        (∀ e s1,
          ClassInstance.Call (Execute h n) st.heap.length "__init__" actual_args f.store =
            .raised e s1 →
          Execute h (n + 1) (.NewInstance class_ args) closure st =
            .raised e ⟨f.closure, s1⟩) ∧
        (∀ value s1,
          ClassInstance.Call (Execute h n) st.heap.length "__init__" actual_args f.store =
            .normal value s1 →
          ∃ inst st2, s1.deref st.heap.length = some inst ∧ inst.class_ = class_ ∧
            Execute h (n + 1) (.NewInstance class_ args) closure st =
              .normal (.classInstance s1.heap.length) ⟨f.closure, st2⟩ ∧
            st2.deref s1.heap.length = some inst ∧ st2.output = s1.output)) := by
  obtain ⟨hkeep0, _, hfresh, hout0⟩ := Store.construct_spec st class_
  obtain ⟨he, _⟩ := Execute_keeps h n
  have hc := Call_keeps _ he
  refine ⟨hfresh, fun hnone => ?_, fun m hm => ?_⟩
  · obtain ⟨st1, hown, hd1, hout1, hothers⟩ :=
      Store.own_spec (st.construct class_).2 st.heap.length ⟨class_, []⟩ hfresh
    have hlen : (st.construct class_).2.heap.length = st.heap.length + 1 := by
      simp [Store.construct]
    rw [hlen] at hown hd1
    refine ⟨st1, ?_, hd1, hout1.trans hout0, ?_⟩
    · have h1 : (st.construct class_).1 = st.heap.length := rfl
      simp only [Execute, hnone, h1, hown, Outcome.inFrame]
    · have := Store.own_keeps st (st.construct class_).2 st.heap.length hkeep0
        (Store.deref_length st)
      rw [hown] at this
      exact this
  · have h1 : (st.construct class_).1 = st.heap.length := rfl
    have hexec : Execute h (n + 1) (.NewInstance class_ args) closure st =
        (evalArgs (Execute h n) args closure (st.construct class_).2).bind
          (fun actual_args f =>
            ((ClassInstance.Call (Execute h n) st.heap.length "__init__" actual_args
              f.store).inFrame f.closure).bind
              fun _ f1 => (f1.store.own st.heap.length).inFrame f1.closure) := by
      simp only [Execute, hm, h1]
    refine ⟨hexec, fun e f hargs => by rw [hexec, hargs]; rfl, fun actual_args f hargs => ?_⟩
    have hkeepf : (st.construct class_).2.Keeps f.store := by
      have := evalArgs_keeps _ he args closure (st.construct class_).2
      rw [hargs] at this
      exact this
    obtain ⟨inst0, hd0, hclass0⟩ := hkeepf _ _ hfresh
    have hclass0' : inst0.class_ = class_ := hclass0
    refine ⟨⟨inst0, hd0, hclass0'⟩, fun hclosure hstore => ?_, fun harity => ?_,
      fun e s1 hcall => ?_, fun value s1 hcall => ?_⟩
    · have hiso := evalArgs_isolates st.heap.length (some ⟨class_, []⟩) (Execute h n)
        (Execute_isolates h st.heap.length (some ⟨class_, []⟩) n).1 args closure
        (st.construct class_).2 hclosure (Store.construct_isolates st class_ hstore)
      rw [hargs] at hiso
      have hcell := hiso.2.2.1
      simp only [Store.deref, hcell]
    · have hne : (m.formal_params.length != actual_args.length) = true := by simpa using harity
      rw [hexec, hargs]
      simp [Outcome.bind, ClassInstance.Call, hd0, hclass0', hm, hne, Outcome.inFrame]
    · rw [hexec, hargs]
      simp [Outcome.bind, hcall, Outcome.inFrame]
    · have hkeeps1 : f.store.Keeps s1 := by
        have := hc st.heap.length "__init__" actual_args f.store
        rw [hcall] at this
        exact this
      obtain ⟨inst, hd, hclass⟩ := hkeeps1 _ _ hd0
      obtain ⟨st2, hown, hd2, hout2, _⟩ := Store.own_spec s1 st.heap.length inst hd
      refine ⟨inst, st2, hd, hclass.trans hclass0', ?_, hd2, hout2⟩
      rw [hexec, hargs]
      simp [Outcome.bind, hcall, Outcome.inFrame, hown]

/-- Witness of C20: `C` has no `__init__`, so `C(1 / 0)` does not evaluate its argument
and answers an instance of `C` without fields; `Point(3, 4)` answers an instance with
the fields `x = 3` and `y = 4` that `__init__` wrote through `self`; and the instance
`__init__` is called on there has no fields after the arguments `3` and `4` are
evaluated. -/
theorem NewInstance_runs_init_witness :
    (∃ st1, Execute Host.hashed 1
          (.NewInstance Sample.C [.Div (.NumericConst 1) (.NumericConst 0)]) [] ⟨[], ""⟩ =
        .normal (.classInstance 1) ⟨[], st1⟩ ∧
      st1.deref 1 = some ⟨Sample.C, []⟩ ∧ st1.output = "" ∧
      (⟨[], ""⟩ : Store).Keeps st1) ∧
    Execute Host.hashed 5 (.NewInstance Sample.Point [.NumericConst 3, .NumericConst 4]) []
        ⟨[], ""⟩ =
      .normal (.classInstance 1)
        ⟨[], ⟨[Option.none, some ⟨Sample.Point, [("x", .number 3), ("y", .number 4)]⟩], ""⟩⟩ ∧
    evalArgs (Execute Host.hashed 4) [.NumericConst 3, .NumericConst 4] []
        ((⟨[], ""⟩ : Store).construct Sample.Point).2 =
      .normal [.number 3, .number 4] ⟨[], ⟨[some ⟨Sample.Point, []⟩], ""⟩⟩ ∧
    (⟨[some ⟨Sample.Point, []⟩], ""⟩ : Store).deref 0 = some ⟨Sample.Point, []⟩ :=
  ⟨(NewInstance_runs_init Host.hashed 0 Sample.C [.Div (.NumericConst 1) (.NumericConst 0)] []
      ⟨[], ""⟩).2.1 rfl,
   rfl, rfl,
   (((NewInstance_runs_init Host.hashed 4 Sample.Point [.NumericConst 3, .NumericConst 4] []
      ⟨[], ""⟩).2.2 _ rfl).2.2 [.number 3, .number 4] ⟨[], ⟨[some ⟨Sample.Point, []⟩], ""⟩⟩
      rfl).2.1 (fun _ hkv => (by cases hkv)) (fun _ _ hd => (by simp [Store.deref] at hd))⟩

/-- C22: when its argument evaluates to a value `v`, `Not` answers the Bool `!IsTrue(v)`,
whose truth value is `!IsTrue(v)`. When the left operand evaluates to `l` and the right
operand, run from what the left one left, evaluates to `r`, `Or` answers the Bool
`IsTrue(l) || IsTrue(r)` and `And` answers the Bool `IsTrue(l) && IsTrue(r)`; the frame
they leave is that of the last operand they evaluated. -/
theorem Not_Or_And_truth (h : Host) (n : Nat) (argument lhs rhs : Statement) (closure : Closure)
    (st : Store) :
    (∀ v f, Execute h n argument closure st = .normal v f →
      Execute h (n + 1) (.Not argument) closure st = .normal (.bool (!IsTrue v)) f ∧
      IsTrue (.bool (!IsTrue v)) = !IsTrue v) ∧
    (∀ l r f f1, Execute h n lhs closure st = .normal l f →
      Execute h n rhs f.closure f.store = .normal r f1 →
      Execute h (n + 1) (.Or lhs rhs) closure st =
        .normal (.bool (IsTrue l || IsTrue r)) (if IsTrue l then f else f1) ∧
      Execute h (n + 1) (.And lhs rhs) closure st =
        .normal (.bool (IsTrue l && IsTrue r)) (if IsTrue l then f1 else f)) := by
  refine ⟨fun v f hv => ⟨?_, rfl⟩, fun l r f f1 hl hr => ?_⟩
  · simp [Execute, hv, Outcome.bind]
  · cases ht : IsTrue l <;> simp [Execute, hl, hr, Outcome.bind, ht]

/-- Witness of C22: `not 0` is true, `0 or 'a'` is true and `0 and 'a'` is false. -/
theorem Not_Or_And_truth_witness :
    Execute Host.hashed 2 (.Not (.NumericConst 0)) [] ⟨[], ""⟩ =
      .normal (.bool true) ⟨[], ⟨[], ""⟩⟩ ∧
    Execute Host.hashed 2 (.Or (.NumericConst 0) (.StringConst "a")) [] ⟨[], ""⟩ =
      .normal (.bool true) ⟨[], ⟨[], ""⟩⟩ ∧
    Execute Host.hashed 2 (.And (.NumericConst 0) (.StringConst "a")) [] ⟨[], ""⟩ =
      .normal (.bool false) ⟨[], ⟨[], ""⟩⟩ :=
  ⟨((Not_Or_And_truth Host.hashed 1 (.NumericConst 0) (.NumericConst 0) (.StringConst "a") []
      ⟨[], ""⟩).1 (.number 0) ⟨[], ⟨[], ""⟩⟩ rfl).1,
   ((Not_Or_And_truth Host.hashed 1 (.NumericConst 0) (.NumericConst 0) (.StringConst "a") []
      ⟨[], ""⟩).2 (.number 0) (.string "a") ⟨[], ⟨[], ""⟩⟩ ⟨[], ⟨[], ""⟩⟩ rfl rfl).1,
   ((Not_Or_And_truth Host.hashed 1 (.NumericConst 0) (.NumericConst 0) (.StringConst "a") []
      ⟨[], ""⟩).2 (.number 0) (.string "a") ⟨[], ⟨[], ""⟩⟩ ⟨[], ⟨[], ""⟩⟩ rfl rfl).2⟩

/-- The loop of `Print::Execute` over arguments of which the first ones evaluate and
print as `PrintRun` says and the next one raises an error: the error is the outcome,
and the pieces of the arguments before it, each followed by a space, stay written. -/
theorem Print_loop_fails (execute : Executor)
    (print : ObjectHolder → Store → Outcome String Store) {before : List Statement}
    {closure closure1 : Closure} {heap heap1 : List (Option ClassInstance)}
    {pieces : List String}
    (hrun : PrintRun execute print before closure heap pieces closure1 heap1) :
    ∀ (failing : Statement) (after : List Statement) (e : Err) (closure2 : Closure)
      (heap2 : List (Option ClassInstance)) (written : String),
      (∀ output, execute failing closure1 ⟨heap1, output⟩ =
        .raised e ⟨closure2, ⟨heap2, output ++ written⟩⟩) →
      ∀ output,
        Print.loop execute print (before ++ failing :: after) true closure ⟨heap, output⟩ =
          .raised e ⟨closure2, ⟨heap2, output ++ (lineBefore pieces ++ written)⟩⟩ ∧
        Print.loop execute print (before ++ failing :: after) false closure ⟨heap, output⟩ =
          .raised e ⟨closure2, ⟨heap2, output ++ (" " ++ (lineBefore pieces ++ written))⟩⟩ := by
  induction hrun with
  | done =>
    intro failing after e closure2 heap2 written hfail output
    simp [Print.loop, Store.write, hfail, Outcome.bind, lineBefore, String.append_assoc]
  | none heval _ ih =>
    intro failing after e closure2 heap2 written hfail output
    unfold EvaluatesWriting at heval
    simp [Print.loop, Store.write, heval, Outcome.bind, ih failing after e closure2 heap2 written
      hfail, lineBefore, String.append_assoc]
    rw [show ("None " : String) = "None" ++ " " from rfl]
    simp only [String.append_assoc, and_self]
  | @object stmt rest closure closure1 closure3 heap heap1 heap3 heap4 value written0 written1
      text pieces hne heval hrender _ ih =>
    intro failing after e closure2 heap2 written hfail output
    unfold EvaluatesWriting at heval
    unfold RendersWriting at hrender
    have ih1 := ih failing after e closure2 heap2 written hfail
    cases value with
    | none => exact absurd rfl hne
    | number _ =>
      simp [Print.loop, Store.write, heval, hrender, Outcome.bind, Outcome.inFrame, ih1,
        lineBefore, String.append_assoc]
    | string _ =>
      simp [Print.loop, Store.write, heval, hrender, Outcome.bind, Outcome.inFrame, ih1,
        lineBefore, String.append_assoc]
    | bool _ =>
      simp [Print.loop, Store.write, heval, hrender, Outcome.bind, Outcome.inFrame, ih1,
        lineBefore, String.append_assoc]
    | class_ _ =>
      simp [Print.loop, Store.write, heval, hrender, Outcome.bind, Outcome.inFrame, ih1,
        lineBefore, String.append_assoc]
    | classInstance _ =>
      simp [Print.loop, Store.write, heval, hrender, Outcome.bind, Outcome.inFrame, ih1,
        lineBefore, String.append_assoc]

/-- C23, as the code has it: when the arguments before an argument of a `Print` node
evaluate and print one after the other and the evaluation of that argument raises an
error, the error is the outcome of the node, and the node has sent to the output the
piece of each argument before it followed by a space, and what the failing evaluation
wrote itself; it has sent no line feed and nothing of the arguments after it. When the
first argument fails, only what its evaluation wrote itself has been sent. -/
theorem Print_keeps_output_before_failure (h : Host) (n : Nat) (before after : List Statement)
    (failing : Statement) (closure closure1 closure2 : Closure)
    (heap heap1 heap2 : List (Option ClassInstance)) (pieces : List String) (e : Err)
    (written : String)
    (hrun : PrintRun (Execute h n) (PrintObject h n) before closure heap pieces closure1 heap1)
    (hfail : ∀ output, Execute h n failing closure1 ⟨heap1, output⟩ =
      .raised e ⟨closure2, ⟨heap2, output ++ written⟩⟩) :
    (∀ output, Execute h (n + 1) (.Print (before ++ failing :: after)) closure ⟨heap, output⟩ =
      .raised e ⟨closure2, ⟨heap2, output ++ (lineBefore pieces ++ written)⟩⟩) ∧
    (before = [] → ∀ output,
      Execute h (n + 1) (.Print (failing :: after)) closure ⟨heap, output⟩ =
        .raised e ⟨closure2, ⟨heap2, output ++ written⟩⟩) := by
  have hloop := Print_loop_fails _ _ hrun failing after e closure2 heap2 written hfail
  refine ⟨fun output => ?_, fun hempty output => ?_⟩
  · simp only [Execute]
    exact (hloop output).1
  · subst hempty
    cases hrun
    have := (hloop output).1
    simp only [Execute]
    simpa [lineBefore] using this

/-- Witness of C23: `print 1, None, 1 / 0, 2` raises the division error after `1 None`
and a space are written. -/
theorem Print_keeps_output_before_failure_witness :
    Execute Host.hashed 3
        (.Print [.NumericConst 1, .None, .Div (.NumericConst 1) (.NumericConst 0),
          .NumericConst 2]) [] ⟨[], ""⟩ =
      .raised (.runtime "Division by zero") ⟨[], ⟨[], "1 None "⟩⟩ :=
  (Print_keeps_output_before_failure Host.hashed 2 [.NumericConst 1, .None] [.NumericConst 2]
    (.Div (.NumericConst 1) (.NumericConst 0)) [] [] [] [] [] []
    ["" ++ "" ++ "1", "" ++ "None"] (.runtime "Division by zero") ""
    (@PrintRun.object _ _ _ _ [] [] [] [] [] [] [] (.number 1) "" "" "1" _ (by simp)
      (fun output => by simp [Execute]) (fun output => by simp [PrintObject]; rfl)
      (@PrintRun.none _ _ _ _ [] [] [] [] [] [] "" _ (fun output => by simp [Execute])
        PrintRun.done))
    (fun output => by simp [Execute, Outcome.bind, Div.values, Outcome.ofExcept])).1 ""

/-- C23 fails as stated: `print 1, 1 / 0` raises the division error with `1` and a
space written to the output, although nothing was written before; `print x / 0` with
`x = 5`, where the failing argument is the first, writes nothing. -/
theorem Print_partial_output_counterexample :
    Execute Host.hashed 3 (.Print [.NumericConst 1, .Div (.NumericConst 1) (.NumericConst 0)]) []
        ⟨[], ""⟩ =
      .raised (.runtime "Division by zero") ⟨[], ⟨[], "1 "⟩⟩ ∧
    "1 " ≠ "" ∧
    Execute Host.hashed 2 (.NumericConst 1) [] ⟨[], ""⟩ = .normal (.number 1) ⟨[], ⟨[], ""⟩⟩ ∧
    Execute Host.hashed 2 (.Div (.NumericConst 1) (.NumericConst 0)) [] ⟨[], ""⟩ =
      .raised (.runtime "Division by zero") ⟨[], ⟨[], ""⟩⟩ ∧
    Execute Host.hashed 3 (.Print [.Div (.VariableValue ["x"]) (.NumericConst 0)])
        [("x", .number 5)] ⟨[], ""⟩ =
      .raised (.runtime "Division by zero") ⟨[("x", .number 5)], ⟨[], ""⟩⟩ :=
  ⟨rfl, by decide, rfl, rfl, rfl⟩

namespace Parse

end Parse

namespace Parse

end Parse

namespace Parse

end Parse

namespace Parse

/-- White space at the end of a line after a token that ends with `Get`: with a white
space character other than the line feed as look-ahead, only white space left in the
line and no `Indent` or `Dedent` pending, the skip `cur_char = char_reader.Next()`
leaves the line feed in the look-ahead and the call falls through to the last branch,
which answers it as a `Char` token. -/
theorem Lexer.trailing_space_emits_Char (l : Lexer) (c : Char) (hcur : l.cur_char = some c)
    (hsp : isspace c = true) (hc : c ≠ '\n') (hok : l.char_reader.input_ok = true)
    (hind : l.indent = l.char_reader.CurrentIndent)
    (hrest : ∀ d ∈ l.char_reader.current_line_input, isspace d = true) :
    l.NextTokenImpl =
      .ok (.Char '\n',
        { l with char_reader := { l.char_reader with current_line_input := [] },
                 cur_char := some '\n' }) := by
  have hdrop : l.char_reader.current_line_input.dropWhile isspace = [] :=
    List.dropWhile_eq_nil_iff.2 hrest
  have hnl : (some c : Option Char) ≠ some '\n' := fun hh => hc (Option.some.inj hh)
  unfold Lexer.NextTokenImpl
  rw [if_neg (by omega), if_neg (by omega), hcur, if_neg hnl]
  simp only [hsp, if_true]
  simp [Lexer.scan, IndentedReader.Next, hok, hdrop, isdigit, isalpha]

end Parse

/-- C24 at the failing input: in `x `, an identifier followed by a space, the stream
holds a `Char` token with the line feed between `Id` and `Newline`; without the space
it does not, so the space at the end of the line changes the token stream. The same
happens after a number. After a string literal, which ends with `Next`, the space at
the end of the line is skipped. -/
theorem trailing_space_counterexample :
    Parse.Lexer.stream ['x', ' ', '\n'] 4 =
      .ok [⟨.Id "x", 1, 0⟩, ⟨.Char '\n', 1, 0⟩, ⟨.Newline, 1, 0⟩, ⟨.Eof, 1, 0⟩] ∧
    Parse.Lexer.stream ['x', '\n'] 3 =
      .ok [⟨.Id "x", 1, 0⟩, ⟨.Newline, 1, 0⟩, ⟨.Eof, 1, 0⟩] ∧
    Parse.Lexer.stream ['7', ' ', '\n'] 4 =
      .ok [⟨.Number 7, 1, 0⟩, ⟨.Char '\n', 1, 0⟩, ⟨.Newline, 1, 0⟩, ⟨.Eof, 1, 0⟩] ∧
    Parse.Lexer.stream ['"', 'x', '"', ' ', '\n'] 3 =
      .ok [⟨.String "x", 1, 0⟩, ⟨.Newline, 1, 0⟩, ⟨.Eof, 1, 0⟩] ∧
    Parse.isspace '\n' = true :=
  ⟨rfl, rfl, rfl, rfl, rfl⟩

namespace Parse

/-- No keyword is a `Char` token. -/
theorem Lexer.keywords_not_Char (value : String) (tok : Token)
    (hk : Lexer.keywords value = some tok) : ∀ c, tok ≠ .Char c := by
  revert hk
  unfold Lexer.keywords
  refine ite_some_of (fun t : Token => ∀ c, t ≠ Token.Char c) _ _ _ _
    (fun c hh => (by cases hh)) ?_
  refine ite_some_of (fun t : Token => ∀ c, t ≠ Token.Char c) _ _ _ _
    (fun c hh => (by cases hh)) ?_
  refine ite_some_of (fun t : Token => ∀ c, t ≠ Token.Char c) _ _ _ _
    (fun c hh => (by cases hh)) ?_
  refine ite_some_of (fun t : Token => ∀ c, t ≠ Token.Char c) _ _ _ _
    (fun c hh => (by cases hh)) ?_
  refine ite_some_of (fun t : Token => ∀ c, t ≠ Token.Char c) _ _ _ _
    (fun c hh => (by cases hh)) ?_
  refine ite_some_of (fun t : Token => ∀ c, t ≠ Token.Char c) _ _ _ _
    (fun c hh => (by cases hh)) ?_
  refine ite_some_of (fun t : Token => ∀ c, t ≠ Token.Char c) _ _ _ _
    (fun c hh => (by cases hh)) ?_
  refine ite_some_of (fun t : Token => ∀ c, t ≠ Token.Char c) _ _ _ _
    (fun c hh => (by cases hh)) ?_
  refine ite_some_of (fun t : Token => ∀ c, t ≠ Token.Char c) _ _ _ _
    (fun c hh => (by cases hh)) ?_
  refine ite_some_of (fun t : Token => ∀ c, t ≠ Token.Char c) _ _ _ _
    (fun c hh => (by cases hh)) ?_
  refine ite_some_of (fun t : Token => ∀ c, t ≠ Token.Char c) _ _ _ _
    (fun c hh => (by cases hh)) ?_
  refine ite_some_of (fun t : Token => ∀ c, t ≠ Token.Char c) _ _ _ _
    (fun c hh => (by cases hh)) ?_
  intro h
  cases h

/-- A `Char` token that `scan` answers carries the look-ahead. -/
theorem Lexer.scan_Char (l : Lexer) (c : Char) (l1 : Lexer) (h : l.scan = .ok (.Char c, l1)) :
    l.cur_char = some c := by
  have htwo : ∀ (first : Char) (t : Token), (∀ d, t ≠ .Char d) →
      (Except.ok (l.twoCharOp first t) : Except LexFailure (Token × Lexer)) = .ok (.Char c, l1) →
      first = c := by
    intro first t ht h2
    simp only [Except.ok.injEq] at h2
    have hs := (l.twoCharOp_spec first t).1
    rw [h2] at hs
    rcases hs with hs | hs
    · exact absurd hs.symm (ht c)
    · simp only [Token.Char.injEq] at hs
      exact hs.symm
  unfold Lexer.scan at h
  cases hcur : l.cur_char with
  | none =>
    simp only [hcur] at h
    cases h
  | some c0 =>
    simp only [hcur] at h
    split at h
    · cases h
    · split at h
      · split at h
        · cases h
        · split at h
          · cases h
          · cases h
      · split at h
        · split at h
          · rename_i kw hkw
            simp only [Except.ok.injEq, Prod.mk.injEq] at h
            rw [h.1] at hkw
            exact absurd rfl (Lexer.keywords_not_Char _ _ hkw c)
          · cases h
        · split at h
          · rename_i heq
            rw [← htwo _ _ (fun d hh => (by cases hh)) h]
            simpa using heq
          · split at h
            · rename_i heq
              rw [← htwo _ _ (fun d hh => (by cases hh)) h]
              simpa using heq
            · split at h
              · rename_i heq
                rw [← htwo _ _ (fun d hh => (by cases hh)) h]
                simpa using heq
              · split at h
                · rename_i heq
                  rw [← htwo _ _ (fun d hh => (by cases hh)) h]
                  simpa using heq
                · cases h
                  rfl

/-- The only white space character a `Char` token carries is the line feed the reader
answers at the end of a line: a space or a tab is never a token. -/
theorem Lexer.Char_whitespace_is_line_feed (l : Lexer) (c : Char) (l1 : Lexer)
    (h : l.NextToken = .ok (.Char c, l1)) (hsp : isspace c = true) : c = '\n' := by
  unfold Lexer.NextToken at h
  cases himpl : l.NextTokenImpl with
  | error e => simp [himpl] at h
  | ok r =>
    obtain ⟨tok, l2⟩ := r
    simp only [himpl, Except.ok.injEq, Prod.mk.injEq] at h
    rw [h.1] at himpl
    unfold Lexer.NextTokenImpl at himpl
    split at himpl
    · cases himpl
    · split at himpl
      · cases himpl
      · split at himpl
        · cases hn : l.char_reader.NextLine with
          | error e => simp [hn] at himpl
          | ok r => simp [hn] at himpl
        · cases hcur : l.cur_char with
          | none =>
            simp only [hcur] at himpl
            have := Lexer.scan_Char l c l2 himpl
            rw [hcur] at this
            cases this
          | some c0 =>
            simp only [hcur] at himpl
            split at himpl
            · have hnext := Lexer.scan_Char _ c l2 himpl
              simp only at hnext
              unfold IndentedReader.Next at hnext
              cases hok : l.char_reader.input_ok
              · simp [hok] at hnext
              · cases hl : l.char_reader.current_line_input.dropWhile isspace with
                | nil =>
                  simp only [hok, hl, Bool.not_true, Bool.false_eq_true, if_false,
                    Option.some.injEq] at hnext
                  exact hnext.symm
                | cons d rest =>
                  simp only [hok, hl, Bool.not_true, Bool.false_eq_true, if_false,
                    Option.some.injEq] at hnext
                  have hd := List.head_dropWhile_not isspace l.char_reader.current_line_input
                    (by simp [hl])
                  simp only [hl, List.head_cons] at hd
                  by_cases hff : d = '\xff'
                  · simp [hff] at hnext
                  · simp only [hff, if_false, Option.some.injEq] at hnext
                    rw [hnext, hsp] at hd
                    cases hd
            · rename_i hns
              have := Lexer.scan_Char l c l2 himpl
              rw [hcur] at this
              simp only [Option.some.injEq] at this
              rw [this] at hns
              exact absurd hsp hns

end Parse

end Sithon
